import Mathlib

/-!
Monarch `ConfigManager`: merge, diff and the cached merged view.

A shallow embedding of `src/config/cpp/db/config/ConfigManager.cpp`.

A `Config` is a `DynamicObject`: a reference that is either null or points to a
value of one of nine dynamic types.  References are embedded by value: a call
that receives `Config&` and assigns through it is a function that returns the
new content of that reference.  Dereferencing a null reference (calling
`operator[]` or `clear` through it) has no defined result in the program and is
the `none` of the `Option` results below.
-/

namespace Monarch

/-- Modelled from the spec: the `DynamicObjectType` enumeration of the
`DynamicObject` header, which is not among the sources; the nine non-null
types of §3 ("Map, Array, or scalar (String, Bool, Int32, UInt32, Int64,
UInt64, Double)"). -/
inductive DynamicObjectType where
  | String
  | Boolean
  | Int32
  | UInt32
  | Int64
  | UInt64
  | Double
  | Map
  | Array
deriving DecidableEq, Repr

/-- Modelled from the spec: the `Config` (`DynamicObject`) value of §3, whose
class is not among the sources.  `null` is `Config(NULL)`.  A map is the list of
its entries in iteration order, an array the list of its elements.  A `Double`
is carried as an uninterpreted code of its value: floating-point arithmetic is
not embedded, and the only operation used on it is comparison of two scalars of
the same type. -/
inductive Config where
  | null
  | str (s : String)
  | bool (b : Bool)
  | int32 (v : Int)
  | uint32 (v : Nat)
  | int64 (v : Int)
  | uint64 (v : Nat)
  | double (code : Int)
  | map (ms : List (String × Config))
  | array (es : List Config)
deriving Repr, Inhabited

/-- Modelled from the spec: the tier tag of a stored config (`ConfigType` of
`ConfigManager.h`, not among the sources).  The code names `None`, `Default`
and `All`; §3 of the spec names `Default`, `User`, `System`. -/
inductive ConfigType where
  | None
  | Default
  | User
  | System
  | All
deriving DecidableEq, Repr

namespace Config

/-- `ConfigManager::DEFAULT_VALUE`. -/
def DEFAULT_VALUE : String := "__default__"

/-- Modelled from the spec: a default-constructed `Config` (`Config d;`), a
non-null object of type String holding the empty string. -/
def fresh : Config := .str ""

/-- `Collectable::isNull`. -/
def isNull : Config → Bool
  | .null => true
  | _ => false

/-- `DynamicObjectImpl::getType`; `none` stands for the call through a null
reference. -/
def getType : Config → Option DynamicObjectType
  | .null => none
  | .str _ => some .String
  | .bool _ => some .Boolean
  | .int32 _ => some .Int32
  | .uint32 _ => some .UInt32
  | .int64 _ => some .Int64
  | .uint64 _ => some .UInt64
  | .double _ => some .Double
  | .map _ => some .Map
  | .array _ => some .Array

/-- The test `source->getType() == String && strcmp(source->getString(),
DEFAULT_VALUE) == 0` of `merge`. -/
def isDefaultValue : Config → Bool
  | .str s => decide (s = DEFAULT_VALUE)
  | _ => false

/-- Modelled from the spec: `config1 != config2` as `diff` uses it, on two
non-null scalars of the same type: the values are compared. -/
def scalarNe : Config → Config → Bool
  | .str a, .str b => decide (a ≠ b)
  | .bool a, .bool b => decide (a ≠ b)
  | .int32 a, .int32 b => decide (a ≠ b)
  | .uint32 a, .uint32 b => decide (a ≠ b)
  | .int64 a, .int64 b => decide (a ≠ b)
  | .uint64 a, .uint64 b => decide (a ≠ b)
  | .double a, .double b => decide (a ≠ b)
  | _, _ => true

/-- Byte-wise order of two character sequences, as `strcmp(a, b) < 0`. -/
def ltChars : List Char → List Char → Bool
  | [], [] => false
  | [], _ :: _ => true
  | _ :: _, [] => false
  | a :: as, b :: bs =>
    if Nat.blt a.toNat b.toNat then true
    else if Nat.blt b.toNat a.toNat then false
    else ltChars as bs

/-- Modelled from the spec: the key order of the map of a `DynamicObject`
(`strcmp` order). -/
def keyLt (a b : String) : Bool := ltChars a.data b.data

/-- The entry list of a map, looked up by key (`mMap->find(name)`). -/
def find (k : String) : List (String × Config) → Option Config
  | [] => none
  | (k', v) :: tl => if k = k' then some v else find k tl

/-- Overwrite the value of the entry with key `k`, which is present. -/
def replace (k : String) (v : Config) : List (String × Config) → List (String × Config)
  | [] => []
  | (k', v') :: tl => if k = k' then (k', v) :: tl else (k', v') :: replace k v tl

/-- Insert a new entry at its place in key order (`mMap->insert`). -/
def insertSorted (k : String) (v : Config) : List (String × Config) → List (String × Config)
  | [] => [(k, v)]
  | (k', v') :: tl =>
    if keyLt k k' then (k, v) :: (k', v') :: tl else (k', v') :: insertSorted k v tl

/-- Modelled from the spec: the entries of a map after `m[k] = v`: the entry
`k` is found and overwritten, or inserted when the map has none. -/
def put (k : String) (v : Config) (ms : List (String × Config)) : List (String × Config) :=
  match find k ms with
  | some _ => replace k v ms
  | none => insertSorted k v ms

/-- Modelled from the spec: the entries of the object after `setType(Map)`, the
first step of `operator[](const char*)`: a map keeps its entries, any other
type is converted to an empty map, a null reference cannot be dereferenced. -/
def setTypeMap : Config → Option (List (String × Config))
  | .null => none
  | .map ms => some ms
  | _ => some []

/-- Modelled from the spec: the elements of the object after `setType(Array)`,
the first step of `operator[](int)`. -/
def setTypeArray : Config → Option (List Config)
  | .null => none
  | .array es => some es
  | _ => some []

/-- Modelled from the spec: the value `m[k]` refers to once `operator[]` has
run: the entry found, or the default-constructed object just inserted. -/
def memberOr (k : String) (ms : List (String × Config)) : Config :=
  (find k ms).getD fresh

/-- Modelled from the spec: `operator[](int)` appends default-constructed
objects until index `i` exists. -/
def fill (i : Nat) (es : List Config) : List Config :=
  es ++ List.replicate (i + 1 - es.length) fresh

/-- Modelled from the spec: `DynamicObjectImpl::hasMember`, true for a map
that has the key. -/
def hasMember (k : String) : Config → Bool
  | .map ms => (find k ms).isSome
  | _ => false

/-- Modelled from the spec: `DynamicObjectImpl::clear`, which empties the
object and keeps its type. -/
def clear : Config → Option Config
  | .null => none
  | .str _ => some (.str "")
  | .bool _ => some (.bool false)
  | .int32 _ => some (.int32 0)
  | .uint32 _ => some (.uint32 0)
  | .int64 _ => some (.int64 0)
  | .uint64 _ => some (.uint64 0)
  | .double _ => some (.double 0)
  | .map _ => some (.map [])
  | .array _ => some (.array [])

mutual
/-- `ConfigManager::merge(target, source)`: the new content of `target`. -/
def merge (target : Config) : (source : Config) → Option Config
  | .null => some .null
  | .str s => if isDefaultValue (.str s) then some target else some (.str s)
  | .bool b => some (.bool b)
  | .int32 v => some (.int32 v)
  | .uint32 v => some (.uint32 v)
  | .int64 v => some (.int64 v)
  | .uint64 v => some (.uint64 v)
  | .double v => some (.double v)
  | .map ms => mergeMembers target ms
  | .array es => mergeElems target 0 es
termination_by structural source => source
/-- The `Map` loop of `merge`: `merge(target[i->getName()], next)` for each
remaining entry of the source. -/
def mergeMembers (target : Config) : (rest : List (String × Config)) → Option Config
  | [] => some target
  | (name, next) :: tl =>
    match setTypeMap target with
    | none => none
    | some tm =>
      match merge (memberOr name tm) next with
      | none => none
      | some r => mergeMembers (.map (put name r tm)) tl
termination_by structural rest => rest
/-- The `Array` loop of `merge`: `merge(target[ii], i->next())` for each
remaining element of the source, `ii` counting from 0. -/
def mergeElems (target : Config) (ii : Nat) : (rest : List Config) → Option Config
  | [] => some target
  | next :: tl =>
    match setTypeArray target with
    | none => none
    | some ta =>
      match merge ((fill ii ta).getD ii fresh) next with
      | none => none
      | some r => mergeElems (.array ((fill ii ta).set ii r)) (ii + 1) tl
termination_by structural rest => rest
end

/-- The branches of `diff` for a scalar `config2`: `config1` null or of another
type gives `config2`; two scalars of one type are compared. -/
def diffScalar (target config1 config2 : Config) : Option (Bool × Config × Config) :=
  if config1.isNull || decide (config1.getType ≠ config2.getType) then
    some (true, config2, config1)
  else if scalarNe config1 config2 then some (true, config2, config1)
  else some (false, target, config1)

mutual
/-- `ConfigManager::diff(target, config1, config2)`: the returned flag, the new
content of `target`, and the content of `config1` after the call (the
non-const `config1[ii]` of the `Array` loop extends a shorter `config1`). -/
def diff (target config1 : Config) : (config2 : Config) → Option (Bool × Config × Config)
  | .null =>
    if config1.isNull then some (false, target, config1)
    else some (true, .null, config1)
  | .map ms =>
    if config1.isNull || decide (config1.getType ≠ some .Map) then
      some (true, .map ms, config1)
    else diffMembers target config1 false ms
  | .array es =>
    if config1.isNull || decide (config1.getType ≠ some .Array) then
      some (true, .array es, config1)
    else diffElems target config1 false 0 es
  | .str s => diffScalar target config1 (.str s)
  | .bool b => diffScalar target config1 (.bool b)
  | .int32 v => diffScalar target config1 (.int32 v)
  | .uint32 v => diffScalar target config1 (.uint32 v)
  | .int64 v => diffScalar target config1 (.int64 v)
  | .uint64 v => diffScalar target config1 (.uint64 v)
  | .double v => diffScalar target config1 (.double v)
termination_by structural config2 => config2
/-- The `Map` loop of `diff` over the remaining entries of `config2`; `rval`
is the flag so far. -/
def diffMembers (target config1 : Config) (rval : Bool) :
    (rest : List (String × Config)) → Option (Bool × Config × Config)
  | [] => some (rval, target, config1)
  | (name, next) :: tl =>
    if !(hasMember name config1) then
      match setTypeMap target with
      | none => none
      | some tm => diffMembers (.map (put name next tm)) config1 true tl
    else
      match setTypeMap config1 with
      | none => none
      | some cm =>
        match diff fresh (memberOr name cm) next with
        | none => none
        | some (true, d, slot) =>
          match setTypeMap target with
          | none => none
          | some tm => diffMembers (.map (put name d tm)) (.map (put name slot cm)) true tl
        | some (false, _, slot) => diffMembers target (.map (put name slot cm)) rval tl
termination_by structural rest => rest
/-- The `Array` loop of `diff` over the remaining elements of `config2`, `ii`
counting from 0. -/
def diffElems (target config1 : Config) (rval : Bool) (ii : Nat) :
    (rest : List Config) → Option (Bool × Config × Config)
  | [] => some (rval, target, config1)
  | next :: tl =>
    match setTypeArray config1 with
    | none => none
    | some ca =>
      match diff fresh ((fill ii ca).getD ii fresh) next with
      | none => none
      | some (found, d, slot) =>
        match setTypeArray target with
        | none => none
        | some ta =>
          diffElems
            (.array ((fill ii ta).set ii (if found then d else .str DEFAULT_VALUE)))
            (.array ((fill ii ca).set ii slot)) (found || rval) (ii + 1) tl
termination_by structural rest => rest
end

end Config

open Config

/-- The entries `mConfigs` of a `ConfigManager` (`ConfigPair`s in insertion
order) and its cached merged view `mConfig`. -/
structure ConfigManager where
  mConfigs : List (Config × ConfigType)
  mConfig : Config
deriving Repr

namespace ConfigManager

/-- The constructor: no entries, and `mConfig->setType(Map)` on the
default-constructed view. -/
def new : ConfigManager := ⟨[], .map []⟩

/-- `ConfigManager::makeMergedConfig(target, types)` over the entries `cfgs`:
the new content of `target`. -/
def makeMergedConfig (target : Config) (types : ConfigType) :
    List (Config × ConfigType) → Option Config
  | [] => some target
  | (c, ty) :: tl =>
    if !c.isNull then
      if types = .All || types = ty then
        match merge target c with
        | none => none
        | some t => makeMergedConfig t types tl
      else makeMergedConfig target types tl
    else makeMergedConfig target types tl

/-- `ConfigManager::update`: `mConfig->clear()` and then
`makeMergedConfig(mConfig, All)`. -/
def update (cm : ConfigManager) : Option ConfigManager :=
  match Config.clear cm.mConfig with
  | none => none
  | some c =>
    match makeMergedConfig c .All cm.mConfigs with
    | none => none
    | some m => some { cm with mConfig := m }

/-- `ConfigManager::getConfig()`. -/
def getConfig (cm : ConfigManager) : Config := cm.mConfig

/-- `ConfigManager::clear`: the manager after the call. -/
def clear (cm : ConfigManager) : Option ConfigManager :=
  update { cm with mConfigs := [] }

/-- `ConfigManager::addConfig(config, type, id, include)` where no include is
processed (`include` false, or `config` without an `__include__` member): the
manager after the call, the returned flag and the id assigned. -/
def addConfig (cm : ConfigManager) (config : Config) (type : ConfigType) :
    Option (ConfigManager × Bool × Nat) :=
  match update { cm with mConfigs := cm.mConfigs ++ [(config, type)] } with
  | none => none
  | some cm1 => some (cm1, true, cm1.mConfigs.length - 1)

/-- `ConfigManager::removeConfig(id)`: the manager after the call and the
returned flag. -/
def removeConfig (cm : ConfigManager) (id : Nat) : Option (ConfigManager × Bool) :=
  if id < cm.mConfigs.length then
    match update { cm with mConfigs := cm.mConfigs.set id (.null, .None) } with
    | none => none
    | some cm1 => some (cm1, true)
  else some (cm, false)

/-- `ConfigManager::getConfig(id, config)`: the stored raw config, when the id
is valid. -/
def getConfigById (cm : ConfigManager) (id : Nat) : Option Config :=
  if id < cm.mConfigs.length then (cm.mConfigs.get? id).map Prod.fst else none

/-- `ConfigManager::setConfig(id, config)`: the manager after the call and
the returned flag. -/
def setConfig (cm : ConfigManager) (id : Nat) (config : Config) :
    Option (ConfigManager × Bool) :=
  if id < cm.mConfigs.length then
    match update { cm with
      mConfigs := cm.mConfigs.set id (config, ((cm.mConfigs.get? id).map Prod.snd).getD .None) } with
    | none => none
    | some cm1 => some (cm1, true)
  else some (cm, false)

/-- `ConfigManager::getChanges(target, baseType)`: the new content of
`target`. -/
def getChanges (cm : ConfigManager) (target : Config) (baseType : ConfigType) : Option Config :=
  match makeMergedConfig fresh baseType cm.mConfigs with
  | none => none
  | some original =>
    match diff target original cm.mConfig with
    | none => none
    | some (_, t, _) => some t

end ConfigManager

end Monarch

namespace Monarch

open Config

/-- A source that `merge` copies over the target whatever the target holds:
null, or a scalar other than the `DEFAULT_VALUE` string. -/
def Config.replacesTarget : Config → Bool
  | .map _ => false
  | .array _ => false
  | s => !isDefaultValue s

/-- The merged view as the spec words it: `merge` folded, in list order, over
the non-null entries whose tier is the requested one (all of them for `All`). -/
def ConfigManager.foldMatching (target : Config) (types : ConfigType)
    (cfgs : List (Config × ConfigType)) : Option Config :=
  (cfgs.filter (fun e => !e.1.isNull && (decide (types = .All) || decide (types = e.2)))).foldlM
    (fun acc e => merge acc e.1) target

/-- The config `{"a":1,"b":2}` of scenario S1. -/
def s1Default : Config := .map [("a", .int32 1), ("b", .int32 2)]

/-- The config `{"b":20,"c":30}` of scenario S1. -/
def s1User : Config := .map [("b", .int32 20), ("c", .int32 30)]

/-- The manager of scenario S1: `s1Default` added as `Default`, then `s1User`
added as `User`. -/
def s1Manager : Option ConfigManager :=
  match ConfigManager.addConfig ConfigManager.new s1Default .Default with
  | none => none
  | some (cm1, _, _) =>
    match ConfigManager.addConfig cm1 s1User .User with
    | none => none
    | some (cm2, _, _) => some cm2

/-- The base `{"xs":[1,2,3]}` of scenario S2. -/
def s2Base : Config := .map [("xs", .array [.int32 1, .int32 2, .int32 3])]

/-- The overlay `{"xs":["__default__",22,"__default__"]}` of scenario S2. -/
def s2Overlay : Config :=
  .map [("xs", .array [.str DEFAULT_VALUE, .int32 22, .str DEFAULT_VALUE])]

end Monarch

namespace Monarch

namespace Config

mutual
/-- A config as the program can build it: the keys of every map in it are
pairwise distinct (the entries of a `std::map`). -/
def wellFormed : Config → Bool
  | .map ms => wellFormedMembers ms
  | .array es => wellFormedElems es
  | _ => true
termination_by structural c => c
/-- The entries of a well-formed map. -/
def wellFormedMembers : List (String × Config) → Bool
  | [] => true
  | (k, v) :: tl => (find k tl).isNone && wellFormed v && wellFormedMembers tl
termination_by structural ms => ms
/-- The elements of a well-formed array. -/
def wellFormedElems : List Config → Bool
  | [] => true
  | v :: tl => wellFormed v && wellFormedElems tl
termination_by structural es => es
end

end Config

end Monarch

namespace Monarch

open Config

namespace Config

mutual
/-- A config that holds the string `"__default__"` nowhere. -/
def sentinelFree : Config → Bool
  | .str s => !isDefaultValue (.str s)
  | .map ms => sentinelFreeMembers ms
  | .array es => sentinelFreeElems es
  | _ => true
termination_by structural c => c
/-- The entries of a map that holds no `"__default__"`. -/
def sentinelFreeMembers : List (String × Config) → Bool
  | [] => true
  | (_, v) :: tl => sentinelFree v && sentinelFreeMembers tl
termination_by structural ms => ms
/-- The elements of an array that holds no `"__default__"`. -/
def sentinelFreeElems : List Config → Bool
  | [] => true
  | v :: tl => sentinelFree v && sentinelFreeElems tl
termination_by structural es => es
end

mutual
/-- A config that is not null and holds null nowhere. -/
def nullFree : Config → Bool
  | .null => false
  | .map ms => nullFreeMembers ms
  | .array es => nullFreeElems es
  | _ => true
termination_by structural c => c
/-- The entries of a map that holds no null. -/
def nullFreeMembers : List (String × Config) → Bool
  | [] => true
  | (_, v) :: tl => nullFree v && nullFreeMembers tl
termination_by structural ms => ms
/-- The elements of an array that holds no null. -/
def nullFreeElems : List Config → Bool
  | [] => true
  | v :: tl => nullFree v && nullFreeElems tl
termination_by structural es => es
end

mutual
/-- The config `m` equals `b` at every key and array index present in `b`:
where `b` holds null so does `m`, where `b` holds a scalar `m` holds the same
scalar, under every key of a map of `b` and at every index of an array of `b`
the config `m` has a value that agrees in turn.  Keys and elements that only
`m` has are not looked at, and a map or array of `b` without entries asks
nothing of `m`. -/
def agrees (m : Config) : (b : Config) → Bool
  | .null => m.isNull
  | .str s => !scalarNe m (.str s)
  | .bool v => !scalarNe m (.bool v)
  | .int32 v => !scalarNe m (.int32 v)
  | .uint32 v => !scalarNe m (.uint32 v)
  | .int64 v => !scalarNe m (.int64 v)
  | .uint64 v => !scalarNe m (.uint64 v)
  | .double v => !scalarNe m (.double v)
  | .map ms => agreesMembers m ms
  | .array es => agreesElems m 0 es
termination_by structural b => b
/-- The config `m` is a map that agrees with each of the given entries. -/
def agreesMembers (m : Config) : (rest : List (String × Config)) → Bool
  | [] => true
  | (k, v) :: tl =>
    (match m with
      | .map mm =>
        (match find k mm with
          | some x => agrees x v
          | none => false)
      | _ => false) && agreesMembers m tl
termination_by structural rest => rest
/-- The config `m` is an array that agrees with each of the given elements,
the first of them at index `i`. -/
def agreesElems (m : Config) (i : Nat) : (rest : List Config) → Bool
  | [] => true
  | v :: tl =>
    (match m with
      | .array me =>
        (match me[i]? with
          | some x => agrees x v
          | none => false)
      | _ => false) && agreesElems m (i + 1) tl
termination_by structural rest => rest
end

/-- The config that `a` becomes when the diff from `a` to `b` is computed into
a default-constructed `d` and, if `diff` reports a difference, `d` is merged
into `a`. -/
def roundTrip (a b : Config) : Option Config :=
  match diff fresh a b with
  | none => none
  | some (true, d, a1) => merge a1 d
  | some (false, _, a1) => some a1

/-- What `diff` into a default-constructed target promises of its result: with
no difference reported, `config1` as `diff` left it agrees with `b`; with a
difference reported, merging it in gives a config that agrees with `b`, and the
merge completes when `a` held no null. -/
def DiffSound (a b : Config) (r : Bool) (d a1 : Config) : Prop :=
  (r = false → agrees a1 b = true) ∧
  (r = true → (∀ m, merge a1 d = some m → agrees m b = true) ∧
    (nullFree a = true → ∃ m, merge a1 d = some m))

end Config

/-- One step of a path into a config: a map key or an array index. -/
inductive Step where
  | key (k : String)
  | index (i : Nat)
deriving DecidableEq, Repr

/-- The value a config holds at a position, `none` when the position is absent
(a key the map lacks, an index past the end, or a step into a value that is not
the container the step names). -/
def Config.getPath : Config → List Step → Option Config
  | c, [] => some c
  | .map ms, .key k :: p =>
    match find k ms with
    | some v => Config.getPath v p
    | none => none
  | .array es, .index i :: p =>
    match es.get? i with
    | some v => Config.getPath v p
    | none => none
  | _, _ :: _ => none

/-- A raw config that is a document (a Map, §6 of the spec) or null. -/
def Config.isMapOrNull : Config → Bool
  | .null => true
  | .map _ => true
  | _ => false

/-- A mutating call on a `ConfigManager`. -/
inductive Call where
  | add (config : Config) (type : ConfigType)
  | set (id : Nat) (config : Config)
  | remove (id : Nat)
deriving Repr

/-- The raw config a call stores (`removeConfig` stores null). -/
def Call.config : Call → Config
  | .add c _ => c
  | .set _ c => c
  | .remove _ => .null

namespace ConfigManager

/-- The manager after one call; `none` when the call does not complete. -/
def step (cm : ConfigManager) : Call → Option ConfigManager
  | .add c ty => (addConfig cm c ty).map (fun r => r.1)
  | .set id c => (setConfig cm id c).map (fun r => r.1)
  | .remove id => (removeConfig cm id).map (fun r => r.1)

/-- The manager after a sequence of calls, first call first. -/
def run (cm : ConfigManager) : List Call → Option ConfigManager
  | [] => some cm
  | c :: tl =>
    match step cm c with
    | none => none
    | some cm1 => run cm1 tl

/-- The invariant of a run over Map documents: the view is a map, every
stored config is a map or null, and the view is the merge of the stored
configs into an empty map. -/
def Inv (cm : ConfigManager) : Prop :=
  (∃ ms, cm.mConfig = .map ms) ∧
  (∀ e, e ∈ cm.mConfigs → isMapOrNull e.1 = true) ∧
  makeMergedConfig (.map []) .All cm.mConfigs = some cm.mConfig

end ConfigManager

end Monarch

namespace Monarch

open Config

namespace Config

mutual
/-- `ConfigManager::isValidConfig(config, schema)`: the returned flag. -/
def isValidConfig (config : Config) : (schema : Config) → Bool
  | .null => true
  | .str _ => !config.isNull && decide (config.getType = some .String)
  | .bool _ => !config.isNull && decide (config.getType = some .Boolean)
  | .int32 _ => !config.isNull && decide (config.getType = some .Int32)
  | .uint32 _ => !config.isNull && decide (config.getType = some .UInt32)
  | .int64 _ => !config.isNull && decide (config.getType = some .Int64)
  | .uint64 _ => !config.isNull && decide (config.getType = some .UInt64)
  | .double _ => !config.isNull && decide (config.getType = some .Double)
  | .map sm =>
    match config with
    | .map _ => isValidMembers config sm
    | _ => false
  | .array se =>
    match config with
    | .array ce => isValidElements ce se
    | _ => false
termination_by structural schema => schema
/-- The `Map` loop of `isValidConfig` over the remaining entries of the
schema: it stops with false at the first key that `config` lacks or whose value
is not valid. -/
def isValidMembers (config : Config) : (rest : List (String × Config)) → Bool
  | [] => true
  | (name, next) :: tl =>
    if !(hasMember name config) then false
    else
      match setTypeMap config with
      | none => false
      | some cm => isValidConfig (memberOr name cm) next && isValidMembers config tl
termination_by structural rest => rest
/-- The `Array` case of `isValidConfig` on the elements `ce` of the config and
the elements of the schema: a schema of length 0 allows any elements, a schema
of length 1 is the template of every element, a longer schema is refused. -/
def isValidElements (ce : List Config) : (se : List Config) → Bool
  | [] => true
  | s0 :: tl =>
    match tl with
    | [] => ce.all (fun e => isValidConfig e s0)
    | _ :: _ => false
termination_by structural se => se
end

end Config

namespace ConfigManager

/-- The message of the exception that `removeConfig`, `getConfig(id, config)`
and `setConfig` set with `Exception::setLast` for an id that is no slot. -/
def INVALID_ID : String := "Invalid ConfigId"

/-- The exception `removeConfig(id)` sets as last exception, `none` when it
sets none. -/
def removeConfigException (cm : ConfigManager) (id : Nat) : Option String :=
  if id < cm.mConfigs.length then none else some INVALID_ID

/-- The exception `getConfig(id, config)` sets as last exception, `none` when
it sets none. -/
def getConfigException (cm : ConfigManager) (id : Nat) : Option String :=
  if id < cm.mConfigs.length then none else some INVALID_ID

/-- The exception `setConfig(id, config)` sets as last exception, `none` when
it sets none. -/
def setConfigException (cm : ConfigManager) (id : Nat) : Option String :=
  if id < cm.mConfigs.length then none else some INVALID_ID

/-- `ConfigManager::getConfig(id, config)` with its out-parameter: the returned
flag and the content of `config` after the call. -/
def getConfigInto (cm : ConfigManager) (id : Nat) (config : Config) : Bool × Config :=
  if id < cm.mConfigs.length then (true, ((cm.mConfigs.get? id).map Prod.fst).getD config)
  else (false, config)

end ConfigManager

/-- An operation on a `ConfigManager`: the mutating calls and `clear`. -/
inductive Op where
  | add (config : Config) (type : ConfigType)
  | set (id : Nat) (config : Config)
  | remove (id : Nat)
  | clear
deriving Repr

/-- The operation is `clear`. -/
def Op.isClear : Op → Bool
  | .clear => true
  | _ => false

namespace ConfigManager

/-- The manager after one operation and the id that the operation returned
through `ConfigId* id` (only `addConfig` returns one); `none` when the call
does not complete. -/
def stepOp (cm : ConfigManager) : Op → Option (ConfigManager × Option Nat)
  | .add c ty => (addConfig cm c ty).map (fun r => (r.1, some r.2.2))
  | .set id c => (setConfig cm id c).map (fun r => (r.1, none))
  | .remove id => (removeConfig cm id).map (fun r => (r.1, none))
  | .clear => (clear cm).map (fun r => (r, none))

/-- The manager after a sequence of operations and the ids that its `addConfig`
calls returned, in call order. -/
def runOps (cm : ConfigManager) : List Op → Option (ConfigManager × List Nat)
  | [] => some (cm, [])
  | op :: tl =>
    match stepOp cm op with
    | none => none
    | some (cm1, id) =>
      match runOps cm1 tl with
      | none => none
      | some (cm2, ids) => some (cm2, id.toList ++ ids)

end ConfigManager

/-- The outcome of a call that may recurse through included files. -/
inductive Outcome (α : Type) where
  /-- The call returns. -/
  | done (a : α)
  /-- The call dereferences a null reference. -/
  | fault
  /-- The recursion goes deeper than the depth the embedding was given. -/
  | outOfFuel
deriving Repr

/-- Modelled from the spec: what a full path names in the file system, as
`addConfig(path)` asks of `File` and `JsonReader` (classes that are not among
the sources). -/
inductive Node where
  /-- `file.exists()` is false. -/
  | missing
  /-- A regular file; `none` when reading it as JSON fails. -/
  | file (content : Option Config)
  /-- A directory and the names `listFiles` yields, in listing order. -/
  | directory (names : List String)
  /-- Something that is neither a file nor a directory. -/
  | other
deriving Repr

/-- Modelled from the spec: the environment of `addConfig(path)`, the library
calls whose code is not among the sources. -/
structure Env where
  /-- `File::expandUser(path, fullpath)`: the full path, `none` when it fails. -/
  expandUser : String → Option String
  /-- The file system, by full path. -/
  node : String → Node
  /-- `std::sort(begin, end, comp)` on a vector of names. -/
  sort : (String → String → Bool) → List String → List String
  /-- `DynamicObjectImpl::getString` on an object that is not a String. -/
  getString : Config → String

namespace ConfigManager

/-- `ConfigManager::INCLUDE`. -/
def INCLUDE : String := "__include__"

/-- `ConfigManager::INCLUDE_EXT`. -/
def INCLUDE_EXT : String := ".config"

/-- The value `std::string::npos`, with a 64-bit `size_t`. -/
def npos : Nat := 2 ^ 64 - 1

/-- The pattern occurs in `s` at position `i`. -/
def matchesAt (s pat : List Char) (i : Nat) : Bool :=
  (s.drop i).take pat.length == pat

/-- The greatest position below `n` at which the pattern occurs, `npos` when
there is none. -/
def rfindBelow (s pat : List Char) : Nat → Nat
  | 0 => npos
  | i + 1 => if matchesAt s pat i then i else rfindBelow s pat i

/-- Modelled from the spec: `std::string::rfind(pat)`: the position of the last
occurrence of the pattern, `npos` when there is none. -/
def rfind (s pat : String) : Nat :=
  if pat.length ≤ s.length then rfindBelow s.data pat.data (s.length - pat.length + 1)
  else npos

/-- The test `name.rfind(INCLUDE_EXT) == (name.length() - strlen(INCLUDE_EXT))`
of the directory branch of `addConfig(path)`; the subtraction is that of
`size_t`, modulo `2 ^ 64`. -/
def isConfigFileName (name : String) : Bool :=
  rfind name INCLUDE_EXT == (name.length + 2 ^ 64 - INCLUDE_EXT.length) % 2 ^ 64

/-- The comparator `strcmp` as `std::sort` reads it: its `int` result taken as
a flag, true when the two names differ. -/
def strcmpFlag (a b : String) : Bool := decide (a ≠ b)

/-- Modelled from the spec: the objects a `ConfigIterator` yields: the
elements of an array, the values of a map, and for any other object the object
itself, once. -/
def iterated : Config → List Config
  | .array es => es
  | .map ms => ms.map Prod.snd
  | c => [c]

/-- The text `next->getString()` of an iterated entry; `none` for a null
entry. -/
def entryString (env : Env) : Config → Option String
  | .null => none
  | .str s => some s
  | c => some (env.getString c)

/-- The loop of `addConfig(config, ...)` over the entries of `__include__`:
`rval = addConfig(next->getString(), Default, NULL, true)` while `rval`. -/
def includeLoop (env : Env)
    (load : ConfigManager → String → ConfigType → Bool → Outcome (ConfigManager × Bool × Option Nat)) :
    ConfigManager → List Config → Outcome (ConfigManager × Bool)
  | cm, [] => .done (cm, true)
  | cm, next :: tl =>
    match entryString env next with
    | none => .fault
    | some path =>
      match load cm path .Default true with
      | .done (cm1, true, _) => includeLoop env load cm1 tl
      | .done (cm1, false, _) => .done (cm1, false)
      | .fault => .fault
      | .outOfFuel => .outOfFuel

/-- The loop of the directory branch of `addConfig(path)` over the sorted
names: `rval = addConfig(*i, Default, NULL, include)` while `rval`. -/
def directoryLoop
    (load : ConfigManager → String → ConfigType → Bool → Outcome (ConfigManager × Bool × Option Nat))
    (incl : Bool) : ConfigManager → List String → Outcome (ConfigManager × Bool)
  | cm, [] => .done (cm, true)
  | cm, name :: tl =>
    match load cm name .Default incl with
    | .done (cm1, true, _) => directoryLoop load incl cm1 tl
    | .done (cm1, false, _) => .done (cm1, false)
    | .fault => .fault
    | .outOfFuel => .outOfFuel

/-- The end of `addConfig(config, ...)` once `rval` is true: the config is
pushed, its index is written to `id`, and `update()` runs. -/
def pushConfig (cm : ConfigManager) (config : Config) (type : ConfigType) :
    Outcome (ConfigManager × Bool × Option Nat) :=
  match addConfig cm config type with
  | none => .fault
  | some (cm1, rval, id) => .done (cm1, rval, some id)

/-- `ConfigManager::addConfig(config, type, id, include)`, where `load` is the
overload `addConfig(path, type, id, include)` and `incl` the flag `include`:
the manager after the call, the returned flag, and the id written (`none` when
none is written). -/
def addConfigInclude (env : Env)
    (load : ConfigManager → String → ConfigType → Bool → Outcome (ConfigManager × Bool × Option Nat))
    (cm : ConfigManager) (config : Config) (type : ConfigType) (incl : Bool) :
    Outcome (ConfigManager × Bool × Option Nat) :=
  if incl then
    match config with
    | .null => .fault
    | .map ms =>
      match find INCLUDE ms with
      | none => pushConfig cm config type
      | some .null => .fault
      | some v =>
        match includeLoop env load cm (iterated v) with
        | .done (cm1, true) => pushConfig cm1 config type
        | .done (cm1, false) => .done (cm1, false, none)
        | .fault => .fault
        | .outOfFuel => .outOfFuel
    | _ => pushConfig cm config type
  else pushConfig cm config type

/-- `ConfigManager::addConfig(path, type, id, include)`, with the depth of
recursion through includes and directories bounded by `fuel`. -/
def addConfigPath (env : Env) : (fuel : Nat) → ConfigManager → String → ConfigType → Bool →
    Outcome (ConfigManager × Bool × Option Nat)
  | 0, _, _, _, _ => .outOfFuel
  | fuel + 1, cm, path, type, incl =>
    match env.expandUser path with
    | none => .done (cm, false, none)
    | some fullpath =>
      match env.node fullpath with
      | .missing => .done (cm, false, none)
      | .other => .done (cm, false, none)
      | .file none => .done (cm, false, none)
      | .file (some cfg) => addConfigInclude env (addConfigPath env fuel) cm cfg type incl
      | .directory names =>
        match directoryLoop (addConfigPath env fuel) incl cm
            (env.sort strcmpFlag (names.filter isConfigFileName)) with
        | .done (cm1, rval) => .done (cm1, rval, none)
        | .fault => .fault
        | .outOfFuel => .outOfFuel

/-- The paths that `addConfig(config, ..., include = true)` passes on to
`addConfig(path)`: the texts of the non-null entries of `__include__`. -/
def includeTargets (env : Env) : Config → List String
  | .map ms =>
    match find INCLUDE ms with
    | some v => (iterated v).filterMap (entryString env)
    | none => []
  | _ => []

/-- The paths that `addConfig(path)` may recurse into: the include targets of
the file read, or the names loaded from a directory. -/
def children (env : Env) (path : String) : List String :=
  match env.expandUser path with
  | none => []
  | some fullpath =>
    match env.node fullpath with
    | .file (some cfg) => includeTargets env cfg
    | .directory names => env.sort strcmpFlag (names.filter isConfigFileName)
    | _ => []

end ConfigManager

/-- An environment with the identity for `expandUser` and for `sort`, and the
given file system. -/
def plainEnv (node : String → Node) : Env :=
  ⟨fun p => some p, node, fun _ names => names, fun _ => ""⟩

/-- A file system with the directory `conf.d`, which lists `readme` and
`10-a.config`, both regular files. -/
def shortNameFs : String → Node := fun p =>
  if p = "conf.d" then .directory ["readme", "10-a.config"]
  else if p = "readme" then .file (some (.map [("r", .int32 1)]))
  else if p = "10-a.config" then .file (some (.map [("a", .int32 2)]))
  else .missing

/-- A file system with the one file `self.config`, whose `__include__` lists
its own path. -/
def selfIncludeFs : String → Node := fun p =>
  if p = "self.config" then .file (some (.map [("__include__", .array [.str "self.config"])]))
  else .missing

/-- A file system with `base.config` and `extra.config`, neither of which
includes anything. -/
def twoFilesFs : String → Node := fun p =>
  if p = "base.config" then .file (some (.map [("a", .int32 1)]))
  else if p = "extra.config" then .file (some (.map [("b", .int32 2)]))
  else .missing

/-- A config that includes `base.config` and `extra.config`, in that order. -/
def includingConfig : Config :=
  .map [("__include__", .array [.str "base.config", .str "extra.config"]), ("c", .int32 3)]

end Monarch

namespace Monarch

namespace ConfigManager

/-- The paths that loading `start` with `addConfig(path)` reaches through
includes and directory entries, `start` itself included. -/
inductive Reaches (env : Env) (start : String) : String → Prop where
  | refl : Reaches env start start
  | step {p q : String} : Reaches env start p → q ∈ children env p → Reaches env start q

/-- The include graph reachable from `start` has no cycle: no path that
loading `start` reaches is reached again from itself through one or more
includes or directory entries. -/
def AcyclicFrom (env : Env) (start : String) : Prop :=
  ∀ p, Reaches env start p → ¬ Relation.TransGen (fun a b => a ∈ children env b) p p

/-- The call `addConfig(path)` terminates on `path`: from some depth of
recursion on it does not run out of depth, whatever the manager, the tier and
the flag. -/
def Terminates (env : Env) (path : String) : Prop :=
  ∃ depth : Nat, ∀ fuel : Nat, depth ≤ fuel →
    ∀ (cm : ConfigManager) (ty : ConfigType) (incl : Bool),
      addConfigPath env fuel cm path ty incl ≠ .outOfFuel

end ConfigManager

/-- A file system with `main.config`, which includes `base.config`, and
`base.config`, which includes nothing. -/
def chainFs : String → Node := fun p =>
  if p = "main.config" then
    .file (some (.map [("__include__", .array [.str "base.config"]), ("m", .int32 1)]))
  else if p = "base.config" then .file (some (.map [("a", .int32 1)]))
  else .missing

end Monarch

namespace Monarch

/-! ## `CharacterSetMutator::reset`

A shallow embedding of `src/data/cpp/db/data/CharacterSetMutator.cpp`.  The
conversion descriptor is a number, `none` standing for `INVALID_ICONV`; the
calls into `iconv` are parameters. -/

/-- The fields of a `CharacterSetMutator`. -/
structure CharacterSetMutator where
  /-- The conversion descriptor, `none` for `INVALID_ICONV`. -/
  mConvertDescriptor : Option Nat
  mFinished : Bool
  mNonReversibles : Nat
deriving Repr, DecidableEq

namespace CharacterSetMutator

/-- The constructor `CharacterSetMutator()`. -/
def new : CharacterSetMutator := ⟨none, false, 0⟩

/-- The call `setCharacterSets(from, to)`: the new fields, the return value and
the type of the exception it sets, if any.  The parameters stand for
`iconv_close` (its `int` result) and `iconv_open` (`none` for
`INVALID_ICONV`). -/
def setCharacterSets (iconvClose : Nat → Int) (iconvOpen : String → String → Option Nat)
    (m : CharacterSetMutator) (fromSet toSet : String) :
    CharacterSetMutator × Bool × Option String :=
  let closed : Bool :=
    match m.mConvertDescriptor with
    | some cd => iconvClose cd == 0
    | none => true
  if closed then
    match iconvOpen toSet fromSet with
    | some cd => ({ m with mConvertDescriptor := some cd }, true, none)
    | none =>
      ({ m with mConvertDescriptor := none }, false,
        some "db.data.CharacterSetMutator.OpenError")
  else (m, false, some "db.data.CharacterSetMutator.CloseError")

/-- The call `reset()`: the new fields, the return value and the type of the
exception it sets, if any.  The parameter stands for
`iconv(mConvertDescriptor, NULL, NULL, NULL, NULL)`, whose `size_t` result is
`(size_t)-1`, that is `2 ^ 64 - 1`, when the reset fails.  The local `rval`
starts as `false` and is assigned `false` in either failure branch; no branch
assigns it `true`. -/
def reset (iconvReset : Nat → Nat) (m : CharacterSetMutator) :
    CharacterSetMutator × Bool × Option String :=
  let rval := false
  let (rval, e) : Bool × Option String :=
    match m.mConvertDescriptor with
    | none => (false, some "db.data.CharacterSetMutator.NoCharacterSets")
    | some cd =>
      if iconvReset cd = 2 ^ 64 - 1 then
        (false, some "db.data.CharacterSetMutator.ResetError")
      else (rval, none)
  ({ m with mNonReversibles := 0 }, rval, e)

/-- A mutator whose character sets were set (descriptor 1) and that counted
three non-reversible conversions. -/
def readyMutator : CharacterSetMutator := ⟨some 1, false, 3⟩

end CharacterSetMutator

/-! ## `HttpConnectionServicer`

A shallow embedding of `src/net/cpp/http/HttpConnectionServicer.cpp`.  A path
is the character sequence of a `std::string`; a servicer map is its lookup
function (`find`), `none` when the key is absent. -/

namespace HttpConnectionServicer

open ConfigManager (rfind)

/-- The call `normalizePath(path)`. -/
def normalizePath (path : List Char) : List Char :=
  if path.length = 0 then path ++ ['/']
  else
    let path := if path.head? != some '/' then '/' :: path else path
    if path.getLast? != some '/' then path ++ ['/'] else path

/-- Modelled from the spec: `std::string::erase(pos, n)`: `none` is the
`std::out_of_range` it throws when `pos` lies beyond the end. -/
def erase (path : List Char) (pos n : Nat) : Option (List Char) :=
  if pos > path.length then none else some (path.take pos ++ path.drop (pos + n))

/-- The statement `path.erase(path.length() - 1, 1)`; the subtraction is that
of `size_t`: for the empty path it wraps to `2 ^ 64 - 1`. -/
def eraseLast (path : List Char) : Option (List Char) :=
  erase path (if path.length = 0 then 2 ^ 64 - 1 else path.length - 1) 1

/-- The first statements of the body of the `while` loop of
`findRequestServicer`: `index = path.rfind("/")`, `path = path.substr(0, index)`
and, if the path is empty then, `path.append(1, '/')`. -/
def parentPath (path : List Char) : List Char :=
  let index := rfind ⟨path⟩ "/"
  let path := path.take index
  if path.length = 0 then path ++ ['/'] else path

/-- The `while` loop of `findRequestServicer`, entered with `rval == NULL`:
one unit of fuel per iteration.  `fault` is an `std::out_of_range`. -/
def parentLoop {σ : Type} (servicerMap : String → Option σ) :
    (fuel : Nat) → (path : List Char) → Outcome (Option σ)
  | 0, path => if path.length > 0 then .outOfFuel else .done none
  | fuel + 1, path =>
    if path.length > 0 then
      match servicerMap ⟨parentPath path⟩ with
      | some s => .done (some s)
      | none =>
        match eraseLast (parentPath path) with
        | none => .fault
        | some path => parentLoop servicerMap fuel path
    else .done none

/-- The call `findRequestServicer(path, servicerMap)`; `done none` is the
return value `NULL`. -/
def findRequestServicer {σ : Type} (fuel : Nat) (path : List Char)
    (servicerMap : String → Option σ) : Outcome (Option σ) :=
  match servicerMap ⟨path⟩ with
  | some s => .done (some s)
  | none =>
    match eraseLast path with
    | none => .fault
    | some path => parentLoop servicerMap fuel path

/-- The path `/s1/s2/.../sn` (no trailing slash) of a list of segments; the
empty path for no segment. -/
def joined : List (List Char) → List Char
  | [] => []
  | s :: ss => '/' :: s ++ joined ss

/-- The normalized path of a list of segments: `/s1/s2/.../sn/`, and `/` for no
segment. -/
def render (segs : List (List Char)) : List Char := joined segs ++ ['/']

/-- The key an ancestor is looked up under: without a trailing slash, the root
as `/`. -/
def ancestorKey (segs : List (List Char)) : List Char :=
  if segs.isEmpty then ['/'] else joined segs

/-- The ancestors of `render segs` that lie `k` or fewer levels below the root,
nearest first. -/
def ancestorsBelow (segs : List (List Char)) : Nat → List (List Char)
  | 0 => []
  | k + 1 => ancestorKey (segs.take k) :: ancestorsBelow segs k

/-- The ancestors of the path `render segs`, nearest first: the paths of its
proper prefixes of segments. -/
def ancestors (segs : List (List Char)) : List (List Char) :=
  ancestorsBelow segs segs.length

/-- The first servicer registered under one of the keys, in their order. -/
def firstRegistered {σ : Type} (servicerMap : String → Option σ) :
    List (List Char) → Option σ
  | [] => none
  | k :: ks =>
    match servicerMap ⟨k⟩ with
    | some s => some s
    | none => firstRegistered servicerMap ks

/-- The servicer registered under the path `render segs` itself, else the
servicer of its nearest registered ancestor, `none` when neither the path nor
an ancestor is registered. -/
def nearestRegistered {σ : Type} (servicerMap : String → Option σ)
    (segs : List (List Char)) : Option σ :=
  firstRegistered servicerMap (render segs :: ancestors segs)

/-- A segment of a path without empty segments: non-empty and free of `/`. -/
def IsSegment (s : List Char) : Prop := s ≠ [] ∧ '/' ∉ s

/-- A servicer map that registers the servicer `7` under `/a` only. -/
def onlyA : String → Option Nat := fun k => if k = "/a" then some 7 else none

/-- A servicer map that registers `1` under `/`, `2` under `/docs`. -/
def rootAndDocs : String → Option Nat := fun k =>
  if k = "/" then some 1 else if k = "/docs" then some 2 else none

/-- The response `serviceConnection` sends. -/
inductive Response (σ : Type) where
  /-- The request is handed to a request servicer. -/
  | serviced (hrs : σ)
  /-- An error page with this status code and `Content-Length` is sent. -/
  | status (code : Nat) (contentLength : Nat)
  /-- No response is sent. -/
  | nothing
deriving Repr, DecidableEq

/-- The parts of the run-time library `serviceConnection` asks about
exceptions of type `ε`: their code, the results of the two `dynamic_cast`s
(true when the cast gives a non-null pointer), and `strcmp`. -/
structure Runtime (ε : Type) where
  getCode : ε → String
  isInterruptedException : ε → Bool
  isSocketException : ε → Bool
  strcmp : String → String → Int

/-- The last branch of `serviceConnection` (receiving the header failed and was
not answered with 400): `last` is `Exception::getLast()`.  The third conjunct
of the condition is the pointer `dynamic_cast<SocketException*>(e)` itself. -/
def errorResponse {σ ε : Type} (rt : Runtime ε) (last : Option ε) : Response σ :=
  match last with
  | some e =>
    if !rt.isInterruptedException e && rt.isSocketException e then .status 500 38
    else .nothing
  | none => .nothing

/-- The call `serviceConnection(c)`, as far as the choice of the response goes:
`received` is the result of `request->receiveHeader()`, `version` and `path`
are read from the request header, `secure` is `hc.isSecure()`. -/
def serviceConnection {σ ε : Type} (rt : Runtime ε)
    (mSecureServicers mNonSecureServicers : String → Option σ) (fuel : Nat)
    (received last : Option ε) (version : String) (path : List Char) (secure : Bool) :
    Outcome (Response σ) :=
  match received with
  | none =>
    if rt.strcmp version "HTTP/1.0" = 0 || rt.strcmp version "HTTP/1.1" = 0 then
      let path := normalizePath path
      let found :=
        if secure then findRequestServicer fuel path mSecureServicers
        else findRequestServicer fuel path mNonSecureServicers
      match found with
      | .done (some hrs) => .done (.serviced hrs)
      | .done none => .done (.status 403 26)
      | .fault => .fault
      | .outOfFuel => .outOfFuel
    else .done (.status 505 43)
  | some e =>
    if rt.strcmp (rt.getCode e) "db.net.http.BadRequest" = 1 then .done (.status 400 29)
    else .done (errorResponse rt last)

/-- The three kinds of exception the last branch tells apart. -/
inductive ExceptionKind where
  | interrupted
  | socket
  | other
deriving Repr, DecidableEq

/-- A run-time library over `ExceptionKind`; every code compares as equal to
every string, so that no failure is answered with 400. -/
def kindRuntime : Runtime ExceptionKind where
  getCode := fun _ => "db.io.IO"
  isInterruptedException := fun e => e == .interrupted
  isSocketException := fun e => e == .socket
  strcmp := fun _ _ => 0

end HttpConnectionServicer

end Monarch

namespace Monarch

/-! ## `HttpConnection::sendBody`

A shallow embedding of `src/http/cpp/db/http/HttpConnection.cpp`.  The input
stream is the list of the results of the successive calls
`mBuffer.put(is, n)`, each a function of the size `n` asked for; once the list
is used up the stream reports its end (`0`).  The body output stream is the
list of the results of the successive calls `os.write`; once it is used up
every write succeeds. -/

namespace HttpConnection

/-- The `while` loop of the transfer of unspecified length; returns `rval` and
`numBytes` as the loop leaves them. -/
def unspecifiedLoop (length : Nat) :
    List (Nat → Int) → List Bool → Bool → Int → Bool × Int
  | [], _, rval, numBytes => if rval then (rval, 0) else (rval, numBytes)
  | r :: is, os, rval, numBytes =>
    if rval then
      if r length > 0 then unspecifiedLoop length is os.tail (os.headD true) (r length)
      else (rval, r length)
    else (rval, numBytes)

/-- The `while` loop of the transfer of specified length; returns `rval`,
`contentRemaining` and `numBytes` as the loop leaves them.  `contentRemaining`
is an `unsigned long long`: the subtraction is modulo `2 ^ 64`. -/
def specifiedLoop (length : Nat) :
    List (Nat → Int) → List Bool → Bool → Nat → Nat → Int → Bool × Nat × Int
  | [], _, rval, contentRemaining, _, numBytes =>
    if rval && decide (contentRemaining > 0) then (rval, contentRemaining, 0)
    else (rval, contentRemaining, numBytes)
  | r :: is, os, rval, contentRemaining, readSize, numBytes =>
    if rval && decide (contentRemaining > 0) then
      if r readSize > 0 then
        if os.headD true then
          let remaining := (contentRemaining + 2 ^ 64 - (r readSize).toNat % 2 ^ 64) % 2 ^ 64
          specifiedLoop length is os.tail true remaining
            (if remaining < length then remaining else length) (r readSize)
        else specifiedLoop length is os.tail false contentRemaining readSize (r readSize)
      else (rval, contentRemaining, r readSize)
    else (rval, contentRemaining, numBytes)

/-- The call `sendBody(header, is, trailer)`: the return value and the message
of the exception it sets, if any.  `contentLength` is the `Content-Length`
field of the header, `none` when `getField` finds none; `interrupted` is
`Thread::currentThread()->isInterrupted()`. -/
def sendBody (contentLength : Option Int) (interrupted : Bool)
    (is : List (Nat → Int)) (os : List Bool) : Bool × Option String :=
  let length := 2048
  let lengthUnspecified : Bool :=
    match contentLength with
    | some n => !decide (n ≥ 0)
    | none => true
  if lengthUnspecified then
    let (_, numBytes) := unspecifiedLoop length is os true 0
    (decide (numBytes ≠ -1), none)
  else
    let contentRemaining := (contentLength.getD 0).toNat
    let readSize := if contentRemaining < length then contentRemaining else length
    let (rval, contentRemaining, numBytes) :=
      specifiedLoop length is os true contentRemaining readSize 0
    let e : Option String :=
      if rval && decide (contentRemaining > 0) then
        if interrupted then some "Sending HTTP content body interrupted."
        else some "Could not read HTTP content bytes to send."
      else none
    (decide (numBytes ≠ -1), e)

/-- The call `receiveBody(header, os, trailer)`, the sibling of `sendBody`: its
loop keeps `rval` false once a write failed, and its last statement is
`rval = (rval && numBytes != -1)`. -/
def receiveBody (length : Nat) : List (Nat → Int) → List Bool → Bool → Bool
  | [], _, rval => rval && decide ((0 : Int) ≠ -1)
  | r :: is, os, rval =>
    if r length > 0 then
      if rval then receiveBody length is os.tail (os.headD true)
      else receiveBody length is os false
    else rval && decide (r length ≠ -1)

end HttpConnection

/-! ## `BlockCipherInputStream::read`

A shallow embedding of `src/crypto/cpp/db/crypto/BlockCipherInputStream.cpp`
and of the two buffer-filling calls of `src/cpp/crypto/BlockCipher.cpp`.
Bytes are numbers. -/

/-- The pure virtual part of a `BlockCipher` with states of type `κ`: the
block size, `update(in, inLength, out, outLength)` and
`finish(out, outLength)`; `none` is the return value `false`, otherwise the
bytes written to `out` and the next state. -/
structure BlockCipher (κ : Type) where
  getBlockSize : Nat
  updateRaw : κ → List Nat → Option (List Nat × κ)
  finishRaw : κ → Option (List Nat × κ)

namespace BlockCipher

/-- The call `update(in, inLength, out, resize)` of `BlockCipher.cpp` on the
buffer `out`: the success flag, the buffer and the cipher afterwards. -/
def update {κ : Type} (c : BlockCipher κ) (k : κ) (input : List Nat) (out : List Nat) :
    Bool × List Nat × κ :=
  match c.updateRaw k input with
  | some (bytes, k') => (true, out ++ bytes, k')
  | none => (false, out, k)

/-- The call `finish(out, resize)` of `BlockCipher.cpp` on the buffer `out`. -/
def finish {κ : Type} (c : BlockCipher κ) (k : κ) (out : List Nat) : Bool × List Nat × κ :=
  match c.finishRaw k with
  | some (bytes, k') => (true, out ++ bytes, k')
  | none => (false, out, k)

end BlockCipher

/-- The fields of a `BlockCipherInputStream` over a cipher with states `κ`.
The underlying stream is the list of what its reads will deliver: `some chunk`
for the bytes that are available to one read, `none` for a read error; once
the list is empty the stream is at its end. -/
structure BlockCipherInputStream (κ : Type) where
  mInputStream : List (Option (List Nat))
  mReadBuffer : List Nat
  /-- The cipher, `none` for `NULL`. -/
  mCipher : Option κ
  mCipherFinished : Bool

namespace BlockCipherInputStream

/-- The constructor: an empty read buffer, the cipher not finished. -/
def new {κ : Type} (cipher : Option κ) (is : List (Option (List Nat))) :
    BlockCipherInputStream κ := ⟨is, [], cipher, false⟩

/-- Modelled from the spec: `FilterInputStream::read(b, length)` on the
underlying stream: the return value, the bytes read and the rest of the
stream.  A read delivers at most `length` bytes of the next chunk and returns
`0` at the end of the stream, `-1` on an error. -/
def readUnderlying (is : List (Option (List Nat))) (length : Nat) :
    Int × List Nat × List (Option (List Nat)) :=
  match is with
  | [] => (0, [], [])
  | none :: rest => (-1, [], rest)
  | some chunk :: rest =>
    if chunk.length ≤ length then (chunk.length, chunk, rest)
    else (length, chunk.take length, some (chunk.drop length) :: rest)

/-- The underlying stream has bytes left to deliver. -/
def hasBytes (is : List (Option (List Nat))) : Bool :=
  is.any fun r => match r with
    | some chunk => !chunk.isEmpty
    | none => false

/-- Modelled from the spec: `ByteBuffer::get(b, length)` (the class is not
among the sources): it takes up to `length` bytes off the front of the buffer;
the return value, the bytes written to `b` and the buffer afterwards. -/
def bufferGet (buffer : List Nat) (length : Nat) : Int × List Nat × List Nat :=
  ((buffer.take length).length, buffer.take length, buffer.drop length)

/-- The call `read(b, length)`: the return value, the bytes left in `b`, and
the stream afterwards. -/
def read {κ : Type} (c : BlockCipher κ) (s : BlockCipherInputStream κ) (length : Nat) :
    Int × List Nat × BlockCipherInputStream κ :=
  if !s.mReadBuffer.isEmpty then
    let (rval, b, buffer) := bufferGet s.mReadBuffer length
    (rval, b, { s with mReadBuffer := buffer })
  else if s.mCipherFinished then (0, [], s)
  else
    let (rval, b, is) := readUnderlying s.mInputStream length
    match s.mCipher with
    | some k =>
      if rval ≥ 0 then
        let (success, buffer, k', finished) :=
          if rval > 0 then
            let (success, buffer, k') := c.update k b s.mReadBuffer
            (success, buffer, k', s.mCipherFinished)
          else
            let (success, buffer, k') := c.finish k s.mReadBuffer
            (success, buffer, k', true)
        if success then
          let (rval, b, buffer) := bufferGet buffer length
          (rval, b, ⟨is, buffer, some k', finished⟩)
        else (-1, b, ⟨is, buffer, some k', finished⟩)
      else (rval, b, { s with mInputStream := is })
    | none => (rval, b, { s with mInputStream := is })

/-- A cipher with blocks of four bytes that hands its input on unchanged, one
whole block at a time: its state is the input that does not fill a block yet;
`finish` pads the last block with zeros. -/
def blockBuffer : BlockCipher (List Nat) where
  getBlockSize := 4
  updateRaw := fun pending input =>
    let all := pending ++ input
    some (all.take (all.length / 4 * 4), all.drop (all.length / 4 * 4))
  finishRaw := fun pending =>
    some (if pending.isEmpty then [] else pending ++ List.replicate (4 - pending.length) 0, [])

/-- A stream over `blockBuffer` whose underlying stream delivers two bytes,
then six more. -/
def shortReadStream : BlockCipherInputStream (List Nat) :=
  new (some []) [some [1, 2], some [3, 4, 5, 6, 7, 8]]

end BlockCipherInputStream

end Monarch

namespace Monarch

/-! ## ID3v2 `FrameHeader`

A shallow embedding of `src/data/cpp/db/data/id3v2/FrameHeader.cpp`.  A byte
(`char` or `unsigned char`) is its bit pattern, a number below 256; an `int`
is an integer of 32 bits in two's complement. -/

/-- The fields of a `FrameHeader` that the conversions to and from bytes read
or write (all but the description).  `mId` holds the four bytes before the
terminating NUL of the buffer `mId`. -/
structure FrameHeader where
  mId : List Nat
  mFrameSize : Int
  mTagAlteredDiscardFrame : Bool
  mFileAlteredDiscardFrame : Bool
  mReadOnly : Bool
  mCompressed : Bool
  mEncrypted : Bool
  mGrouped : Bool
deriving Repr, DecidableEq

namespace FrameHeader

def HEADER_SIZE : Nat := 10
def TAG_ALTERED_DISCARD_FRAME_BIT : Nat := 0x80
def FILE_ALTERED_DISCARD_FRAME_BIT : Nat := 0x40
def READ_ONLY_BIT : Nat := 0x20
def COMPRESSION_BIT : Nat := 0x80
def ENCRYPTION_BIT : Nat := 0x40
def GROUPING_BIT : Nat := 0x20

/-- The bit pattern of an `int`, a number below `2 ^ 32`. -/
def toBits (integer : Int) : Nat := (integer % 2 ^ 32).toNat

/-- The `int` with a given bit pattern. -/
def ofBits (bits : Nat) : Int :=
  if bits % 2 ^ 32 < 2 ^ 31 then (bits % 2 ^ 32 : Nat) else ((bits % 2 ^ 32 : Nat) : Int) - 2 ^ 32

/-- The C library call `strncpy(dst, src, n)`: the `n` bytes written to `dst`,
the bytes of `src` up to its first NUL, padded with NULs. -/
def strncpy (src : List Nat) (n : Nat) : List Nat :=
  (src.takeWhile (fun c => c != 0)).take n
    ++ List.replicate (n - ((src.takeWhile (fun c => c != 0)).take n).length) 0

/-- The constructor `FrameHeader(id)`. -/
def new (id : List Nat) : FrameHeader :=
  ⟨strncpy id 4, 0, false, false, false, false, false, false⟩

def setFlags1 (h : FrameHeader) (b : Nat) : FrameHeader :=
  { h with
    mTagAlteredDiscardFrame := (b &&& TAG_ALTERED_DISCARD_FRAME_BIT) != 0
    mFileAlteredDiscardFrame := (b &&& FILE_ALTERED_DISCARD_FRAME_BIT) != 0
    mReadOnly := (b &&& READ_ONLY_BIT) != 0 }

def getFlagByte1 (h : FrameHeader) : Nat :=
  let b := 0x00
  let b := if h.mTagAlteredDiscardFrame then b ||| TAG_ALTERED_DISCARD_FRAME_BIT else b
  let b := if h.mFileAlteredDiscardFrame then b ||| FILE_ALTERED_DISCARD_FRAME_BIT else b
  let b := if h.mReadOnly then b ||| READ_ONLY_BIT else b
  b

def setFlags2 (h : FrameHeader) (b : Nat) : FrameHeader :=
  { h with
    mCompressed := (b &&& COMPRESSION_BIT) != 0
    mEncrypted := (b &&& ENCRYPTION_BIT) != 0
    mGrouped := (b &&& GROUPING_BIT) != 0 }

def getFlagByte2 (h : FrameHeader) : Nat :=
  let b := 0x00
  let b := if h.mCompressed then b ||| COMPRESSION_BIT else b
  let b := if h.mEncrypted then b ||| ENCRYPTION_BIT else b
  let b := if h.mGrouped then b ||| GROUPING_BIT else b
  b

def setId (h : FrameHeader) (id : List Nat) : FrameHeader := { h with mId := strncpy id 4 }

def getId (h : FrameHeader) : List Nat := h.mId

def setFrameSize (h : FrameHeader) (size : Int) : FrameHeader := { h with mFrameSize := size }

def getFrameSize (h : FrameHeader) : Int := h.mFrameSize

/-- The call `convertIntToBytes(integer, b)`: the four bytes written to `b`.
The shift of the `int` is arithmetic; `& 0xFF` keeps its low eight bits. -/
def convertIntToBytes (integer : Int) : List Nat :=
  (List.range 4).map fun i => ((integer >>> ((3 - i) * 8 : Nat)) % 256).toNat

/-- The call `convertBytesToInt(b)`: the loop ors the shifted bytes into the bit
pattern of `rval`. -/
def convertBytesToInt (b : List Nat) : Int :=
  ofBits ((List.range 4).foldl
    (fun rval i => rval ||| (((b.getD i 0) &&& 0xFF) <<< ((3 - i) * 8))) 0)

/-- The call `convertToBytes(b)`: the ten bytes written to `b`. -/
def convertToBytes (h : FrameHeader) : List Nat :=
  h.getId.take 4 ++ convertIntToBytes h.getFrameSize ++ [h.getFlagByte1, h.getFlagByte2]

/-- The call `convertFromBytes(b, length)`. -/
def convertFromBytes (h : FrameHeader) (b : List Nat) : FrameHeader :=
  let id := strncpy b 4
  let h := h.setId id
  let h := h.setFrameSize (convertBytesToInt (b.drop 4))
  let h := h.setFlags1 (b.getD 8 0)
  h.setFlags2 (b.getD 9 0)

/-- The header of a `TIT2` frame of size 1000000 that is read-only and
compressed. -/
def titleHeader : FrameHeader :=
  ⟨[84, 73, 84, 50], 1000000, false, false, true, true, false, false⟩

end FrameHeader

/-! ## `DataBinding::DataNameComparator`

A shallow embedding of the comparator of `src/data/cpp/DataBinding.cpp`. -/

/-- A `DataName`: a namespace, `none` for `NULL`, and a name. -/
structure DataName where
  ns : Option String
  name : String
deriving Repr, DecidableEq

namespace DataBinding

/-- The C library call `strcmp(a, b)`: negative, zero or positive as the first
string is less than, equal to or greater than the second in the order of their
bytes. -/
def strcmp (a b : String) : Int :=
  if Config.ltChars a.data b.data then -1
  else if Config.ltChars b.data a.data then 1
  else 0

/-- The call `DataNameComparator::operator()(dn1, dn2)`. -/
def DataNameComparator (dn1 dn2 : DataName) : Bool :=
  let rval := false
  match dn1.ns, dn2.ns with
  | none, some _ => true
  | some ns1, some ns2 =>
    let i := strcmp ns1 ns2
    if i > 0 then true
    else if i = 0 then decide (strcmp dn1.name dn2.name < 0)
    else rval
  | none, none => decide (strcmp dn1.name dn2.name < 0)
  | some _, none => rval

/-- Two names are equivalent under the comparator: neither comes before the
other. -/
def Equivalent (a b : DataName) : Prop :=
  DataNameComparator a b = false ∧ DataNameComparator b a = false

end DataBinding

end Monarch

namespace Monarch

/-! ## `Thread`: interruption and waiting

A shallow embedding of `interrupt`, `interrupted` and `waitToEnter` of
`src/rt/cpp/db/rt/Thread.cpp`, as one thread sees them: what other threads do
while the thread is blocked in `Monitor::wait` is an input of the call. -/

/-- The fields of a `Thread` that interruption and waiting read or write, and
the exception slot of the thread. -/
structure Thread where
  mInterrupted : Bool
  /-- The monitor the thread waits to enter, `none` for `NULL`. -/
  mWaitMonitor : Option Nat
  /-- The exception `setException` stored last, `none` when there is none. -/
  exception : Option String
deriving Repr, DecidableEq

/-- Modelled from the spec: how a call of `Monitor::wait(timeout)` ends (the
class `Monitor` is not among the sources): the monitor is notified, the
timeout expires, or another thread calls `interrupt()` on the waiting thread,
which sets its flag and signals the monitor it waits on. -/
inductive Wake where
  | notified
  | timeout
  | interrupt
deriving Repr, DecidableEq

/-- The result of `waitToEnter`: its return value, whether `m->wait(timeout)`
was called, and the thread afterwards. -/
structure Waited where
  rval : Bool
  waited : Bool
  thread : Thread
deriving Repr, DecidableEq

namespace Thread

/-- The thread object `currentThread()` creates: not interrupted, waiting on no
monitor. -/
def new : Thread := ⟨false, none, none⟩

def isInterrupted (t : Thread) : Bool := t.mInterrupted

/-- The call `interrupt()`. -/
def interrupt (t : Thread) : Thread :=
  if !t.isInterrupted then { t with mInterrupted := true } else t

/-- The call `Thread::interrupted(clear)` by the thread itself: the return
value and the thread afterwards. -/
def interrupted (t : Thread) (clear : Bool) : Bool × Thread :=
  if t.isInterrupted then (true, if clear then { t with mInterrupted := false } else t)
  else (false, t)

/-- The call `Thread::waitToEnter(m, timeout)` by the thread itself; `wake`
says how the call of `m->wait(timeout)` ends, if it is made. -/
def waitToEnter (t : Thread) (m : Nat) (wake : Wake) : Waited :=
  let t := { t with mWaitMonitor := some m }
  let (waited, t) : Bool × Thread :=
    if !t.isInterrupted then
      (true, match wake with
        | .interrupt => t.interrupt
        | _ => t)
    else (false, t)
  let t := { t with mWaitMonitor := none }
  if t.isInterrupted then ⟨false, waited, { t with exception := some "Interrupted" }⟩
  else ⟨true, waited, t⟩

end Thread

/-! ## `Operation`

A shallow embedding of `src/modest/cpp/db/modest/Operation.cpp`. -/

/-- The fields of an `Operation`.  The runnable, guard and state mutator are
numbers, `none` for `NULL`; `mThread` is the thread that runs the operation,
`none` for `NULL`. -/
structure Operation where
  mRunnable : Option Nat
  mGuard : Option Nat
  mStateMutator : Option Nat
  mThread : Option Thread
  mStarted : Bool
  mInterrupted : Bool
  mStopped : Bool
  mFinished : Bool
  mCanceled : Bool
  mMemoryManaged : Bool
deriving Repr, DecidableEq

/-- Modelled from the spec: what other threads do while the caller of
`waitFor` is blocked in `wait()`: how the wait ends, and whether the thread
that runs the operation has set `mStopped` by then (the code that sets it is
not among the sources). -/
structure WaitEvent where
  wake : Wake
  stopped : Bool
deriving Repr, DecidableEq

namespace Operation

/-- The constructor `Operation(r, g, m)`. -/
def new (r g m : Option Nat) : Operation :=
  ⟨r, g, m, none, false, false, false, false, false, false⟩

def started (op : Operation) : Bool := op.mStarted
def stopped (op : Operation) : Bool := op.mStopped
def finished (op : Operation) : Bool := op.mFinished
def canceled (op : Operation) : Bool := op.mCanceled

/-- The call `interrupt()`. -/
def interrupt (op : Operation) : Operation :=
  if !op.mInterrupted then
    { op with
      mInterrupted := true
      mThread := op.mThread.map Thread.interrupt }
  else op

/-- The call `isInterrupted()`: the return value and the operation
afterwards. -/
def isInterrupted (op : Operation) : Bool × Operation :=
  let op :=
    if !op.mInterrupted then
      match op.mThread with
      | some t => { op with mInterrupted := t.isInterrupted }
      | none => op
    else op
  (op.mInterrupted, op)

/-- The call `setMemoryManaged(managed)`. -/
def setMemoryManaged (op : Operation) (managed : Bool) : Operation :=
  { op with mMemoryManaged := managed }

/-- Modelled from the spec: the call `wait()` of `Object` on the monitor of
the operation (monitor 0), which is not among the sources: it waits to enter
the monitor with `Thread::waitToEnter`; the flag is true when it returns an
`InterruptedException`, that is when `waitToEnter` returned false. -/
def wait (t : Thread) (wake : Wake) : Bool × Thread :=
  let w := t.waitToEnter 0 wake
  (!w.rval, w.thread)

/-- The `while(!stopped())` loop of `waitFor`, one event per call of `wait()`:
the value of `rval` and the states when the loop is left, `none` when the
events end with the caller still waiting. -/
def waitLoop (interruptible : Bool) :
    List WaitEvent → Operation → Thread → Bool → Option (Bool × Operation × Thread)
  | [], op, t, rval => if !op.stopped then none else some (rval, op, t)
  | e :: events, op, t, rval =>
    if !op.stopped then
      let (interrupted, t) := wait t e.wake
      let op := if e.stopped then { op with mStopped := true } else op
      if interrupted then
        if interruptible then some (true, op, t)
        else waitLoop interruptible events op (t.interrupted true).2 true
      else waitLoop interruptible events op t rval
    else some (rval, op, t)

/-- The call `waitFor(interruptible)` by the thread `t`: the return value, the
operation and the thread afterwards. -/
def waitFor (op : Operation) (interruptible : Bool) (events : List WaitEvent) (t : Thread) :
    Option (Bool × Operation × Thread) :=
  match waitLoop interruptible events op t false with
  | some (rval, op, t) => some (rval, op, if rval then t.interrupt else t)
  | none => none

/-- Modelled from the spec: where an operation stands with the engine that
runs it (§3, lifecycle summary, and §4.3; the engine is not among the
sources): created by the caller, queued, running, or dropped from the queue
after it finished or was canceled. -/
inductive Phase where
  | created
  | queued
  | running
  | dropped
deriving Repr, DecidableEq

/-- Modelled from the spec: the engine admits a queued operation whose guard
lets it execute (§4.3, step 1): the operation is started on a worker thread. -/
def markStarted (op : Operation) (worker : Thread) : Operation :=
  { op with mStarted := true, mThread := some worker }

/-- Modelled from the spec: the wrapper of a running operation, after the
Runnable returned, "marks the Operation finished, stopped" (§4.3, step 1c). -/
def markFinished (op : Operation) : Operation :=
  { op with mFinished := true, mStopped := true }

/-- Modelled from the spec: the engine drops a queued operation that can not
execute and must be canceled after the wait: "mark canceled/stopped, drop"
(§4.3, step 2). -/
def markCanceled (op : Operation) : Operation :=
  { op with mCanceled := true, mStopped := true }

/-- What happens to an operation: the four calls that `Operation.cpp` defines,
made by the thread `caller`, and the transitions of the engine. -/
inductive Event where
  | interrupt
  | isInterrupted
  | setMemoryManaged (managed : Bool)
  /-- The call `waitFor(interruptible)`; `wakes` says how its waits end. -/
  | waitFor (interruptible : Bool) (wakes : List Wake)
  /-- The caller queues the operation with the engine. -/
  | queue
  /-- A dispatch pass of the engine looks at the operation; the flags are the
  results of `canExecute` and `mustCancelAfterWait`. -/
  | dispatch (canExecute mustCancelAfterWait : Bool) (worker : Thread)
  /-- The Runnable of the running operation returns. -/
  | complete
deriving Repr

/-- An operation, where it stands with the engine, and the thread that makes
the calls. -/
structure Lifecycle where
  op : Operation
  phase : Phase
  caller : Thread
deriving Repr, DecidableEq

/-- One event; `none` when the call does not return.  A call is made when the
event before is over: the engine does nothing during a `waitFor`, which writes
no field of the operation. -/
def apply (s : Lifecycle) : Event → Option Lifecycle
  | .interrupt => some { s with op := s.op.interrupt }
  | .isInterrupted => some { s with op := s.op.isInterrupted.2 }
  | .setMemoryManaged managed => some { s with op := s.op.setMemoryManaged managed }
  | .waitFor interruptible wakes =>
    match s.op.waitFor interruptible (wakes.map fun w => ⟨w, false⟩) s.caller with
    | some (_, op, t) => some { s with op := op, caller := t }
    | none => none
  | .queue =>
    match s.phase with
    | .created => some { s with phase := .queued }
    | _ => some s
  | .dispatch canExecute mustCancelAfterWait worker =>
    match s.phase with
    | .queued =>
      if canExecute then some { s with op := s.op.markStarted worker, phase := .running }
      else if mustCancelAfterWait then some { s with op := s.op.markCanceled, phase := .dropped }
      else some s
    | _ => some s
  | .complete =>
    match s.phase with
    | .running => some { s with op := s.op.markFinished, phase := .dropped }
    | _ => some s

/-- A sequence of events, each after the one before is over. -/
def applyAll (s : Lifecycle) : List Event → Option Lifecycle
  | [] => some s
  | e :: es =>
    match apply s e with
    | some s' => applyAll s' es
    | none => none

/-- The lifecycle flags of an operation agree with where it stands with the
engine. -/
def Consistent (s : Lifecycle) : Prop :=
  match s.phase with
  | .created | .queued =>
    s.op.mStarted = false ∧ s.op.mStopped = false ∧ s.op.mFinished = false
      ∧ s.op.mCanceled = false
  | .running =>
    s.op.mStarted = true ∧ s.op.mStopped = false ∧ s.op.mFinished = false
      ∧ s.op.mCanceled = false
  | .dropped =>
    s.op.mStopped = true
      ∧ ((s.op.mFinished = true ∧ s.op.mCanceled = false ∧ s.op.mStarted = true)
        ∨ (s.op.mCanceled = true ∧ s.op.mFinished = false ∧ s.op.mStarted = false))

/-- The invariants of the lifecycle flags. -/
def Invariant (op : Operation) : Prop :=
  (op.finished = true → op.stopped = true)
    ∧ (op.canceled = true → op.stopped = true ∧ op.started = false)

end Operation

/-! ## Ten yielding fibers

`TestFiber` is embedded from `src/cpp/tests/test-fiber-yield.cpp`; the
scheduler it runs on is not among the sources. -/

/-- What a fiber asks of the scheduler when its step returns. -/
inductive FiberRequest where
  | yield
  | exit
deriving Repr, DecidableEq

/-- A `TestFiber`: its `count`, the loop variable `i` of `run()`, and whether
`run()` has been entered (it is then suspended in `yield()`). -/
structure TestFiber where
  count : Int
  i : Int
  entered : Bool
deriving Repr, DecidableEq

namespace TestFiber

/-- The constructor `TestFiber(n)`. -/
def new (n : Int) : TestFiber := ⟨n, 0, false⟩

/-- One step of `run()`: from its entry or from the return of `yield()` to the
next call of `yield()` or to the end of `run()`. -/
def step (f : TestFiber) : FiberRequest × TestFiber :=
  let i := if f.entered then f.i + 1 else 0
  if i < f.count then (.yield, { f with i := i, entered := true })
  else (.exit, { f with i := i, entered := true })

end TestFiber

/-- Modelled from the spec: the state of a `FiberScheduler` with one scheduler
thread (§4.4): the fibers by id, the ready queue of fiber ids, the ids of the
fibers that are dead, the number of yields so far, and the quanta run so far,
oldest first, each with the id of the fiber and what it asked for. -/
structure FiberScheduler where
  fibers : List (Nat × TestFiber)
  ready : List Nat
  dead : List Nat
  yields : Nat
  trace : List (Nat × FiberRequest)
deriving Repr, DecidableEq

namespace FiberScheduler

/-- Modelled from the spec: a scheduler without fibers. -/
def new : FiberScheduler := ⟨[], [], [], 0, []⟩

/-- Modelled from the spec: `addFiber(fiber)`: the fiber gets the next id and
joins the tail of the ready queue. -/
def addFiber (s : FiberScheduler) (f : TestFiber) : FiberScheduler :=
  let id := s.fibers.length + 1
  { s with fibers := s.fibers ++ [(id, f)], ready := s.ready ++ [id] }

/-- Replace the fiber with the given id. -/
def setFiber (id : Nat) (f : TestFiber) : List (Nat × TestFiber) → List (Nat × TestFiber)
  | [] => []
  | (j, g) :: rest => if j = id then (j, f) :: rest else (j, g) :: setFiber id f rest

/-- Modelled from the spec: one quantum of the scheduler thread (§4.4, steps 1
to 3): pop a ready fiber, run its step, and on `yield` put it back at the tail
of the ready queue, on a normal return mark it dead. -/
def quantum (s : FiberScheduler) : FiberScheduler :=
  match s.ready with
  | [] => s
  | id :: ready =>
    match s.fibers.lookup id with
    | none => { s with ready := ready }
    | some f =>
      match f.step with
      | (.yield, f') =>
        { s with
          fibers := setFiber id f' s.fibers
          ready := ready ++ [id]
          yields := s.yields + 1
          trace := s.trace ++ [(id, .yield)] }
      | (.exit, f') =>
        { s with
          fibers := setFiber id f' s.fibers
          ready := ready
          dead := s.dead ++ [id]
          trace := s.trace ++ [(id, .exit)] }

/-- Modelled from the spec: `start(k, 1)` followed by
`waitForLastFiberExit(true)`: the scheduler thread runs quanta until the ready
queue is empty (no fiber sleeps or is blocked here), then the call returns the
final state; `none` when the fuel ends before that. -/
def waitForLastFiberExit : (fuel : Nat) → FiberScheduler → Option FiberScheduler
  | 0, s => if s.ready.isEmpty then some s else none
  | fuel + 1, s => if s.ready.isEmpty then some s else waitForLastFiberExit fuel s.quantum

/-- No fiber has a quantum after the quantum in which it exited. -/
def noRunAfterExit : List (Nat × FiberRequest) → Bool
  | [] => true
  | (id, .exit) :: rest => !(rest.map Prod.fst).contains id && noRunAfterExit rest
  | (_, .yield) :: rest => noRunAfterExit rest

/-- The scheduler of the test: ten fibers `TestFiber(10)` added before the
start. -/
def tenFibers : FiberScheduler :=
  (List.range 10).foldl (fun s _ => s.addFiber (TestFiber.new 10)) new

end FiberScheduler

end Monarch
namespace Monarch

namespace Config

/-! ## Induction over a config -/

theorem induct {P : Config → Prop}
    (hnull : P .null) (hstr : ∀ s, P (.str s)) (hbool : ∀ b, P (.bool b))
    (hi32 : ∀ v, P (.int32 v)) (hu32 : ∀ v, P (.uint32 v))
    (hi64 : ∀ v, P (.int64 v)) (hu64 : ∀ v, P (.uint64 v))
    (hdbl : ∀ v, P (.double v))
    (hmap : ∀ ms : List (String × Config), (∀ k v, (k, v) ∈ ms → P v) → P (.map ms))
    (harr : ∀ es : List Config, (∀ v, v ∈ es → P v) → P (.array es)) :
    ∀ c, P c := by
  intro c
  refine Config.rec (motive_1 := P)
    (motive_2 := fun ms => ∀ k v, (k, v) ∈ ms → P v)
    (motive_3 := fun es => ∀ v, v ∈ es → P v)
    (motive_4 := fun kv => P kv.2)
    hnull hstr hbool hi32 hu32 hi64 hu64 hdbl ?_ ?_ ?_ ?_ ?_ ?_ ?_ c
  · intro ms ih; exact hmap ms ih
  · intro es ih; exact harr es ih
  · intro k v h; cases h
  · intro hd tl ihd itl k v h
    rcases List.mem_cons.1 h with h | h
    · subst h; exact ihd
    · exact itl k v h
  · intro v h; cases h
  · intro hd tl ihd itl v h
    rcases List.mem_cons.1 h with h | h
    · subst h; exact ihd
    · exact itl v h
  · intro k v ih; exact ih

/-! ## Map entries: `find`, `replace`, `insertSorted`, `put` -/

theorem find_eq_none_iff (k : String) (ms : List (String × Config)) :
    find k ms = none ↔ k ∉ ms.map Prod.fst := by
  induction ms with
  | nil => simp [find]
  | cons hd tl ih =>
    obtain ⟨k', v'⟩ := hd
    by_cases h : k = k'
    · simp [find, h]
    · simp [find, h, ih]

theorem find_of_mem {k : String} {v : Config} {ms : List (String × Config)}
    (hnd : (ms.map Prod.fst).Nodup) (h : (k, v) ∈ ms) : find k ms = some v := by
  induction ms with
  | nil => cases h
  | cons hd tl ih =>
    obtain ⟨k', v'⟩ := hd
    simp only [List.map_cons, List.nodup_cons] at hnd
    rcases List.mem_cons.1 h with h1 | h1
    · cases h1; simp [find]
    · have hk : k ≠ k' := by
        rintro rfl
        exact hnd.1 (List.mem_map.2 ⟨(k, v), h1, rfl⟩)
      simp [find, hk, ih hnd.2 h1]

theorem mem_of_find {k : String} {v : Config} {ms : List (String × Config)}
    (h : find k ms = some v) : (k, v) ∈ ms := by
  induction ms with
  | nil => simp [find] at h
  | cons hd tl ih =>
    obtain ⟨k', v'⟩ := hd
    by_cases hk : k = k'
    · subst hk; simp [find] at h; subst h; simp
    · simp [find, hk] at h; exact List.mem_cons_of_mem _ (ih h)

theorem find_replace_self {k : String} (v : Config) {ms : List (String × Config)}
    (h : (find k ms).isSome) : find k (replace k v ms) = some v := by
  induction ms with
  | nil => simp [find] at h
  | cons hd tl ih =>
    obtain ⟨k', v'⟩ := hd
    by_cases hk : k = k'
    · subst hk; simp [replace, find]
    · simp [find, hk] at h; simp [replace, find, hk, ih h]

theorem find_replace_other {k k' : String} (v : Config) (ms : List (String × Config))
    (h : k' ≠ k) : find k' (replace k v ms) = find k' ms := by
  induction ms with
  | nil => simp [replace]
  | cons hd tl ih =>
    obtain ⟨k0, v0⟩ := hd
    by_cases hk : k = k0
    · subst hk; simp [replace, find, h]
    · by_cases hk' : k' = k0
      · simp [replace, find, hk, hk']
      · simp [replace, find, hk, hk', ih]

theorem find_insertSorted_self {k : String} (v : Config) {ms : List (String × Config)}
    (h : find k ms = none) : find k (insertSorted k v ms) = some v := by
  induction ms with
  | nil => simp [insertSorted, find]
  | cons hd tl ih =>
    obtain ⟨k0, v0⟩ := hd
    by_cases hk : k = k0
    · simp [find, hk] at h
    · simp [find, hk] at h
      by_cases hlt : keyLt k k0 = true
      · simp [insertSorted, hlt, find]
      · simp [insertSorted, hlt, find, hk, ih h]

theorem find_insertSorted_other {k k' : String} (v : Config) (ms : List (String × Config))
    (h : k' ≠ k) : find k' (insertSorted k v ms) = find k' ms := by
  induction ms with
  | nil => simp [insertSorted, find, h]
  | cons hd tl ih =>
    obtain ⟨k0, v0⟩ := hd
    by_cases hlt : keyLt k k0 = true
    · simp [insertSorted, hlt, find, h]
    · by_cases hk' : k' = k0
      · simp [insertSorted, hlt, find, hk']
      · simp [insertSorted, hlt, find, hk', ih]

theorem find_put_self (k : String) (v : Config) (ms : List (String × Config)) :
    find k (put k v ms) = some v := by
  unfold put
  cases h : find k ms with
  | none => exact find_insertSorted_self v h
  | some x => exact find_replace_self v (by simp [h])

theorem find_put_other {k k' : String} (v : Config) (ms : List (String × Config))
    (h : k' ≠ k) : find k' (put k v ms) = find k' ms := by
  unfold put
  cases find k ms with
  | none => exact find_insertSorted_other v ms h
  | some x => exact find_replace_other v ms h

theorem memberOr_put_self (k : String) (v : Config) (ms : List (String × Config)) :
    memberOr k (put k v ms) = v := by
  simp [memberOr, find_put_self]

theorem memberOr_put_other {k k' : String} (v : Config) (ms : List (String × Config))
    (h : k' ≠ k) : memberOr k' (put k v ms) = memberOr k' ms := by
  simp [memberOr, find_put_other v ms h]

theorem replace_same {k : String} {v : Config} {ms : List (String × Config)}
    (h : find k ms = some v) : replace k v ms = ms := by
  induction ms with
  | nil => rfl
  | cons hd tl ih =>
    obtain ⟨k0, v0⟩ := hd
    by_cases hk : k = k0
    · subst hk; simp [find] at h; simp [replace, h]
    · simp [find, hk] at h; simp [replace, hk, ih h]

theorem put_same {k : String} {v : Config} {ms : List (String × Config)}
    (h : find k ms = some v) : put k v ms = ms := by
  simp [put, h, replace_same h]

end Config
end Monarch
namespace Monarch
namespace Config

/-! ## The loops of `merge` -/

theorem mergeMembers_spec (sm : List (String × Config)) :
    ∀ (tm : List (String × Config)) (r : Config), (sm.map Prod.fst).Nodup →
      mergeMembers (.map tm) sm = some r →
      ∃ rm, r = .map rm ∧
        (∀ k v, (k, v) ∈ sm → ∃ x, merge (memberOr k tm) v = some x ∧ find k rm = some x) ∧
        (∀ k, k ∉ sm.map Prod.fst → find k rm = find k tm) := by
  induction sm with
  | nil =>
    intro tm r _ h
    simp only [mergeMembers, Option.some.injEq] at h
    exact ⟨tm, h.symm, by simp, by simp⟩
  | cons hd tl ih =>
    obtain ⟨k0, v0⟩ := hd
    intro tm r hnd h
    simp only [List.map_cons, List.nodup_cons] at hnd
    simp only [mergeMembers, setTypeMap] at h
    cases hm : merge (memberOr k0 tm) v0 with
    | none => rw [hm] at h; cases h
    | some r0 =>
      simp only [hm] at h
      obtain ⟨rm, hr, hin, hout⟩ := ih (put k0 r0 tm) r hnd.2 h
      refine ⟨rm, hr, ?_, ?_⟩
      · intro k v hkv
        rcases List.mem_cons.1 hkv with h1 | h1
        · cases h1
          refine ⟨r0, hm, ?_⟩
          rw [hout k0 hnd.1, find_put_self]
        · have hk : k ≠ k0 := by
            rintro rfl
            exact hnd.1 (List.mem_map.2 ⟨(k, v), h1, rfl⟩)
          obtain ⟨x, hx, hf⟩ := hin k v h1
          rw [memberOr_put_other r0 tm hk] at hx
          exact ⟨x, hx, hf⟩
      · intro k hk
        simp only [List.map_cons, List.mem_cons, not_or] at hk
        rw [hout k hk.2, find_put_other r0 tm hk.1]

theorem fill_of_lt {i : Nat} {es : List Config} (h : i < es.length) : fill i es = es := by
  have : i + 1 - es.length = 0 := by omega
  simp [fill, this]

theorem fill_length (i : Nat) (es : List Config) :
    (fill i es).length = max es.length (i + 1) := by
  simp [fill]; omega

theorem fill_getD (i j : Nat) (es : List Config) :
    (fill i es).getD j fresh = es.getD j fresh := by
  unfold fill
  by_cases h : j < es.length
  · simp [List.getD_eq_getElem?_getD, List.getElem?_append_left h]
  · have h1 : es.length ≤ j := by omega
    rw [List.getD_eq_getElem?_getD, List.getD_eq_getElem?_getD, List.getElem?_append_right h1]
    rw [List.getElem?_eq_none_iff.2 h1]
    by_cases h2 : j - es.length < i + 1 - es.length
    · simp [List.getElem?_replicate, h2]
    · simp [List.getElem?_replicate, h2]

theorem mergeElems_spec (se : List Config) :
    ∀ (te : List Config) (ii : Nat) (r : Config), ii ≤ te.length →
      mergeElems (.array te) ii se = some r →
      ∃ re, r = .array re ∧ re.length = max te.length (ii + se.length) ∧
        (∀ j (hj : j < se.length), ∃ x, merge (te.getD (ii + j) fresh) (se.get ⟨j, hj⟩) = some x ∧
          re.get? (ii + j) = some x) ∧
        (∀ i, i < ii ∨ ii + se.length ≤ i → re.get? i = te.get? i) := by
  induction se with
  | nil =>
    intro te ii r hii h
    simp only [mergeElems, Option.some.injEq] at h
    refine ⟨te, h.symm, by simp; omega, ?_, by simp⟩
    intro j hj; simp at hj
  | cons v0 tl ih =>
    intro te ii r hii h
    simp only [mergeElems, setTypeArray] at h
    rw [fill_getD] at h
    cases hm : merge (te.getD ii fresh) v0 with
    | none => rw [hm] at h; cases h
    | some r0 =>
      simp only [hm] at h
      have hlen : ((fill ii te).set ii r0).length = max te.length (ii + 1) := by
        simp [fill_length]
      obtain ⟨re, hr, hl, hin, hout⟩ := ih ((fill ii te).set ii r0) (ii + 1) r (by omega) h
      have hget : ∀ i, i ≠ ii → ((fill ii te).set ii r0).get? i = te.get? i := by
        intro i hi
        rw [List.get?_eq_getElem?, List.get?_eq_getElem?, List.getElem?_set_ne (Ne.symm hi)]
        unfold fill
        by_cases h1 : i < te.length
        · rw [List.getElem?_append_left h1]
        · have h2 : te.length ≤ i := by omega
          rw [List.getElem?_append_right h2, List.getElem?_eq_none_iff.2 h2]
          rw [List.getElem?_replicate]
          have : ¬ (i - te.length < ii + 1 - te.length) := by omega
          simp [this]
      refine ⟨re, hr, ?_, ?_, ?_⟩
      · rw [hl, hlen]; simp; omega
      · intro j hj
        cases j with
        | zero =>
          refine ⟨r0, by simpa using hm, ?_⟩
          rw [Nat.add_zero, hout ii (Or.inl (by omega))]
          rw [List.get?_eq_getElem?, List.getElem?_set_self (by rw [fill_length]; omega)]
        | succ j =>
          have hj' : j < tl.length := by simpa using hj
          obtain ⟨x, hx, hf⟩ := hin j hj'
          refine ⟨x, ?_, ?_⟩
          · have e1 : ((fill ii te).set ii r0).getD (ii + 1 + j) fresh = te.getD (ii + (j + 1)) fresh := by
              rw [List.getD_eq_getElem?_getD, List.getD_eq_getElem?_getD]
              have := hget (ii + 1 + j) (by omega)
              rw [List.get?_eq_getElem?, List.get?_eq_getElem?] at this
              rw [this]; congr 2; omega
            rw [e1] at hx
            simpa using hx
          · have : ii + (j + 1) = ii + 1 + j := by omega
            rw [this]; exact hf
      · intro i hi
        have h1 : i < ii + 1 ∨ ii + 1 + tl.length ≤ i := by
          simp only [List.length_cons] at hi; omega
        have h2 : i ≠ ii := by
          simp only [List.length_cons] at hi; omega
        rw [hout i h1, hget i h2]

end Config
end Monarch
namespace Monarch
namespace Config

theorem mergeMembers_cons_setType {t : Config} {tm : List (String × Config)}
    (ht : setTypeMap t = some tm) (hd : String × Config) (tl : List (String × Config)) :
    mergeMembers t (hd :: tl) = mergeMembers (.map tm) (hd :: tl) := by
  obtain ⟨k, v⟩ := hd
  simp only [mergeMembers, ht]
  rfl

theorem mergeMembers_null_cons (hd : String × Config) (tl : List (String × Config)) :
    mergeMembers .null (hd :: tl) = none := by
  obtain ⟨k, v⟩ := hd
  simp [mergeMembers, setTypeMap]

theorem setTypeMap_isSome {t : Config} (h : t ≠ .null) : ∃ tm, setTypeMap t = some tm := by
  cases t <;> simp [setTypeMap] at h ⊢

theorem merge_of_replacesTarget {v : Config} (h : replacesTarget v = true) (t : Config) :
    merge t v = some v := by
  cases v <;> simp_all [replacesTarget, merge]

/-- Merging a map with distinct keys into any target: the result is a map that
holds, under each key of the source, the merge of the source value into what
the target's `operator[]` gives for that key. -/
theorem merge_map_spec {t : Config} {k : String} {v : Config} {sm : List (String × Config)} {r : Config}
    (hnd : (sm.map Prod.fst).Nodup) (hk : find k sm = some v) (h : merge t (.map sm) = some r) :
    ∃ tm rm, setTypeMap t = some tm ∧ r = .map rm ∧
      ∃ x, merge (memberOr k tm) v = some x ∧ find k rm = some x := by
  have hmem := mem_of_find hk
  cases sm with
  | nil => cases hmem
  | cons hd tl =>
    simp only [merge] at h
    by_cases ht : t = .null
    · subst ht; rw [mergeMembers_null_cons] at h; cases h
    · obtain ⟨tm, htm⟩ := setTypeMap_isSome ht
      rw [mergeMembers_cons_setType htm] at h
      obtain ⟨rm, hr, hin, _⟩ := mergeMembers_spec _ tm r hnd h
      obtain ⟨x, hx, hf⟩ := hin k v hmem
      exact ⟨tm, rm, htm, hr, x, hx, hf⟩

end Config

namespace ConfigManager
open Config

theorem makeMergedConfig_append (target : Config) (types : ConfigType)
    (xs ys : List (Config × ConfigType)) :
    makeMergedConfig target types (xs ++ ys) =
      (makeMergedConfig target types xs).bind (fun t => makeMergedConfig t types ys) := by
  induction xs generalizing target with
  | nil => simp [makeMergedConfig]
  | cons hd tl ih =>
    obtain ⟨c, ty⟩ := hd
    simp only [List.cons_append, makeMergedConfig]
    split
    · split
      · cases merge target c with
        | none => simp
        | some t => simpa using ih t
      · exact ih target
    · exact ih target

theorem makeMergedConfig_eq_foldMatching (target : Config) (types : ConfigType)
    (cfgs : List (Config × ConfigType)) :
    makeMergedConfig target types cfgs = foldMatching target types cfgs := by
  induction cfgs generalizing target with
  | nil => simp [makeMergedConfig, foldMatching]
  | cons hd tl ih =>
    obtain ⟨c, ty⟩ := hd
    unfold foldMatching at ih ⊢
    simp only [makeMergedConfig, List.filter_cons]
    by_cases hn : c.isNull = true
    · simp [hn, ih]
    · by_cases hty : types = .All ∨ types = ty
      · have : (decide (types = ConfigType.All) || decide (types = ty)) = true := by
          simpa using hty
        simp only [hn, this, Bool.not_false, Bool.and_self, if_true, List.foldlM_cons]
        cases merge target c with
        | none => simp
        | some t => simpa using ih t
      · have : (decide (types = ConfigType.All) || decide (types = ty)) = false := by
          simpa using hty
        simp [hn, this, ih]

end ConfigManager

open Config ConfigManager

/-! ## Claims -/

/-- C5: merging the string `"__default__"` into any target, null included,
leaves the target exactly as it was. -/
theorem merge_default_value_noop (t : Config) : merge t (.str DEFAULT_VALUE) = some t := by
  simp [merge, isDefaultValue]

/-- C7: for a Map source with distinct keys merged into a Map target, the
result is a map in which every key of the source holds the merge of the source
value into the target's previous `t[k]`, and every key that the source does not
have keeps the value (or absence) it had in the target. -/
theorem merge_map_into_map (tm sm : List (String × Config)) (r : Config)
    (hkeys : (sm.map Prod.fst).Nodup) (h : merge (.map tm) (.map sm) = some r) :
    ∃ rm, r = .map rm ∧
      (∀ k v, find k sm = some v →
        ∃ x, merge (memberOr k tm) v = some x ∧ find k rm = some x) ∧
      (∀ k, find k sm = none → find k rm = find k tm) := by
  simp only [merge] at h
  obtain ⟨rm, hr, hin, hout⟩ := mergeMembers_spec sm tm r hkeys h
  refine ⟨rm, hr, ?_, ?_⟩
  · intro k v hk
    exact hin k v (mem_of_find hk)
  · intro k hk
    exact hout k ((find_eq_none_iff k sm).1 hk)

/-- Witness of C7 on `{"a":1,"b":2}` merged with `{"b":20,"c":30}`. -/
theorem merge_map_into_map_witness :
    (([("b", Config.int32 20), ("c", Config.int32 30)] : List (String × Config)).map Prod.fst).Nodup ∧
    merge s1Default s1User
      = some (.map [("a", .int32 1), ("b", .int32 20), ("c", .int32 30)]) ∧
    ∃ rm, Config.map [("a", .int32 1), ("b", .int32 20), ("c", .int32 30)] = .map rm ∧
      (∀ k v, find k [("b", Config.int32 20), ("c", Config.int32 30)] = some v →
        ∃ x, merge (memberOr k [("a", Config.int32 1), ("b", Config.int32 2)]) v = some x ∧
          find k rm = some x) ∧
      (∀ k, find k [("b", Config.int32 20), ("c", Config.int32 30)] = none →
        find k rm = find k [("a", Config.int32 1), ("b", Config.int32 2)]) :=
  ⟨by decide, by rfl,
    merge_map_into_map [("a", .int32 1), ("b", .int32 2)] [("b", .int32 20), ("c", .int32 30)]
      (.map [("a", .int32 1), ("b", .int32 20), ("c", .int32 30)]) (by decide) (by rfl)⟩

/-- C8: arrays are merged by position: merging an Array source into an Array
target gives an array of length `max (length t) (length s)` whose element `i`,
for `i < length s`, is the merge of `s[i]` into the previous `t[i]`, and whose
elements from index `length s` on are those of the target; and scenario S2,
`{"xs":["__default__",22,"__default__"]}` merged onto `{"xs":[1,2,3]}`, gives
`xs = [1,22,3]`. -/
theorem merge_array_positional :
    (∀ (te se : List Config) (r : Config), merge (.array te) (.array se) = some r →
      ∃ re, r = .array re ∧ re.length = max te.length se.length ∧
        (∀ i (hi : i < se.length),
          ∃ x, merge (te.getD i fresh) (se.get ⟨i, hi⟩) = some x ∧ re.get? i = some x) ∧
        (∀ i, se.length ≤ i → re.get? i = te.get? i)) ∧
    merge s2Base s2Overlay = some (.map [("xs", .array [.int32 1, .int32 22, .int32 3])]) := by
  refine ⟨?_, by rfl⟩
  intro te se r h
  simp only [merge] at h
  obtain ⟨re, hr, hl, hin, hout⟩ := mergeElems_spec se te 0 r (Nat.zero_le _) h
  refine ⟨re, hr, by simpa using hl, ?_, ?_⟩
  · intro i hi
    simpa using hin i hi
  · intro i hi
    exact hout i (Or.inr (by omega))

/-- Witness of C8 on `[1,2,3]` merged with `["__default__",22,"__default__"]`. -/
theorem merge_array_positional_witness :
    merge (.array [.int32 1, .int32 2, .int32 3])
        (.array [.str DEFAULT_VALUE, .int32 22, .str DEFAULT_VALUE])
      = some (.array [.int32 1, .int32 22, .int32 3]) ∧
    ∃ re, Config.array [.int32 1, .int32 22, .int32 3] = .array re ∧
      re.length = max [Config.int32 1, .int32 2, .int32 3].length
        [Config.str DEFAULT_VALUE, .int32 22, .str DEFAULT_VALUE].length ∧
      (∀ i (hi : i < [Config.str DEFAULT_VALUE, .int32 22, .str DEFAULT_VALUE].length),
        ∃ x, merge ([Config.int32 1, .int32 2, .int32 3].getD i fresh)
            ([Config.str DEFAULT_VALUE, .int32 22, .str DEFAULT_VALUE].get ⟨i, hi⟩) = some x ∧
          re.get? i = some x) ∧
      (∀ i, [Config.str DEFAULT_VALUE, .int32 22, .str DEFAULT_VALUE].length ≤ i →
        re.get? i = [Config.int32 1, .int32 2, .int32 3].get? i) :=
  ⟨by rfl, merge_array_positional.1 _ _ _ (by rfl)⟩

/-- C9: merging a null source makes any target null; when a Map source with
distinct keys holds null under key `k`, the merged target is a map whose value
under `k` is null, whatever the target held there; and merging `{k: null}` into
a Map target always completes, with null under `k`. -/
theorem merge_null_erases :
    (∀ t : Config, merge t .null = some .null) ∧
    (∀ (t : Config) (sm : List (String × Config)) (k : String) (r : Config),
      (sm.map Prod.fst).Nodup → find k sm = some .null → merge t (.map sm) = some r →
      ∃ rm, r = .map rm ∧ find k rm = some .null) ∧
    (∀ (tm : List (String × Config)) (k : String),
      merge (.map tm) (.map [(k, .null)]) = some (.map (put k .null tm)) ∧
      find k (put k .null tm) = some .null) := by
  refine ⟨fun t => by simp [merge], ?_, ?_⟩
  · intro t sm k r hnd hk h
    obtain ⟨tm, rm, _, hr, x, hx, hf⟩ := merge_map_spec hnd hk h
    simp only [merge, Option.some.injEq] at hx
    subst hx
    exact ⟨rm, hr, hf⟩
  · intro tm k
    exact ⟨by simp [merge, mergeMembers, setTypeMap], find_put_self k .null tm⟩

/-- Witness of C9 on the target `{"a":1,"b":2}` and the source `{"a":null}`. -/
theorem merge_null_erases_witness :
    (([("a", Config.null)] : List (String × Config)).map Prod.fst).Nodup ∧
    find "a" [("a", Config.null)] = some .null ∧
    merge s1Default (.map [("a", .null)]) = some (.map [("a", .null), ("b", .int32 2)]) ∧
    ∃ rm, Config.map [("a", .null), ("b", .int32 2)] = .map rm ∧ find "a" rm = some .null :=
  ⟨by decide, by rfl, by rfl,
    merge_null_erases.2.1 s1Default [("a", .null)] "a" _ (by decide) (by rfl) (by rfl)⟩

/-- C3: `makeMergedConfig` is the fold of `merge`, in insertion order, over
exactly the non-null entries whose tier is the requested one (every non-null
entry for `All`); a last matching Map entry therefore wins on each of its keys
that holds a null or a scalar other than `"__default__"`; and in scenario S1 the
merged view is `{"a":1,"b":20,"c":30}`. -/
theorem makeMergedConfig_folds_merge :
    (∀ (target : Config) (types : ConfigType) (cfgs : List (Config × ConfigType)),
      makeMergedConfig target types cfgs = foldMatching target types cfgs) ∧
    (∀ (target : Config) (types ty : ConfigType) (cfgs : List (Config × ConfigType))
        (sm : List (String × Config)) (k : String) (v r : Config),
      (types = .All ∨ types = ty) → (sm.map Prod.fst).Nodup → find k sm = some v →
      replacesTarget v = true →
      makeMergedConfig target types (cfgs ++ [(.map sm, ty)]) = some r →
      ∃ rm, r = .map rm ∧ find k rm = some v) ∧
    s1Manager.map getConfig = some (.map [("a", .int32 1), ("b", .int32 20), ("c", .int32 30)]) := by
  refine ⟨makeMergedConfig_eq_foldMatching, ?_, by rfl⟩
  intro target types ty cfgs sm k v r hty hnd hk hv h
  rw [makeMergedConfig_append] at h
  cases h1 : makeMergedConfig target types cfgs with
  | none => rw [h1] at h; cases h
  | some t1 =>
    rw [h1] at h
    have hdec : (decide (types = ConfigType.All) || decide (types = ty)) = true := by
      simpa using hty
    simp only [Option.some_bind, makeMergedConfig, isNull, Bool.not_false, if_true, hdec] at h
    cases h2 : merge t1 (.map sm) with
    | none => rw [h2] at h; cases h
    | some t2 =>
      rw [h2] at h
      simp only [Option.some.injEq] at h
      subst h
      obtain ⟨tm, rm, _, hr, x, hx, hf⟩ := merge_map_spec hnd hk h2
      rw [merge_of_replacesTarget hv] at hx
      simp only [Option.some.injEq] at hx
      subst hx
      exact ⟨rm, hr, hf⟩

/-- Witness of C3 on scenario S1: the last entry `{"b":20,"c":30}` wins on
`b`. -/
theorem makeMergedConfig_folds_merge_witness :
    (ConfigType.All = .All ∨ ConfigType.All = .User) ∧
    (([("b", Config.int32 20), ("c", Config.int32 30)] : List (String × Config)).map Prod.fst).Nodup ∧
    find "b" [("b", Config.int32 20), ("c", Config.int32 30)] = some (.int32 20) ∧
    replacesTarget (.int32 20) = true ∧
    makeMergedConfig (.map []) .All ([(s1Default, .Default)] ++ [(s1User, .User)])
      = some (.map [("a", .int32 1), ("b", .int32 20), ("c", .int32 30)]) ∧
    ∃ rm, Config.map [("a", .int32 1), ("b", .int32 20), ("c", .int32 30)] = .map rm ∧
      find "b" rm = some (.int32 20) :=
  ⟨Or.inl rfl, by decide, by rfl, by rfl, by rfl,
    makeMergedConfig_folds_merge.2.1 (.map []) .All .User [(s1Default, .Default)]
      [("b", .int32 20), ("c", .int32 30)] "b" (.int32 20) _
      (Or.inl rfl) (by decide) (by rfl) (by rfl) (by rfl)⟩

/-- C4: `getChanges(target, tier)` is the diff from `makeMergedConfig(tier)` on
a default-constructed config to the cached merged view, written into `target`;
in scenario S1, `getChanges(Default)` into a default-constructed target is
exactly `{"b":20,"c":30}`. -/
theorem getChanges_diffs_tier_against_merged :
    (∀ (cm : ConfigManager) (target : Config) (tier : ConfigType),
      getChanges cm target tier =
        (makeMergedConfig fresh tier cm.mConfigs).bind
          (fun original => (diff target original cm.getConfig).map (fun d => d.2.1))) ∧
    s1Manager.bind (fun cm => getChanges cm fresh .Default)
      = some (.map [("b", .int32 20), ("c", .int32 30)]) := by
  refine ⟨?_, by rfl⟩
  intro cm target tier
  unfold getChanges getConfig
  cases makeMergedConfig fresh tier cm.mConfigs with
  | none => rfl
  | some original =>
    simp only [Option.some_bind]
    cases diff target original cm.mConfig with
    | none => rfl
    | some d => obtain ⟨b, t, c⟩ := d; rfl

end Monarch
namespace Monarch
namespace Config

/-! ## Well-formed configs -/

theorem wellFormedMembers_iff (ms : List (String × Config)) :
    wellFormedMembers ms = true ↔
      (ms.map Prod.fst).Nodup ∧ ∀ k v, (k, v) ∈ ms → wellFormed v = true := by
  induction ms with
  | nil => simp [wellFormedMembers]
  | cons hd tl ih =>
    obtain ⟨k0, v0⟩ := hd
    simp only [wellFormedMembers, Bool.and_eq_true, ih, List.map_cons, List.nodup_cons,
      Option.isNone_iff_eq_none, find_eq_none_iff, List.mem_cons, Prod.mk.injEq]
    constructor
    · rintro ⟨⟨h1, h2⟩, h3, h4⟩
      refine ⟨⟨h1, h3⟩, ?_⟩
      rintro k v (⟨rfl, rfl⟩ | h)
      · exact h2
      · exact h4 k v h
    · rintro ⟨⟨h1, h3⟩, h⟩
      exact ⟨⟨h1, h k0 v0 (Or.inl ⟨rfl, rfl⟩)⟩, h3, fun k v hkv => h k v (Or.inr hkv)⟩

theorem wellFormedElems_iff (es : List Config) :
    wellFormedElems es = true ↔ ∀ v, v ∈ es → wellFormed v = true := by
  induction es with
  | nil => simp [wellFormedElems]
  | cons hd tl ih => simp [wellFormedElems, ih]

theorem wellFormed_map_iff (ms : List (String × Config)) :
    wellFormed (.map ms) = true ↔
      (ms.map Prod.fst).Nodup ∧ ∀ k v, (k, v) ∈ ms → wellFormed v = true := by
  rw [wellFormed, wellFormedMembers_iff]

theorem wellFormed_array_iff (es : List Config) :
    wellFormed (.array es) = true ↔ ∀ v, v ∈ es → wellFormed v = true := by
  rw [wellFormed, wellFormedElems_iff]

/-! ## `diff` of a config against itself -/

theorem diffMembers_self (cm : List (String × Config)) (t : Config) :
    ∀ rest : List (String × Config),
      (∀ k v, (k, v) ∈ rest → find k cm = some v ∧ ∃ d, diff fresh v v = some (false, d, v)) →
      diffMembers t (.map cm) false rest = some (false, t, .map cm) := by
  intro rest
  induction rest with
  | nil => intro _; simp [diffMembers]
  | cons hd tl ih =>
    obtain ⟨k0, v0⟩ := hd
    intro h
    obtain ⟨hf, d, hd⟩ := h k0 v0 (List.mem_cons_self _ _)
    have hm : memberOr k0 cm = v0 := by simp [memberOr, hf]
    simp only [diffMembers, hasMember, hf, Option.isSome_some, Bool.not_true, setTypeMap, hm, hd,
      put_same hf]
    exact ih (fun k v hkv => h k v (List.mem_cons_of_mem _ hkv))

theorem diffElems_self (rest : List Config) :
    ∀ (pre : List Config) (t : Config), t ≠ .null →
      (∀ v, v ∈ rest → ∃ d, diff fresh v v = some (false, d, v)) →
      ∃ t', t' ≠ .null ∧
        diffElems t (.array (pre ++ rest)) false pre.length rest
          = some (false, t', .array (pre ++ rest)) := by
  induction rest with
  | nil => intro pre t ht _; exact ⟨t, ht, by simp [diffElems]⟩
  | cons v0 tl ih =>
    intro pre t ht h
    obtain ⟨d, hd⟩ := h v0 (List.mem_cons_self _ _)
    obtain ⟨ta, hta⟩ : ∃ ta, setTypeArray t = some ta := by
      cases t <;> simp [setTypeArray] at ht ⊢
    have hlt : pre.length < (pre ++ v0 :: tl).length := by simp
    have hget : (pre ++ v0 :: tl).getD pre.length fresh = v0 := by
      rw [List.getD_eq_getElem?_getD, List.getElem?_append_right (Nat.le_refl _)]
      simp
    have hset : (pre ++ v0 :: tl).set pre.length v0 = pre ++ v0 :: tl := by
      simp [List.set_append_right]
    obtain ⟨t', ht', hrec⟩ := ih (pre ++ [v0])
      (.array ((fill pre.length ta).set pre.length (.str DEFAULT_VALUE))) (by simp)
      (fun v hv => h v (List.mem_cons_of_mem _ hv))
    refine ⟨t', ht', ?_⟩
    have hca : setTypeArray (.array (pre ++ v0 :: tl)) = some (pre ++ v0 :: tl) := rfl
    simp only [diffElems, hca, fill_of_lt hlt, hget, hd, hta, hset, Bool.false_or,
      Bool.false_eq_true, if_false]
    simpa using hrec

theorem diff_self_aux : ∀ x : Config, wellFormed x = true →
    ∀ t : Config, t ≠ .null → ∃ t', t' ≠ .null ∧ diff t x x = some (false, t', x) := by
  intro x
  induction x using Config.induct with
  | hnull => intro _ t ht; exact ⟨t, ht, by simp [diff, isNull]⟩
  | hstr s => intro _ t ht; exact ⟨t, ht, by simp [diff, diffScalar, isNull, scalarNe]⟩
  | hbool b => intro _ t ht; exact ⟨t, ht, by simp [diff, diffScalar, isNull, scalarNe]⟩
  | hi32 v => intro _ t ht; exact ⟨t, ht, by simp [diff, diffScalar, isNull, scalarNe]⟩
  | hu32 v => intro _ t ht; exact ⟨t, ht, by simp [diff, diffScalar, isNull, scalarNe]⟩
  | hi64 v => intro _ t ht; exact ⟨t, ht, by simp [diff, diffScalar, isNull, scalarNe]⟩
  | hu64 v => intro _ t ht; exact ⟨t, ht, by simp [diff, diffScalar, isNull, scalarNe]⟩
  | hdbl v => intro _ t ht; exact ⟨t, ht, by simp [diff, diffScalar, isNull, scalarNe]⟩
  | hmap ms ih =>
    intro hwf t ht
    obtain ⟨hnd, hall⟩ := (wellFormed_map_iff ms).1 hwf
    refine ⟨t, ht, ?_⟩
    simp only [diff, isNull, getType, ne_eq, not_true_eq_false, decide_False, Bool.or_self,
      Bool.false_eq_true, if_false]
    apply diffMembers_self
    intro k v hkv
    refine ⟨find_of_mem hnd hkv, ?_⟩
    obtain ⟨d, _, hd⟩ := ih k v hkv (hall k v hkv) fresh (by simp [fresh])
    exact ⟨d, hd⟩
  | harr es ih =>
    intro hwf t ht
    have hall := (wellFormed_array_iff es).1 hwf
    obtain ⟨t', ht', h⟩ := diffElems_self es [] t ht (fun v hv => by
      obtain ⟨d, _, hd⟩ := ih v hv (hall v hv) fresh (by simp [fresh])
      exact ⟨d, hd⟩)
    refine ⟨t', ht', ?_⟩
    simp only [diff, isNull, getType, ne_eq, not_true_eq_false, decide_False, Bool.or_self,
      Bool.false_eq_true, if_false]
    simpa using h

end Config

open Config ConfigManager

/-- C10: for every well-formed config `x`, at every nesting of maps and arrays,
`diff(target, x, x)` into a non-null target reports no difference: it returns
false, and leaves `x` as it was. -/
theorem diff_self_reports_no_difference (t x : Config) (ht : t ≠ .null)
    (hx : wellFormed x = true) : ∃ t', diff t x x = some (false, t', x) := by
  obtain ⟨t', _, h⟩ := diff_self_aux x hx t ht
  exact ⟨t', h⟩

/-- Witness of C10 on scenario S2's base `{"xs":[1,2,3]}`. -/
theorem diff_self_reports_no_difference_witness :
    fresh ≠ Config.null ∧ wellFormed s2Base = true ∧
    ∃ t', diff fresh s2Base s2Base = some (false, t', s2Base) :=
  ⟨by simp [fresh], by rfl, diff_self_reports_no_difference fresh s2Base (by simp [fresh]) (by rfl)⟩

end Monarch
namespace Monarch
namespace Config

/-! ## The cached merged view -/

theorem mergeMembers_isMap (sm : List (String × Config)) :
    ∀ (tm : List (String × Config)) (r : Config),
      mergeMembers (.map tm) sm = some r → ∃ rm, r = .map rm := by
  induction sm with
  | nil => intro tm r h; simp only [mergeMembers, Option.some.injEq] at h; exact ⟨tm, h.symm⟩
  | cons hd tl ih =>
    obtain ⟨k0, v0⟩ := hd
    intro tm r h
    simp only [mergeMembers, setTypeMap] at h
    cases hm : merge (memberOr k0 tm) v0 with
    | none => rw [hm] at h; cases h
    | some r0 => rw [hm] at h; exact ih _ r h

end Config

namespace ConfigManager
open Config

theorem makeMergedConfig_isMap (cfgs : List (Config × ConfigType)) :
    ∀ (tm : List (String × Config)) (types : ConfigType) (r : Config),
      (∀ e, e ∈ cfgs → isMapOrNull e.1 = true) →
      makeMergedConfig (.map tm) types cfgs = some r → ∃ rm, r = .map rm := by
  induction cfgs with
  | nil =>
    intro tm types r _ h
    simp only [makeMergedConfig, Option.some.injEq] at h
    exact ⟨tm, h.symm⟩
  | cons hd tl ih =>
    obtain ⟨c, ty⟩ := hd
    intro tm types r hall h
    have hc := hall (c, ty) (List.mem_cons_self _ _)
    have htl : ∀ e, e ∈ tl → isMapOrNull e.1 = true :=
      fun e he => hall e (List.mem_cons_of_mem _ he)
    simp only [makeMergedConfig] at h
    by_cases hn : c.isNull = true
    · simp only [hn, Bool.not_true, Bool.false_eq_true, if_false] at h
      exact ih tm types r htl h
    · by_cases hty : (types = ConfigType.All || types = ty) = true
      · obtain ⟨ms, rfl⟩ : ∃ ms, c = .map ms := by
          cases c <;> simp [isMapOrNull, isNull] at hc hn ⊢
        simp only [isNull, Bool.not_false, if_true, hty] at h
        cases hm : merge (.map tm) (.map ms) with
        | none => rw [hm] at h; cases h
        | some t1 =>
          rw [hm] at h
          simp only [merge] at hm
          obtain ⟨tm1, rfl⟩ := mergeMembers_isMap ms tm t1 hm
          exact ih tm1 types r htl h
      · simp only [hn, hty, Bool.not_false, if_true, Bool.false_eq_true, if_false] at h
        exact ih tm types r htl h

theorem update_inv (cfgs : List (Config × ConfigType)) (view : Config) (cm1 : ConfigManager)
    (hm : ∃ ms, view = .map ms)
    (hall : ∀ e, e ∈ cfgs → isMapOrNull e.1 = true)
    (h : update ⟨cfgs, view⟩ = some cm1) : Inv cm1 := by
  obtain ⟨ms, hms⟩ := hm
  unfold update at h
  simp only [hms, Config.clear] at h
  cases hmm : makeMergedConfig (.map []) .All cfgs with
  | none => rw [hmm] at h; cases h
  | some m =>
    rw [hmm] at h
    simp only [Option.some.injEq] at h
    subst h
    exact ⟨makeMergedConfig_isMap _ _ _ _ hall hmm, hall, hmm⟩

theorem mem_set_cases {α : Type} {l : List α} {i : Nat} {a e : α}
    (h : e ∈ l.set i a) : e = a ∨ e ∈ l := by
  rcases List.mem_or_eq_of_mem_set h with h | h
  · exact Or.inr h
  · exact Or.inl h

theorem step_inv {cm cm1 : ConfigManager} {c : Call} (hinv : Inv cm)
    (hc : isMapOrNull c.config = true) (h : step cm c = some cm1) : Inv cm1 := by
  obtain ⟨hmap, hall, hmerged⟩ := hinv
  cases c with
  | add cfg ty =>
    simp only [step, addConfig, Option.map_eq_some'] at h
    obtain ⟨r, hr, rfl⟩ := h
    split at hr
    · cases hr
    · rename_i cm2 hu
      simp only [Option.some.injEq] at hr
      subst hr
      refine update_inv _ _ cm2 hmap ?_ hu
      intro e he
      rcases List.mem_append.1 he with he | he
      · exact hall e he
      · simp only [List.mem_singleton] at he; subst he; exact hc
  | set id cfg =>
    simp only [step, setConfig, Option.map_eq_some'] at h
    obtain ⟨r, hr, rfl⟩ := h
    split at hr
    · split at hr
      · cases hr
      · rename_i cm2 hu
        simp only [Option.some.injEq] at hr
        subst hr
        refine update_inv _ _ cm2 hmap ?_ hu
        intro e he
        rcases mem_set_cases he with he | he
        · subst he; exact hc
        · exact hall e he
    · simp only [Option.some.injEq] at hr
      subst hr
      exact ⟨hmap, hall, hmerged⟩
  | remove id =>
    simp only [step, removeConfig, Option.map_eq_some'] at h
    obtain ⟨r, hr, rfl⟩ := h
    split at hr
    · split at hr
      · cases hr
      · rename_i cm2 hu
        simp only [Option.some.injEq] at hr
        subst hr
        refine update_inv _ _ cm2 hmap ?_ hu
        intro e he
        rcases mem_set_cases he with he | he
        · subst he; rfl
        · exact hall e he
    · simp only [Option.some.injEq] at hr
      subst hr
      exact ⟨hmap, hall, hmerged⟩

theorem run_inv (calls : List Call) :
    ∀ cm cm1 : ConfigManager, Inv cm → (∀ c, c ∈ calls → isMapOrNull c.config = true) →
      run cm calls = some cm1 → Inv cm1 := by
  induction calls with
  | nil =>
    intro cm cm1 hinv _ h
    simp only [run, Option.some.injEq] at h
    subst h; exact hinv
  | cons c tl ih =>
    intro cm cm1 hinv hall h
    simp only [run] at h
    cases hs : step cm c with
    | none => rw [hs] at h; cases h
    | some cm2 =>
      rw [hs] at h
      exact ih cm2 cm1 (step_inv hinv (hall c (List.mem_cons_self _ _)) hs)
        (fun c1 hc1 => hall c1 (List.mem_cons_of_mem _ hc1)) h

theorem new_inv : Inv new := by
  refine ⟨⟨[], rfl⟩, ?_, rfl⟩
  intro e he
  simp [new] at he

end ConfigManager

open Config ConfigManager

/-- C2, as the code has it: after every sequence of `addConfig`, `setConfig`
and `removeConfig` calls that completes and stores only Map documents or null,
the cached merged view is what `makeMergedConfig` with `All` computes on a
fresh (empty Map) target from the current raw configs. -/
theorem cached_view_is_merge_of_documents (calls : List Call) (cm : ConfigManager)
    (hdocs : ∀ c, c ∈ calls → isMapOrNull c.config = true)
    (hrun : run new calls = some cm) :
    makeMergedConfig (.map []) .All cm.mConfigs = some cm.getConfig :=
  (run_inv calls new cm new_inv hdocs hrun).2.2

/-- Witness of the amended C2 on scenario S1 followed by the removal of the
`Default` entry. -/
theorem cached_view_is_merge_of_documents_witness :
    (∀ c, c ∈ [Call.add s1Default .Default, Call.add s1User .User, Call.remove 0] →
      isMapOrNull c.config = true) ∧
    run new [Call.add s1Default .Default, Call.add s1User .User, Call.remove 0]
      = some ⟨[(.null, .None), (s1User, .User)], s1User⟩ ∧
    makeMergedConfig (.map []) .All [(.null, .None), (s1User, .User)] = some s1User :=
  ⟨by simp [Call.config, isMapOrNull, s1Default, s1User], by rfl,
    cached_view_is_merge_of_documents
      [Call.add s1Default .Default, Call.add s1User .User, Call.remove 0]
      ⟨[(.null, .None), (s1User, .User)], s1User⟩
      (by simp [Call.config, isMapOrNull, s1Default, s1User]) (by rfl)⟩

/-- C2 fails as stated: after `addConfig([1])` and `removeConfig(0)` the cached
view is the empty array left by `clear()`, while `makeMergedConfig` with `All`
over the current raw configs gives the empty map on an empty Map target and the
empty string on a default-constructed one. -/
theorem cached_view_counterexample :
    run new [Call.add (.array [.int32 1]) .Default, Call.remove 0]
      = some ⟨[(.null, .None)], .array []⟩ ∧
    makeMergedConfig (.map []) .All [(.null, .None)] = some (.map []) ∧
    makeMergedConfig fresh .All [(.null, .None)] = some (.str "") ∧
    Config.array [] ≠ .map [] ∧ Config.array [] ≠ .str "" :=
  ⟨by rfl, by rfl, by rfl, by simp, by simp⟩

end Monarch
namespace Monarch
namespace Config

/-! ## The sentinel at a position of the source -/

theorem mergeElems_cons_setType {t : Config} {te : List Config}
    (ht : setTypeArray t = some te) (ii : Nat) (hd : Config) (tl : List Config) :
    mergeElems t ii (hd :: tl) = mergeElems (.array te) ii (hd :: tl) := by
  simp only [mergeElems, ht]
  rfl

theorem mergeElems_null_cons (ii : Nat) (hd : Config) (tl : List Config) :
    mergeElems .null ii (hd :: tl) = none := by
  simp [mergeElems, setTypeArray]

theorem setTypeArray_isSome {t : Config} (h : t ≠ .null) : ∃ te, setTypeArray t = some te := by
  cases t <;> simp [setTypeArray] at h ⊢

/-- Merging an array into any target: the result is an array that holds, at
each index of the source, the merge of the source element into what the
target's `operator[]` gives for that index. -/
theorem merge_array_spec {t : Config} {i : Nat} {v : Config} {se : List Config} {r : Config}
    (hi : se.get? i = some v) (h : merge t (.array se) = some r) :
    ∃ te re, setTypeArray t = some te ∧ r = .array re ∧
      ∃ x, merge (te.getD i fresh) v = some x ∧ re.get? i = some x := by
  cases se with
  | nil => simp at hi
  | cons hd tl =>
    simp only [merge] at h
    by_cases ht : t = .null
    · subst ht; rw [mergeElems_null_cons] at h; cases h
    · obtain ⟨te, hte⟩ := setTypeArray_isSome ht
      rw [mergeElems_cons_setType hte] at h
      obtain ⟨re, hr, _, hin, _⟩ := mergeElems_spec _ te 0 r (Nat.zero_le _) h
      have hlt : i < (hd :: tl).length := by
        rw [List.get?_eq_getElem?] at hi
        exact (List.getElem?_eq_some_iff.1 hi).1
      obtain ⟨x, hx, hf⟩ := hin i hlt
      have hv : (hd :: tl).get ⟨i, hlt⟩ = v := by
        rw [List.get?_eq_get hlt] at hi
        exact Option.some.inj hi
      rw [hv] at hx
      simp only [Nat.zero_add] at hx hf
      exact ⟨te, re, hte, hr, x, hx, hf⟩

theorem getPath_fresh (p : List Step) : (getPath fresh p).getD fresh = fresh := by
  cases p with
  | nil => rfl
  | cons s q => cases s <;> rfl

theorem getPath_key_getD {t : Config} {tm : List (String × Config)} (k : String) (q : List Step)
    (ht : setTypeMap t = some tm) :
    (getPath t (.key k :: q)).getD fresh = (getPath (memberOr k tm) q).getD fresh := by
  cases t with
  | map ms =>
    simp only [setTypeMap, Option.some.injEq] at ht
    subst ht
    cases hf : find k ms with
    | none => simp [getPath, hf, memberOr, getPath_fresh]
    | some y => simp [getPath, hf, memberOr]
  | null => simp [setTypeMap] at ht
  | _ =>
    simp only [setTypeMap, Option.some.injEq] at ht
    subst ht
    simp [getPath, memberOr, find, getPath_fresh]

theorem getPath_index_getD {t : Config} {te : List Config} (i : Nat) (q : List Step)
    (ht : setTypeArray t = some te) :
    (getPath t (.index i :: q)).getD fresh = (getPath (te.getD i fresh) q).getD fresh := by
  cases t with
  | array es =>
    simp only [setTypeArray, Option.some.injEq] at ht
    subst ht
    cases hf : es.get? i with
    | none =>
      have : es.getD i fresh = fresh := by
        rw [List.getD_eq_getElem?_getD, ← List.get?_eq_getElem?, hf]; rfl
      simp only [getPath, hf, this, getPath_fresh]
      rfl
    | some y =>
      have : es.getD i fresh = y := by
        rw [List.getD_eq_getElem?_getD, ← List.get?_eq_getElem?, hf]; rfl
      simp only [getPath, hf, this]
  | null => simp [setTypeArray] at ht
  | _ =>
    simp only [setTypeArray, Option.some.injEq] at ht
    subst ht
    simp [getPath, getPath_fresh]

theorem merge_default_at_path (p : List Step) :
    ∀ (s t r : Config), wellFormed s = true → getPath s p = some (.str DEFAULT_VALUE) →
      merge t s = some r → getPath r p = some ((getPath t p).getD fresh) := by
  induction p with
  | nil =>
    intro s t r _ hs h
    simp only [getPath, Option.some.injEq] at hs
    subst hs
    simp only [merge, isDefaultValue, decide_True, if_true, Option.some.injEq] at h
    subst h
    simp [getPath]
  | cons st q ih =>
    intro s t r hwf hs h
    cases st with
    | key k =>
      cases s with
      | map sm =>
        simp only [getPath] at hs
        cases hf : find k sm with
        | none => rw [hf] at hs; cases hs
        | some v =>
          rw [hf] at hs
          obtain ⟨hnd, hall⟩ := (wellFormed_map_iff sm).1 hwf
          obtain ⟨tm, rm, htm, hr, x, hx, hfr⟩ := merge_map_spec hnd hf h
          subst hr
          rw [getPath_key_getD k q htm]
          simp only [getPath, hfr]
          exact ih v (memberOr k tm) x (hall k v (mem_of_find hf)) hs hx
      | _ => simp [getPath] at hs
    | index i =>
      cases s with
      | array se =>
        simp only [getPath] at hs
        cases hf : se.get? i with
        | none => rw [hf] at hs; cases hs
        | some v =>
          rw [hf] at hs
          have hall := (wellFormed_array_iff se).1 hwf
          obtain ⟨te, re, hte, hr, x, hx, hfr⟩ := merge_array_spec hf h
          subst hr
          rw [getPath_index_getD i q hte]
          simp only [getPath, hfr]
          have hmem : v ∈ se := List.get?_mem hf
          exact ih v (te.getD i fresh) x (hall v hmem) hs hx
      | _ => simp [getPath] at hs

end Config

open Config ConfigManager

/-- C6, as the code has it: the sentinel is recognised at every recursion
level.  For a well-formed source holding `"__default__"` at a position `p` (a
map value or an array element at any depth), when `merge(t, s)` completes the
target holds at `p` the value it held there before; a position that was absent
from `t` does not stay absent: `operator[]` creates it and it holds a
default-constructed (empty string) config. -/
theorem merge_default_value_at_position (t s r : Config) (p : List Step)
    (hs : wellFormed s = true) (hp : getPath s p = some (.str DEFAULT_VALUE))
    (h : merge t s = some r) :
    (∀ v, getPath t p = some v → getPath r p = some v) ∧
    (getPath t p = none → getPath r p = some fresh) := by
  have hr := merge_default_at_path p s t r hs hp h
  constructor
  · intro v hv; rw [hr, hv]; rfl
  · intro hn; rw [hr, hn]; rfl

/-- Witness of the amended C6 on scenario S2, at position `xs[2]`. -/
theorem merge_default_value_at_position_witness :
    wellFormed s2Overlay = true ∧
    getPath s2Overlay [.key "xs", .index 2] = some (.str DEFAULT_VALUE) ∧
    merge s2Base s2Overlay = some (.map [("xs", .array [.int32 1, .int32 22, .int32 3])]) ∧
    (∀ v, getPath s2Base [.key "xs", .index 2] = some v →
      getPath (.map [("xs", .array [.int32 1, .int32 22, .int32 3])]) [.key "xs", .index 2]
        = some v) ∧
    (getPath s2Base [.key "xs", .index 2] = none →
      getPath (.map [("xs", .array [.int32 1, .int32 22, .int32 3])]) [.key "xs", .index 2]
        = some fresh) :=
  ⟨by rfl, by rfl, by rfl,
    merge_default_value_at_position s2Base s2Overlay _ [.key "xs", .index 2]
      (by rfl) (by rfl) (by rfl)⟩

/-- C6 fails as stated: merging `{"k":"__default__"}` into the empty map, from
which position `k` is absent, completes with `{"k":""}`: the position is present
after the merge. -/
theorem merge_default_value_counterexample :
    getPath (.map [("k", .str DEFAULT_VALUE)]) [.key "k"] = some (.str DEFAULT_VALUE) ∧
    getPath (.map []) [.key "k"] = none ∧
    merge (.map []) (.map [("k", .str DEFAULT_VALUE)]) = some (.map [("k", .str "")]) ∧
    getPath (.map [("k", .str "")]) [.key "k"] = some (.str "") :=
  ⟨by rfl, by rfl, by rfl, by rfl⟩

end Monarch
namespace Monarch
namespace Config

/-! ## Agreement with a config at its keys and indices -/

theorem agreesMembers_iff (m : Config) (ms : List (String × Config)) :
    agreesMembers m ms = true ↔
      ∀ k v, (k, v) ∈ ms → ∃ mm x, m = .map mm ∧ find k mm = some x ∧ agrees x v = true := by
  induction ms with
  | nil => simp [agreesMembers]
  | cons hd tl ih =>
    obtain ⟨k0, v0⟩ := hd
    simp only [agreesMembers, Bool.and_eq_true, ih, List.mem_cons, Prod.mk.injEq]
    constructor
    · rintro ⟨h0, h1⟩ k v (⟨rfl, rfl⟩ | h)
      · cases m with
        | map mm =>
          cases hf : find k mm with
          | none => simp [hf] at h0
          | some x => simp only [hf] at h0; exact ⟨mm, x, rfl, hf, h0⟩
        | _ => simp at h0
      · exact h1 k v h
    · intro h
      refine ⟨?_, fun k v hkv => h k v (Or.inr hkv)⟩
      obtain ⟨mm, x, rfl, hf, hx⟩ := h k0 v0 (Or.inl ⟨rfl, rfl⟩)
      simp [hf, hx]

theorem agreesElems_iff (m : Config) (es : List Config) :
    ∀ i, agreesElems m i es = true ↔
      ∀ j (hj : j < es.length),
        ∃ me x, m = .array me ∧ me[i + j]? = some x ∧ agrees x (es.get ⟨j, hj⟩) = true := by
  induction es with
  | nil => intro i; simp [agreesElems]
  | cons hd tl ih =>
    intro i
    simp only [agreesElems, Bool.and_eq_true, ih]
    constructor
    · rintro ⟨h0, h1⟩ j hj
      cases j with
      | zero =>
        cases m with
        | array me =>
          cases hf : me[i]? with
          | none => simp [hf] at h0
          | some x => simp only [hf] at h0; exact ⟨me, x, rfl, by simpa using hf, by simpa using h0⟩
        | _ => simp at h0
      | succ j =>
        have hj1 : j < tl.length := by simpa using hj
        obtain ⟨me, x, hm, hf, hx⟩ := h1 j hj1
        refine ⟨me, x, hm, ?_, by simpa using hx⟩
        have : i + (j + 1) = i + 1 + j := by omega
        rw [this]; exact hf
    · intro h
      constructor
      · obtain ⟨me, x, rfl, hf, hx⟩ := h 0 (by simp)
        simp only [Nat.add_zero] at hf
        simp only [hf]
        simpa using hx
      · intro j hj
        obtain ⟨me, x, hm, hf, hx⟩ := h (j + 1) (by simpa using hj)
        refine ⟨me, x, hm, ?_, by simpa using hx⟩
        have : i + 1 + j = i + (j + 1) := by omega
        rw [this]; exact hf

theorem sentinelFreeMembers_iff (ms : List (String × Config)) :
    sentinelFreeMembers ms = true ↔ ∀ k v, (k, v) ∈ ms → sentinelFree v = true := by
  induction ms with
  | nil => simp [sentinelFreeMembers]
  | cons hd tl ih =>
    obtain ⟨k0, v0⟩ := hd
    simp only [sentinelFreeMembers, Bool.and_eq_true, ih, List.mem_cons, Prod.mk.injEq]
    constructor
    · rintro ⟨h0, h1⟩ k v (⟨rfl, rfl⟩ | h)
      · exact h0
      · exact h1 k v h
    · intro h
      exact ⟨h k0 v0 (Or.inl ⟨rfl, rfl⟩), fun k v hkv => h k v (Or.inr hkv)⟩

theorem sentinelFreeElems_iff (es : List Config) :
    sentinelFreeElems es = true ↔ ∀ v, v ∈ es → sentinelFree v = true := by
  induction es with
  | nil => simp [sentinelFreeElems]
  | cons hd tl ih => simp [sentinelFreeElems, ih]

theorem nullFreeMembers_iff (ms : List (String × Config)) :
    nullFreeMembers ms = true ↔ ∀ k v, (k, v) ∈ ms → nullFree v = true := by
  induction ms with
  | nil => simp [nullFreeMembers]
  | cons hd tl ih =>
    obtain ⟨k0, v0⟩ := hd
    simp only [nullFreeMembers, Bool.and_eq_true, ih, List.mem_cons, Prod.mk.injEq]
    constructor
    · rintro ⟨h0, h1⟩ k v (⟨rfl, rfl⟩ | h)
      · exact h0
      · exact h1 k v h
    · intro h
      exact ⟨h k0 v0 (Or.inl ⟨rfl, rfl⟩), fun k v hkv => h k v (Or.inr hkv)⟩

theorem nullFreeElems_iff (es : List Config) :
    nullFreeElems es = true ↔ ∀ v, v ∈ es → nullFree v = true := by
  induction es with
  | nil => simp [nullFreeElems]
  | cons hd tl ih => simp [nullFreeElems, ih]

theorem nullFree_ne_null {t : Config} (h : nullFree t = true) : t ≠ .null := by
  rintro rfl; simp [nullFree] at h

theorem nullFree_fresh : nullFree fresh = true := rfl

theorem nullFree_memberOr {t : Config} {tm : List (String × Config)} (h : nullFree t = true)
    (ht : setTypeMap t = some tm) (k : String) : nullFree (memberOr k tm) = true := by
  unfold memberOr
  cases hf : find k tm with
  | none => rfl
  | some c =>
    cases t with
    | map ms =>
      simp only [setTypeMap, Option.some.injEq] at ht
      subst ht
      rw [nullFree, nullFreeMembers_iff] at h
      exact h k c (mem_of_find hf)
    | null => simp [setTypeMap] at ht
    | _ =>
      simp only [setTypeMap, Option.some.injEq] at ht
      subst ht
      simp [find] at hf

theorem nullFree_getD {t : Config} {te : List Config} (h : nullFree t = true)
    (ht : setTypeArray t = some te) (i : Nat) : nullFree (te.getD i fresh) = true := by
  rw [List.getD_eq_getElem?_getD]
  cases hf : te[i]? with
  | none => rfl
  | some c =>
    cases t with
    | array es =>
      simp only [setTypeArray, Option.some.injEq] at ht
      subst ht
      rw [nullFree, nullFreeElems_iff] at h
      exact h c (List.getElem?_mem hf)
    | null => simp [setTypeArray] at ht
    | _ =>
      simp only [setTypeArray, Option.some.injEq] at ht
      subst ht
      simp at hf

end Config
end Monarch
namespace Monarch
namespace Config

/-! ## Merging a config without sentinel gives a config that agrees with it -/

theorem merge_agrees : ∀ v : Config, wellFormed v = true → sentinelFree v = true →
    ∀ t m : Config, merge t v = some m → agrees m v = true := by
  intro v
  induction v using Config.induct with
  | hnull => intro _ _ t m h; simp only [merge, Option.some.injEq] at h; subst h; rfl
  | hstr s =>
    intro _ hsf t m h
    simp only [sentinelFree, Bool.not_eq_true'] at hsf
    simp only [merge, hsf, Bool.false_eq_true, if_false, Option.some.injEq] at h
    subst h; simp [agrees, scalarNe]
  | hbool b => intro _ _ t m h; simp only [merge, Option.some.injEq] at h; subst h; simp [agrees, scalarNe]
  | hi32 b => intro _ _ t m h; simp only [merge, Option.some.injEq] at h; subst h; simp [agrees, scalarNe]
  | hu32 b => intro _ _ t m h; simp only [merge, Option.some.injEq] at h; subst h; simp [agrees, scalarNe]
  | hi64 b => intro _ _ t m h; simp only [merge, Option.some.injEq] at h; subst h; simp [agrees, scalarNe]
  | hu64 b => intro _ _ t m h; simp only [merge, Option.some.injEq] at h; subst h; simp [agrees, scalarNe]
  | hdbl b => intro _ _ t m h; simp only [merge, Option.some.injEq] at h; subst h; simp [agrees, scalarNe]
  | hmap ms ih =>
    intro hwf hsf t m h
    obtain ⟨hnd, hall⟩ := (wellFormed_map_iff ms).1 hwf
    rw [sentinelFree, sentinelFreeMembers_iff] at hsf
    rw [agrees, agreesMembers_iff]
    intro k v hkv
    obtain ⟨tm, rm, _, hr, x, hx, hfr⟩ := merge_map_spec hnd (find_of_mem hnd hkv) h
    exact ⟨rm, x, hr, hfr, ih k v hkv (hall k v hkv) (hsf k v hkv) _ _ hx⟩
  | harr es ih =>
    intro hwf hsf t m h
    have hall := (wellFormed_array_iff es).1 hwf
    rw [sentinelFree, sentinelFreeElems_iff] at hsf
    rw [agrees, agreesElems_iff]
    intro j hj
    have hget : es.get? j = some (es.get ⟨j, hj⟩) := List.get?_eq_get hj
    have hmem : es.get ⟨j, hj⟩ ∈ es := List.get_mem es j hj
    obtain ⟨te, re, _, hr, x, hx, hfr⟩ := merge_array_spec hget h
    refine ⟨re, x, hr, ?_, ih _ hmem (hall _ hmem) (hsf _ hmem) _ _ hx⟩
    rw [Nat.zero_add, ← List.get?_eq_getElem?]; exact hfr

/-! ## When a merge completes -/

theorem mergeMembers_total (sm : List (String × Config)) :
    ∀ tm : List (String × Config), (sm.map Prod.fst).Nodup →
      (∀ k v, (k, v) ∈ sm → ∃ x, merge (memberOr k tm) v = some x) →
      ∃ r, mergeMembers (.map tm) sm = some r := by
  induction sm with
  | nil => intro tm _ _; exact ⟨_, rfl⟩
  | cons hd tl ih =>
    obtain ⟨k0, v0⟩ := hd
    intro tm hnd h
    simp only [List.map_cons, List.nodup_cons] at hnd
    obtain ⟨r0, hr0⟩ := h k0 v0 (List.mem_cons_self _ _)
    simp only [mergeMembers, setTypeMap, hr0]
    apply ih _ hnd.2
    intro k v hkv
    have hk : k ≠ k0 := by
      rintro rfl
      exact hnd.1 (List.mem_map.2 ⟨(k, v), hkv, rfl⟩)
    rw [memberOr_put_other r0 tm hk]
    exact h k v (List.mem_cons_of_mem _ hkv)

theorem fill_set_getElem?_ne {ii i : Nat} (te : List Config) (r0 : Config)
    (hii : ii ≤ te.length) (hi : i ≠ ii) : ((fill ii te).set ii r0)[i]? = te[i]? := by
  rw [List.getElem?_set_ne (Ne.symm hi)]
  unfold fill
  by_cases h1 : i < te.length
  · rw [List.getElem?_append_left h1]
  · have h2 : te.length ≤ i := by omega
    rw [List.getElem?_append_right h2, List.getElem?_eq_none_iff.2 h2]
    rw [List.getElem?_replicate]
    have : ¬ (i - te.length < ii + 1 - te.length) := by omega
    simp [this]

theorem mergeElems_total (se : List Config) :
    ∀ (te : List Config) (ii : Nat), ii ≤ te.length →
      (∀ j (hj : j < se.length), ∃ x, merge (te.getD (ii + j) fresh) (se.get ⟨j, hj⟩) = some x) →
      ∃ r, mergeElems (.array te) ii se = some r := by
  induction se with
  | nil => intro te ii _ _; exact ⟨_, rfl⟩
  | cons v0 tl ih =>
    intro te ii hii h
    obtain ⟨r0, hr0⟩ := h 0 (by simp)
    simp only [Nat.add_zero, List.get_eq_getElem, List.getElem_cons_zero] at hr0
    simp only [mergeElems, setTypeArray]
    rw [fill_getD, hr0]
    apply ih _ (ii + 1) (by simp [fill_length])
    intro j hj
    obtain ⟨x, hx⟩ := h (j + 1) (by simpa using hj)
    refine ⟨x, ?_⟩
    have e1 : ((fill ii te).set ii r0).getD (ii + 1 + j) fresh = te.getD (ii + (j + 1)) fresh := by
      rw [List.getD_eq_getElem?_getD, List.getD_eq_getElem?_getD,
        fill_set_getElem?_ne te r0 hii (by omega)]
      congr 2; omega
    rw [e1]
    simpa using hx

theorem merge_total : ∀ v : Config, wellFormed v = true →
    ∀ t : Config, nullFree t = true → ∃ m, merge t v = some m := by
  intro v
  induction v using Config.induct with
  | hnull => intro _ t _; exact ⟨_, rfl⟩
  | hstr s => intro _ t _; simp only [merge]; split <;> exact ⟨_, rfl⟩
  | hbool b => intro _ t _; exact ⟨_, rfl⟩
  | hi32 b => intro _ t _; exact ⟨_, rfl⟩
  | hu32 b => intro _ t _; exact ⟨_, rfl⟩
  | hi64 b => intro _ t _; exact ⟨_, rfl⟩
  | hu64 b => intro _ t _; exact ⟨_, rfl⟩
  | hdbl b => intro _ t _; exact ⟨_, rfl⟩
  | hmap ms ih =>
    intro hwf t ht
    obtain ⟨hnd, hall⟩ := (wellFormed_map_iff ms).1 hwf
    simp only [merge]
    cases ms with
    | nil => exact ⟨_, rfl⟩
    | cons hd tl =>
      obtain ⟨tm, htm⟩ := setTypeMap_isSome (nullFree_ne_null ht)
      rw [mergeMembers_cons_setType htm]
      exact mergeMembers_total _ tm hnd
        (fun k v hkv => ih k v hkv (hall k v hkv) _ (nullFree_memberOr ht htm k))
  | harr es ih =>
    intro hwf t ht
    have hall := (wellFormed_array_iff es).1 hwf
    simp only [merge]
    cases es with
    | nil => exact ⟨_, rfl⟩
    | cons hd tl =>
      obtain ⟨te, hte⟩ := setTypeArray_isSome (nullFree_ne_null ht)
      rw [mergeElems_cons_setType hte]
      exact mergeElems_total _ te 0 (Nat.zero_le _)
        (fun j hj => ih _ (List.get_mem _ j hj) (hall _ (List.get_mem _ j hj)) _
          (nullFree_getD ht hte _))

end Config
end Monarch
namespace Monarch
namespace Config

/-! ## The loops of `diff` -/

theorem keys_replace (k : String) (v : Config) (ms : List (String × Config)) :
    (replace k v ms).map Prod.fst = ms.map Prod.fst := by
  induction ms with
  | nil => rfl
  | cons hd tl ih =>
    obtain ⟨k0, v0⟩ := hd
    by_cases hk : k = k0
    · simp [replace, hk]
    · simp [replace, hk, ih]

theorem keys_insertSorted_perm (k : String) (v : Config) (ms : List (String × Config)) :
    ((insertSorted k v ms).map Prod.fst).Perm (k :: ms.map Prod.fst) := by
  induction ms with
  | nil => simp [insertSorted]
  | cons hd tl ih =>
    obtain ⟨k0, v0⟩ := hd
    by_cases hlt : keyLt k k0 = true
    · simp [insertSorted, hlt]
    · simp only [insertSorted, hlt, Bool.false_eq_true, if_false, List.map_cons]
      exact (List.Perm.cons k0 ih).trans (List.Perm.swap k k0 _)

theorem nodup_put (k : String) (v : Config) {ms : List (String × Config)}
    (h : (ms.map Prod.fst).Nodup) : ((put k v ms).map Prod.fst).Nodup := by
  unfold put
  cases hf : find k ms with
  | some x => simpa [keys_replace] using h
  | none =>
    simp only
    rw [(keys_insertSorted_perm k v ms).nodup_iff, List.nodup_cons]
    exact ⟨(find_eq_none_iff k ms).1 hf, h⟩

theorem diffMembers_spec (rest : List (String × Config)) :
    ∀ (T : Config) (eT cm : List (String × Config)) (rv r : Bool) (D C1 : Config),
      setTypeMap T = some eT → (rv = true → T = .map eT) →
      (rest.map Prod.fst).Nodup → (eT.map Prod.fst).Nodup →
      diffMembers T (.map cm) rv rest = some (r, D, C1) →
      ∃ eD cm1, setTypeMap D = some eD ∧ C1 = .map cm1 ∧ (eD.map Prod.fst).Nodup ∧
        (r = true → D = .map eD) ∧ (rv = true → r = true) ∧
        (∀ k, k ∉ rest.map Prod.fst → find k eD = find k eT ∧ find k cm1 = find k cm) ∧
        (∀ k v, (k, v) ∈ rest →
          (find k cm = none ∧ r = true ∧ find k eD = some v ∧ find k cm1 = none) ∨
          (∃ c r1 d1 c1, find k cm = some c ∧ diff fresh c v = some (r1, d1, c1) ∧
            find k cm1 = some c1 ∧ (r1 = true → r = true ∧ find k eD = some d1) ∧
            (r1 = false → find k eD = find k eT))) := by
  induction rest with
  | nil =>
    intro T eT cm rv r D C1 hT hrv _ hndT h
    simp only [diffMembers, Option.some.injEq, Prod.mk.injEq] at h
    obtain ⟨rfl, rfl, rfl⟩ := h
    exact ⟨eT, cm, hT, rfl, hndT, hrv, id, fun k _ => ⟨rfl, rfl⟩, fun k v hkv => by cases hkv⟩
  | cons hd tl ih =>
    obtain ⟨k0, v0⟩ := hd
    intro T eT cm rv r D C1 hT hrv hnd hndT h
    simp only [List.map_cons, List.nodup_cons] at hnd
    have hk0 : ∀ k v, (k, v) ∈ tl → k ≠ k0 := by
      rintro k v hkv rfl
      exact hnd.1 (List.mem_map.2 ⟨(k, v), hkv, rfl⟩)
    have hcm : setTypeMap (.map cm) = some cm := rfl
    cases hf : find k0 cm with
    | none =>
      simp only [diffMembers, hasMember, hf, Option.isSome_none, Bool.not_false, if_true, hT] at h
      obtain ⟨eD, cm1, hD, hC, hndD, hDm, hr, hout, hin⟩ :=
        ih (.map (put k0 v0 eT)) (put k0 v0 eT) cm true r D C1 rfl (fun _ => rfl) hnd.2
          (nodup_put k0 v0 hndT) h
      have hrt : r = true := hr rfl
      refine ⟨eD, cm1, hD, hC, hndD, hDm, fun _ => hrt, ?_, ?_⟩
      · intro k hk
        simp only [List.map_cons, List.mem_cons, not_or] at hk
        obtain ⟨h1, h2⟩ := hout k hk.2
        exact ⟨by rw [h1, find_put_other v0 eT hk.1], h2⟩
      · intro k v hkv
        rcases List.mem_cons.1 hkv with h1 | h1
        · cases h1
          obtain ⟨h1, h2⟩ := hout k0 hnd.1
          exact Or.inl ⟨hf, hrt, by rw [h1, find_put_self], by rw [h2, hf]⟩
        · have hne := hk0 k v h1
          rcases hin k v h1 with h2 | ⟨c, r1, d1, c1, h2, h3, h4, h5, h6⟩
          · exact Or.inl h2
          · refine Or.inr ⟨c, r1, d1, c1, h2, h3, h4, h5, ?_⟩
            intro hr1
            rw [h6 hr1, find_put_other v0 eT hne]
    | some c =>
      have hm : memberOr k0 cm = c := by simp [memberOr, hf]
      simp only [diffMembers, hasMember, hf, Option.isSome_some, Bool.not_true,
        Bool.false_eq_true, if_false, hcm, hm] at h
      cases hd : diff fresh c v0 with
      | none => rw [hd] at h; cases h
      | some res =>
        obtain ⟨r1, d1, c1⟩ := res
        rw [hd] at h
        cases r1 with
        | true =>
          simp only [hT] at h
          obtain ⟨eD, cm1, hD, hC, hndD, hDm, hr, hout, hin⟩ :=
            ih (.map (put k0 d1 eT)) (put k0 d1 eT) (put k0 c1 cm) true r D C1 rfl (fun _ => rfl)
              hnd.2 (nodup_put k0 d1 hndT) h
          have hrt : r = true := hr rfl
          refine ⟨eD, cm1, hD, hC, hndD, hDm, fun _ => hrt, ?_, ?_⟩
          · intro k hk
            simp only [List.map_cons, List.mem_cons, not_or] at hk
            obtain ⟨h1, h2⟩ := hout k hk.2
            exact ⟨by rw [h1, find_put_other d1 eT hk.1], by rw [h2, find_put_other c1 cm hk.1]⟩
          · intro k v hkv
            rcases List.mem_cons.1 hkv with h1 | h1
            · cases h1
              obtain ⟨h1, h2⟩ := hout k0 hnd.1
              refine Or.inr ⟨c, true, d1, c1, hf, hd, by rw [h2, find_put_self], ?_, ?_⟩
              · intro _; exact ⟨hrt, by rw [h1, find_put_self]⟩
              · intro hc; cases hc
            · have hne := hk0 k v h1
              rcases hin k v h1 with ⟨h2, h3, h4, h5⟩ | ⟨c2, r2, d2, c3, h2, h3, h4, h5, h6⟩
              · rw [find_put_other c1 cm hne] at h2
                exact Or.inl ⟨h2, h3, h4, h5⟩
              · rw [find_put_other c1 cm hne] at h2
                refine Or.inr ⟨c2, r2, d2, c3, h2, h3, h4, h5, ?_⟩
                intro hr2
                rw [h6 hr2, find_put_other d1 eT hne]
        | false =>
          simp only at h
          obtain ⟨eD, cm1, hD, hC, hndD, hDm, hr, hout, hin⟩ :=
            ih T eT (put k0 c1 cm) rv r D C1 hT hrv hnd.2 hndT h
          refine ⟨eD, cm1, hD, hC, hndD, hDm, hr, ?_, ?_⟩
          · intro k hk
            simp only [List.map_cons, List.mem_cons, not_or] at hk
            obtain ⟨h1, h2⟩ := hout k hk.2
            exact ⟨h1, by rw [h2, find_put_other c1 cm hk.1]⟩
          · intro k v hkv
            rcases List.mem_cons.1 hkv with h1 | h1
            · cases h1
              obtain ⟨h1, h2⟩ := hout k0 hnd.1
              refine Or.inr ⟨c, false, d1, c1, hf, hd, by rw [h2, find_put_self], ?_, ?_⟩
              · intro hc; cases hc
              · intro _; exact h1
            · have hne := hk0 k v h1
              rcases hin k v h1 with ⟨h2, h3, h4, h5⟩ | ⟨c2, r2, d2, c3, h2, h3, h4, h5, h6⟩
              · rw [find_put_other c1 cm hne] at h2
                exact Or.inl ⟨h2, h3, h4, h5⟩
              · rw [find_put_other c1 cm hne] at h2
                exact Or.inr ⟨c2, r2, d2, c3, h2, h3, h4, h5, h6⟩

end Config
end Monarch
namespace Monarch
namespace Config

theorem fill_set_getElem?_self {ii : Nat} (te : List Config) (r0 : Config) :
    ((fill ii te).set ii r0)[ii]? = some r0 := by
  rw [List.getElem?_set_self (by rw [fill_length]; omega)]

theorem fill_set_length {ii : Nat} (te : List Config) (r0 : Config) :
    ((fill ii te).set ii r0).length = max te.length (ii + 1) := by
  simp [fill_length]

theorem diffElems_spec (rest : List Config) :
    ∀ (T : Config) (eT ca : List Config) (rv r : Bool) (ii : Nat) (D C1 : Config),
      setTypeArray T = some eT → eT.length = ii → ii ≤ ca.length →
      diffElems T (.array ca) rv ii rest = some (r, D, C1) →
      ∃ eD ca1, setTypeArray D = some eD ∧ C1 = .array ca1 ∧ eD.length = ii + rest.length ∧
        (T = .array eT ∨ rest ≠ [] → D = .array eD) ∧ (rv = true → r = true) ∧
        (∀ j (hj : j < rest.length), ∃ r1 d1 c1,
          diff fresh (ca.getD (ii + j) fresh) (rest.get ⟨j, hj⟩) = some (r1, d1, c1) ∧
          ca1[ii + j]? = some c1 ∧
          eD[ii + j]? = some (if r1 = true then d1 else .str DEFAULT_VALUE) ∧
          (r1 = true → r = true)) ∧
        (∀ i, i < ii → eD[i]? = eT[i]? ∧ ca1[i]? = ca[i]?) := by
  induction rest with
  | nil =>
    intro T eT ca rv r ii D C1 hT hlen _ h
    simp only [diffElems, Option.some.injEq, Prod.mk.injEq] at h
    obtain ⟨rfl, rfl, rfl⟩ := h
    refine ⟨eT, ca, hT, rfl, by simpa using hlen, ?_, id, ?_, fun i _ => ⟨rfl, rfl⟩⟩
    · rintro (h | h)
      · exact h
      · exact absurd rfl h
    · intro j hj; simp at hj
  | cons v0 tl ih =>
    intro T eT ca rv r ii D C1 hT hlen hii h
    have hca : setTypeArray (.array ca) = some ca := rfl
    simp only [diffElems, hca, fill_getD] at h
    cases hd : diff fresh (ca.getD ii fresh) v0 with
    | none => rw [hd] at h; cases h
    | some res =>
      obtain ⟨found, d, slot⟩ := res
      rw [hd] at h
      simp only [hT] at h
      obtain ⟨eD, ca1, hD, hC, hl, hDa, hr, hin, hout⟩ :=
        ih (.array ((fill ii eT).set ii (if found = true then d else .str DEFAULT_VALUE)))
          ((fill ii eT).set ii (if found = true then d else .str DEFAULT_VALUE))
          ((fill ii ca).set ii slot) (found || rv) r (ii + 1) D C1 rfl
          (by rw [fill_set_length]; omega) (by rw [fill_set_length]; omega) h
      have hDarr := hDa (Or.inl rfl)
      obtain ⟨ho1, ho2⟩ := hout ii (by omega)
      refine ⟨eD, ca1, hD, hC, by rw [hl]; simp; omega, fun _ => hDarr, ?_, ?_, ?_⟩
      · intro hrv; exact hr (by simp [hrv])
      · intro j hj
        cases j with
        | zero =>
          refine ⟨found, d, slot, by simpa using hd, ?_, ?_, ?_⟩
          · rw [Nat.add_zero, ho2, fill_set_getElem?_self]
          · rw [Nat.add_zero, ho1, fill_set_getElem?_self]
          · intro hf; exact hr (by simp [hf])
        | succ j =>
          obtain ⟨r1, d1, c1, h1, h2, h3, h4⟩ := hin j (by simpa using hj)
          have e1 : ((fill ii ca).set ii slot).getD (ii + 1 + j) fresh
              = ca.getD (ii + (j + 1)) fresh := by
            rw [List.getD_eq_getElem?_getD, List.getD_eq_getElem?_getD,
              fill_set_getElem?_ne ca slot hii (by omega)]
            congr 2; omega
          rw [e1] at h1
          have e2 : ii + (j + 1) = ii + 1 + j := by omega
          refine ⟨r1, d1, c1, by simpa using h1, ?_, ?_, h4⟩
          · rw [e2]; exact h2
          · rw [e2]; exact h3
      · intro i hi
        obtain ⟨h1, h2⟩ := hout i (by omega)
        exact ⟨by rw [h1, fill_set_getElem?_ne eT _ (by omega) (by omega)],
          by rw [h2, fill_set_getElem?_ne ca _ hii (by omega)]⟩

end Config
end Monarch
namespace Monarch
namespace Config

/-! ## Diff, then merge -/

theorem diffSound_replaced {a b : Config} (hwf : wellFormed b = true)
    (hsf : sentinelFree b = true) : DiffSound a b true b a := by
  unfold DiffSound
  constructor
  · intro h; cases h
  · intro _
    constructor
    · intro m h; exact merge_agrees b hwf hsf a m h
    · intro ha; exact merge_total b hwf a ha

theorem diffScalar_sound {a b : Config} {r : Bool} {d a1 : Config}
    (hwf : wellFormed b = true) (hsf : sentinelFree b = true)
    (hag : ∀ x, agrees x b = !scalarNe x b)
    (h : diffScalar fresh a b = some (r, d, a1)) : DiffSound a b r d a1 := by
  unfold diffScalar at h
  split at h
  · simp only [Option.some.injEq, Prod.mk.injEq] at h
    obtain ⟨rfl, rfl, rfl⟩ := h
    exact diffSound_replaced hwf hsf
  · split at h
    · simp only [Option.some.injEq, Prod.mk.injEq] at h
      obtain ⟨rfl, rfl, rfl⟩ := h
      exact diffSound_replaced hwf hsf
    · rename_i _ hne
      simp only [Option.some.injEq, Prod.mk.injEq] at h
      obtain ⟨rfl, rfl, rfl⟩ := h
      refine ⟨fun _ => ?_, fun h => (by cases h)⟩
      rw [hag]
      simpa using hne

theorem diff_sound : ∀ b : Config, wellFormed b = true → sentinelFree b = true →
    ∀ (a : Config) (r : Bool) (d a1 : Config),
      diff fresh a b = some (r, d, a1) → DiffSound a b r d a1 := by
  intro b
  induction b using Config.induct with
  | hnull =>
    intro _ _ a r d a1 h
    simp only [diff] at h
    split at h
    · rename_i hn
      simp only [Option.some.injEq, Prod.mk.injEq] at h
      obtain ⟨rfl, rfl, rfl⟩ := h
      exact ⟨fun _ => (by simpa [agrees] using hn), fun h => (by cases h)⟩
    · simp only [Option.some.injEq, Prod.mk.injEq] at h
      obtain ⟨rfl, rfl, rfl⟩ := h
      exact diffSound_replaced rfl rfl
  | hstr s => intro hwf hsf a r d a1 h; exact diffScalar_sound hwf hsf (fun x => rfl) h
  | hbool s => intro hwf hsf a r d a1 h; exact diffScalar_sound hwf hsf (fun x => rfl) h
  | hi32 s => intro hwf hsf a r d a1 h; exact diffScalar_sound hwf hsf (fun x => rfl) h
  | hu32 s => intro hwf hsf a r d a1 h; exact diffScalar_sound hwf hsf (fun x => rfl) h
  | hi64 s => intro hwf hsf a r d a1 h; exact diffScalar_sound hwf hsf (fun x => rfl) h
  | hu64 s => intro hwf hsf a r d a1 h; exact diffScalar_sound hwf hsf (fun x => rfl) h
  | hdbl s => intro hwf hsf a r d a1 h; exact diffScalar_sound hwf hsf (fun x => rfl) h
  | hmap ms ih =>
    intro hwf hsf a r d a1 h
    obtain ⟨hnd, hall⟩ := (wellFormed_map_iff ms).1 hwf
    have hsfm := hsf
    rw [sentinelFree, sentinelFreeMembers_iff] at hsfm
    simp only [diff] at h
    split at h
    · simp only [Option.some.injEq, Prod.mk.injEq] at h
      obtain ⟨rfl, rfl, rfl⟩ := h
      exact diffSound_replaced hwf hsf
    · rename_i hcond
      obtain ⟨cm, rfl⟩ : ∃ cm, a = .map cm := by
        cases a <;> simp [isNull, getType] at hcond ⊢
      obtain ⟨eD, cm1, hD, hC, hndD, hDm, _, hout, hin⟩ :=
        diffMembers_spec ms fresh [] cm false r d a1 rfl (fun h => by cases h) hnd
          (by simp) h
      subst hC
      refine ⟨fun hr => ?_, fun hr => ⟨?_, ?_⟩⟩
      · rw [agrees, agreesMembers_iff]
        intro k v hkv
        rcases hin k v hkv with ⟨_, h2, _, _⟩ | ⟨c, r1, d1, c1, _, h3, h4, h5, _⟩
        · rw [hr] at h2; cases h2
        · cases r1 with
          | true => have := (h5 rfl).1; rw [hr] at this; cases this
          | false =>
            exact ⟨cm1, c1, rfl, h4, (ih k v hkv (hall k v hkv) (hsfm k v hkv) c _ _ _ h3).1 rfl⟩
      · intro m hm
        have hDe := hDm hr
        subst hDe
        simp only [merge] at hm
        obtain ⟨rm, hrm, hin2, hout2⟩ := mergeMembers_spec eD cm1 m hndD hm
        rw [agrees, agreesMembers_iff]
        intro k v hkv
        rcases hin k v hkv with ⟨_, _, h3, h4⟩ | ⟨c, r1, d1, c1, _, h3, h4, h5, h6⟩
        · obtain ⟨x, hx, hfx⟩ := hin2 k v (mem_of_find h3)
          exact ⟨rm, x, hrm, hfx, merge_agrees v (hall k v hkv) (hsfm k v hkv) _ _ hx⟩
        · cases r1 with
          | true =>
            obtain ⟨x, hx, hfx⟩ := hin2 k d1 (mem_of_find (h5 rfl).2)
            have hmo : memberOr k cm1 = c1 := by simp [memberOr, h4]
            rw [hmo] at hx
            exact ⟨rm, x, hrm, hfx,
              ((ih k v hkv (hall k v hkv) (hsfm k v hkv) c _ _ _ h3).2 rfl).1 x hx⟩
          | false =>
            have hnone : find k eD = none := by rw [h6 rfl]; rfl
            have hfx := hout2 k ((find_eq_none_iff k eD).1 hnone)
            rw [h4] at hfx
            exact ⟨rm, c1, hrm, hfx,
              (ih k v hkv (hall k v hkv) (hsfm k v hkv) c _ _ _ h3).1 rfl⟩
      · intro ha
        have hDe := hDm hr
        subst hDe
        rw [nullFree, nullFreeMembers_iff] at ha
        simp only [merge]
        apply mergeMembers_total eD cm1 hndD
        intro k dk hkd
        have hfk : find k eD = some dk := find_of_mem hndD hkd
        have hkin : k ∈ ms.map Prod.fst := by
          by_contra hk
          have := (hout k hk).1
          rw [hfk] at this
          cases this
        obtain ⟨⟨k1, v⟩, hkv, hk1⟩ := List.mem_map.1 hkin
        simp only at hk1
        subst hk1
        rcases hin k1 v hkv with ⟨_, _, h3, h4⟩ | ⟨c, r1, d1, c1, h2, h3, h4, h5, h6⟩
        · rw [hfk] at h3
          cases h3
          have hmo : memberOr k1 cm1 = fresh := by simp [memberOr, h4]
          rw [hmo]
          exact merge_total dk (hall k1 dk hkv) fresh nullFree_fresh
        · cases r1 with
          | true =>
            have := (h5 rfl).2
            rw [hfk] at this
            cases this
            have hmo : memberOr k1 cm1 = c1 := by simp [memberOr, h4]
            rw [hmo]
            exact ((ih k1 v hkv (hall k1 v hkv) (hsfm k1 v hkv) c _ _ _ h3).2 rfl).2
              (ha k1 c (mem_of_find h2))
          | false =>
            have := h6 rfl
            rw [hfk] at this
            cases this
  | harr es ih =>
    intro hwf hsf a r d a1 h
    have hall := (wellFormed_array_iff es).1 hwf
    have hsfm := hsf
    rw [sentinelFree, sentinelFreeElems_iff] at hsfm
    simp only [diff] at h
    split at h
    · simp only [Option.some.injEq, Prod.mk.injEq] at h
      obtain ⟨rfl, rfl, rfl⟩ := h
      exact diffSound_replaced hwf hsf
    · rename_i hcond
      obtain ⟨ca, rfl⟩ : ∃ ca, a = .array ca := by
        cases a <;> simp [isNull, getType] at hcond ⊢
      obtain ⟨eD, ca1, hD, hC, hl, hDa, _, hin, _⟩ :=
        diffElems_spec es fresh [] ca false r 0 d a1 rfl rfl (Nat.zero_le _) h
      subst hC
      simp only [Nat.zero_add] at hin hl
      have hsound : ∀ j (hj : j < es.length) (r1 : Bool) (d1 c1 : Config),
          diff fresh (ca.getD j fresh) (es.get ⟨j, hj⟩) = some (r1, d1, c1) →
          DiffSound (ca.getD j fresh) (es.get ⟨j, hj⟩) r1 d1 c1 := by
        intro j hj r1 d1 c1 hd
        have hmem : es.get ⟨j, hj⟩ ∈ es := List.get_mem es j hj
        exact ih _ hmem (hall _ hmem) (hsfm _ hmem) _ _ _ _ hd
      refine ⟨fun hr => ?_, fun hr => ?_⟩
      · rw [agrees, agreesElems_iff]
        intro j hj
        obtain ⟨r1, d1, c1, h1, h2, _, h4⟩ := hin j hj
        cases r1 with
        | true => have := h4 rfl; rw [hr] at this; cases this
        | false =>
          exact ⟨ca1, c1, rfl, by rw [Nat.zero_add]; exact h2, (hsound j hj _ _ _ h1).1 rfl⟩
      · have hne : es ≠ [] := by
          rintro rfl
          simp only [diffElems, Option.some.injEq, Prod.mk.injEq] at h
          rw [hr] at h
          exact absurd h.1 (by simp)
        have hDe := hDa (Or.inr hne)
        subst hDe
        have hmerge : ∀ j (hj : j < eD.length),
            ∃ (hj2 : j < es.length) (r1 : Bool) (d1 c1 : Config),
              diff fresh (ca.getD j fresh) (es.get ⟨j, hj2⟩) = some (r1, d1, c1) ∧
              ca1.getD j fresh = c1 ∧
              eD.get ⟨j, hj⟩ = (if r1 = true then d1 else .str DEFAULT_VALUE) := by
          intro j hj
          have hj2 : j < es.length := by omega
          obtain ⟨r1, d1, c1, h1, h2, h3, _⟩ := hin j hj2
          refine ⟨hj2, r1, d1, c1, h1, ?_, ?_⟩
          · rw [List.getD_eq_getElem?_getD, h2]; rfl
          · rw [List.get_eq_getElem]
            exact (List.getElem?_eq_some_iff.1 h3).2
        constructor
        · intro m hm
          simp only [merge] at hm
          obtain ⟨re, hre, _, hin2, _⟩ := mergeElems_spec eD ca1 0 m (Nat.zero_le _) hm
          rw [agrees, agreesElems_iff]
          intro j hj
          have hjD : j < eD.length := by omega
          obtain ⟨x, hx, hfx⟩ := hin2 j hjD
          obtain ⟨hj2, r1, d1, c1, h1, h2, h3⟩ := hmerge j hjD
          simp only [Nat.zero_add] at hx hfx
          rw [h2, h3] at hx
          refine ⟨re, x, hre, by rw [Nat.zero_add, ← List.get?_eq_getElem?]; exact hfx, ?_⟩
          cases r1 with
          | true =>
            simp only [if_true] at hx
            exact ((hsound j hj _ _ _ h1).2 rfl).1 x hx
          | false =>
            simp only [Bool.false_eq_true, if_false, merge, isDefaultValue, decide_True, if_true,
              Option.some.injEq] at hx
            subst hx
            exact (hsound j hj _ _ _ h1).1 rfl
        · intro ha
          simp only [merge]
          apply mergeElems_total eD ca1 0 (Nat.zero_le _)
          intro j hjD
          obtain ⟨hj2, r1, d1, c1, h1, h2, h3⟩ := hmerge j hjD
          rw [Nat.zero_add, h2, h3]
          cases r1 with
          | true =>
            simp only [if_true]
            exact ((hsound j hj2 _ _ _ h1).2 rfl).2 (nullFree_getD ha rfl j)
          | false =>
            exact ⟨c1, by simp [merge, isDefaultValue]⟩

end Config
end Monarch
namespace Monarch
namespace Config

/-! ## `diff` into a non-null target completes -/

theorem diffMembers_total (rest : List (String × Config)) :
    ∀ (T : Config) (cm : List (String × Config)) (rv : Bool), T ≠ .null →
      (∀ k v, (k, v) ∈ rest → ∀ c, ∃ res, diff fresh c v = some res) →
      ∃ res, diffMembers T (.map cm) rv rest = some res := by
  induction rest with
  | nil => intro T cm rv _ _; exact ⟨_, rfl⟩
  | cons hd tl ih =>
    obtain ⟨k0, v0⟩ := hd
    intro T cm rv hT h
    obtain ⟨eT, heT⟩ := setTypeMap_isSome hT
    have htl : ∀ k v, (k, v) ∈ tl → ∀ c, ∃ res, diff fresh c v = some res :=
      fun k v hkv => h k v (List.mem_cons_of_mem _ hkv)
    have hcm : setTypeMap (.map cm) = some cm := rfl
    simp only [diffMembers, hcm, heT]
    split
    · exact ih _ cm true (by simp) htl
    · obtain ⟨res, hres⟩ := h k0 v0 (List.mem_cons_self _ _) (memberOr k0 cm)
      obtain ⟨r1, d1, c1⟩ := res
      rw [hres]
      cases r1 with
      | true => exact ih _ _ true (by simp) htl
      | false => exact ih T _ rv hT htl

theorem diffElems_total (rest : List Config) :
    ∀ (T : Config) (ca : List Config) (rv : Bool) (ii : Nat), T ≠ .null →
      (∀ v, v ∈ rest → ∀ c, ∃ res, diff fresh c v = some res) →
      ∃ res, diffElems T (.array ca) rv ii rest = some res := by
  induction rest with
  | nil => intro T ca rv ii _ _; exact ⟨_, rfl⟩
  | cons v0 tl ih =>
    intro T ca rv ii hT h
    obtain ⟨eT, heT⟩ := setTypeArray_isSome hT
    have hca : setTypeArray (.array ca) = some ca := rfl
    obtain ⟨res, hres⟩ := h v0 (List.mem_cons_self _ _) ((fill ii ca).getD ii fresh)
    obtain ⟨r1, d1, c1⟩ := res
    simp only [diffElems, hca, hres, heT]
    exact ih _ _ _ _ (by simp) (fun v hv => h v (List.mem_cons_of_mem _ hv))

theorem diff_total : ∀ (b t a : Config), t ≠ .null → ∃ res, diff t a b = some res := by
  intro b
  induction b using Config.induct with
  | hnull => intro t a _; simp only [diff]; split <;> exact ⟨_, rfl⟩
  | hstr s => intro t a _; simp only [diff, diffScalar]; split_ifs <;> exact ⟨_, rfl⟩
  | hbool s => intro t a _; simp only [diff, diffScalar]; split_ifs <;> exact ⟨_, rfl⟩
  | hi32 s => intro t a _; simp only [diff, diffScalar]; split_ifs <;> exact ⟨_, rfl⟩
  | hu32 s => intro t a _; simp only [diff, diffScalar]; split_ifs <;> exact ⟨_, rfl⟩
  | hi64 s => intro t a _; simp only [diff, diffScalar]; split_ifs <;> exact ⟨_, rfl⟩
  | hu64 s => intro t a _; simp only [diff, diffScalar]; split_ifs <;> exact ⟨_, rfl⟩
  | hdbl s => intro t a _; simp only [diff, diffScalar]; split_ifs <;> exact ⟨_, rfl⟩
  | hmap ms ih =>
    intro t a ht
    simp only [diff]
    split
    · exact ⟨_, rfl⟩
    · rename_i hcond
      obtain ⟨cm, rfl⟩ : ∃ cm, a = .map cm := by
        cases a <;> simp [isNull, getType] at hcond ⊢
      exact diffMembers_total ms t cm false ht
        (fun k v hkv c => ih k v hkv fresh c (by simp [fresh]))
  | harr es ih =>
    intro t a ht
    simp only [diff]
    split
    · exact ⟨_, rfl⟩
    · rename_i hcond
      obtain ⟨ca, rfl⟩ : ∃ ca, a = .array ca := by
        cases a <;> simp [isNull, getType] at hcond ⊢
      exact diffElems_total es t ca false 0 ht
        (fun v hv c => ih v hv fresh c (by simp [fresh]))

end Config

open Config ConfigManager

/-- C1, as the code has it: let `b` be well formed and hold no `"__default__"`
string, and let `diff` compute the diff from `a` to `b` into a
default-constructed `d`.  If `diff` reports a difference and merging `d` into
`a` completes, the merged config equals `b` at every key and array index
present in `b`; if `diff` reports none, `a` as it stands does.  The merge
completes whenever `a` holds no null. -/
theorem diff_then_merge_agrees (a b : Config) (hb : wellFormed b = true)
    (hs : sentinelFree b = true) :
    (∀ m, roundTrip a b = some m → agrees m b = true) ∧
    (nullFree a = true → ∃ m, roundTrip a b = some m) := by
  obtain ⟨res, hres⟩ := diff_total b fresh a (by simp [fresh])
  obtain ⟨r, d, a1⟩ := res
  have hsound := diff_sound b hb hs a r d a1 hres
  unfold DiffSound at hsound
  unfold roundTrip
  rw [hres]
  cases r with
  | true =>
    obtain ⟨h1, h2⟩ := hsound.2 rfl
    exact ⟨fun m hm => h1 m hm, fun ha => h2 ha⟩
  | false =>
    have h0 := hsound.1 rfl
    refine ⟨fun m hm => ?_, fun _ => ⟨a1, rfl⟩⟩
    simp only [Option.some.injEq] at hm
    subst hm
    exact h0

/-- Witness of the amended C1 from `{"xs":[1,2,3]}` to
`{"xs":[1,22,3],"y":{"z":true}}`. -/
theorem diff_then_merge_agrees_witness :
    wellFormed (.map [("xs", .array [.int32 1, .int32 22, .int32 3]),
      ("y", .map [("z", .bool true)])]) = true ∧
    sentinelFree (.map [("xs", .array [.int32 1, .int32 22, .int32 3]),
      ("y", .map [("z", .bool true)])]) = true ∧
    nullFree s2Base = true ∧
    roundTrip s2Base (.map [("xs", .array [.int32 1, .int32 22, .int32 3]),
        ("y", .map [("z", .bool true)])])
      = some (.map [("xs", .array [.int32 1, .int32 22, .int32 3]),
        ("y", .map [("z", .bool true)])]) ∧
    ((∀ m, roundTrip s2Base (.map [("xs", .array [.int32 1, .int32 22, .int32 3]),
        ("y", .map [("z", .bool true)])]) = some m →
      agrees m (.map [("xs", .array [.int32 1, .int32 22, .int32 3]),
        ("y", .map [("z", .bool true)])]) = true) ∧
    (nullFree s2Base = true →
      ∃ m, roundTrip s2Base (.map [("xs", .array [.int32 1, .int32 22, .int32 3]),
        ("y", .map [("z", .bool true)])]) = some m)) :=
  ⟨by rfl, by rfl, by rfl, by rfl,
    diff_then_merge_agrees s2Base
      (.map [("xs", .array [.int32 1, .int32 22, .int32 3]), ("y", .map [("z", .bool true)])])
      (by rfl) (by rfl)⟩

/-- C1 fails as stated.  From `{"k":"x"}` to `{"k":"__default__"}` the diff is
`{"k":"__default__"}`, and merging it leaves `"x"` under `k`.  From `{"k":null}`
to `{"k":{"x":1}}` the diff is `{"k":{"x":1}}`, and merging it calls
`operator[]` through the null under `k`: the merge does not complete.  From
`{"a":1,"b":2}` to itself `diff` reports no difference and leaves `d`
default-constructed, and merging that `d` replaces the config by the empty
string. -/
theorem diff_then_merge_counterexample :
    (diff fresh (.map [("k", .str "x")]) (.map [("k", .str DEFAULT_VALUE)])
        = some (true, .map [("k", .str DEFAULT_VALUE)], .map [("k", .str "x")]) ∧
      merge (.map [("k", .str "x")]) (.map [("k", .str DEFAULT_VALUE)])
        = some (.map [("k", .str "x")]) ∧
      agrees (.map [("k", .str "x")]) (.map [("k", .str DEFAULT_VALUE)]) = false) ∧
    (diff fresh (.map [("k", .null)]) (.map [("k", .map [("x", .int32 1)])])
        = some (true, .map [("k", .map [("x", .int32 1)])], .map [("k", .null)]) ∧
      merge (.map [("k", .null)]) (.map [("k", .map [("x", .int32 1)])]) = none) ∧
    (diff fresh s1Default s1Default = some (false, fresh, s1Default) ∧
      merge s1Default fresh = some (.str "") ∧
      agrees (.str "") s1Default = false) :=
  ⟨⟨by rfl, by rfl, by rfl⟩, ⟨by rfl, by rfl⟩, ⟨by rfl, by rfl, by rfl⟩⟩

end Monarch
namespace Monarch
namespace Config

/-! ## What `diff` writes for maps and arrays -/

theorem find_all_none {ms : List (String × Config)} (h : ∀ k, find k ms = none) : ms = [] := by
  cases ms with
  | nil => rfl
  | cons hd tl =>
    obtain ⟨k0, v0⟩ := hd
    have := h k0
    simp [find] at this

theorem diffMembers_flag (rest : List (String × Config)) :
    ∀ (T : Config) (eT cm : List (String × Config)) (rv r : Bool) (D C1 : Config)
      (eD : List (String × Config)),
      setTypeMap T = some eT → (rv = true → T = .map eT) →
      (rest.map Prod.fst).Nodup → (eT.map Prod.fst).Nodup →
      diffMembers T (.map cm) rv rest = some (r, D, C1) → setTypeMap D = some eD →
      r = true → rv = true ∨ ∃ k, k ∈ rest.map Prod.fst ∧ (find k eD).isSome = true := by
  induction rest with
  | nil =>
    intro T eT cm rv r D C1 eD _ _ _ _ h _ hr
    simp only [diffMembers, Option.some.injEq, Prod.mk.injEq] at h
    exact Or.inl (by rw [h.1]; exact hr)
  | cons hd tl ih =>
    obtain ⟨k0, v0⟩ := hd
    intro T eT cm rv r D C1 eD hT hrv hnd hndT h hD hr
    have hnd2 := hnd
    simp only [List.map_cons, List.nodup_cons] at hnd2
    have hcm : setTypeMap (.map cm) = some cm := rfl
    have key : ∀ (d : Config) (cmx : List (String × Config)),
        diffMembers (.map (put k0 d eT)) (.map cmx) true tl = some (r, D, C1) →
        ∃ k, k ∈ (k0 :: tl.map Prod.fst) ∧ (find k eD).isSome = true := by
      intro d cmx h2
      obtain ⟨eD2, _, hD2, _, _, _, _, hout, _⟩ :=
        diffMembers_spec tl (.map (put k0 d eT)) (put k0 d eT) cmx true r D C1 rfl (fun _ => rfl)
          hnd2.2 (nodup_put k0 d hndT) h2
      rw [hD] at hD2
      cases hD2
      refine ⟨k0, List.mem_cons_self _ _, ?_⟩
      rw [(hout k0 hnd2.1).1, find_put_self]
      rfl
    cases hf : find k0 cm with
    | none =>
      simp only [diffMembers, hasMember, hf, Option.isSome_none, Bool.not_false, if_true, hT] at h
      exact Or.inr (by simpa using key v0 cm h)
    | some c =>
      have hm : memberOr k0 cm = c := by simp [memberOr, hf]
      simp only [diffMembers, hasMember, hf, Option.isSome_some, Bool.not_true,
        Bool.false_eq_true, if_false, hcm, hm] at h
      cases hd : diff fresh c v0 with
      | none => rw [hd] at h; cases h
      | some res =>
        obtain ⟨r1, d1, c1⟩ := res
        rw [hd] at h
        cases r1 with
        | true =>
          simp only [hT] at h
          exact Or.inr (by simpa using key d1 _ h)
        | false =>
          simp only at h
          rcases ih T eT _ rv r D C1 eD hT hrv hnd2.2 hndT h hD hr with h1 | ⟨k, hk, hk2⟩
          · exact Or.inl h1
          · exact Or.inr ⟨k, List.mem_cons_of_mem _ hk, hk2⟩

theorem diffElems_flag (rest : List Config) :
    ∀ (T : Config) (ca : List Config) (rv r : Bool) (ii : Nat) (D C1 : Config),
      ii ≤ ca.length →
      diffElems T (.array ca) rv ii rest = some (r, D, C1) → r = true →
      rv = true ∨ ∃ j, ∃ hj : j < rest.length, ∃ d1 c1,
        diff fresh (ca.getD (ii + j) fresh) (rest.get ⟨j, hj⟩) = some (true, d1, c1) := by
  induction rest with
  | nil =>
    intro T ca rv r ii D C1 _ h hr
    simp only [diffElems, Option.some.injEq, Prod.mk.injEq] at h
    exact Or.inl (by rw [h.1]; exact hr)
  | cons v0 tl ih =>
    intro T ca rv r ii D C1 hii h hr
    have hca : setTypeArray (.array ca) = some ca := rfl
    simp only [diffElems, hca, fill_getD] at h
    cases hd : diff fresh (ca.getD ii fresh) v0 with
    | none => rw [hd] at h; cases h
    | some res =>
      obtain ⟨found, d, slot⟩ := res
      rw [hd] at h
      cases hT : setTypeArray T with
      | none => rw [hT] at h; cases h
      | some eT =>
        rw [hT] at h
        simp only at h
        cases found with
        | true => exact Or.inr ⟨0, by simp, d, slot, by simpa using hd⟩
        | false =>
          rcases ih _ _ _ r (ii + 1) D C1 (by rw [fill_set_length]; omega) h hr with h1 | h1
          · exact Or.inl (by simpa using h1)
          · obtain ⟨j, hj, d1, c1, h2⟩ := h1
            have e1 : ((fill ii ca).set ii slot).getD (ii + 1 + j) fresh
                = ca.getD (ii + (j + 1)) fresh := by
              rw [List.getD_eq_getElem?_getD, List.getD_eq_getElem?_getD,
                fill_set_getElem?_ne ca slot hii (by omega)]
              congr 2; omega
            rw [e1] at h2
            exact Or.inr ⟨j + 1, by simpa using hj, d1, c1, by simpa using h2⟩

end Config

open Config ConfigManager

/-- C11: on the null and type-change cases, whatever the target holds: for two
nulls `diff` reports no difference and leaves the target as it was; for a
non-null `a` and a null `b` it reports a difference and the target becomes null;
for a null `a` and a non-null `b`, and for non-null `a` and `b` of different
types, it reports a difference and the target becomes a copy of `b`. -/
theorem diff_null_and_type_change (t : Config) :
    diff t .null .null = some (false, t, .null) ∧
    (∀ a : Config, a ≠ .null → diff t a .null = some (true, .null, a)) ∧
    (∀ b : Config, b ≠ .null → diff t .null b = some (true, b, .null)) ∧
    (∀ a b : Config, a ≠ .null → b ≠ .null → a.getType ≠ b.getType →
      diff t a b = some (true, b, a)) := by
  refine ⟨by simp [diff, isNull], ?_, ?_, ?_⟩
  · intro a ha
    cases a <;> simp [diff, isNull] at ha ⊢
  · intro b hb
    cases b <;> simp [diff, diffScalar, isNull] at hb ⊢
  · intro a b ha hb hty
    cases b <;> cases a <;> simp [diff, diffScalar, isNull, getType] at ha hb hty ⊢

/-- Witness of C11 on `{"a":1,"b":2}`, null, and the string `"x"`. -/
theorem diff_null_and_type_change_witness :
    s1Default ≠ Config.null ∧ Config.str "x" ≠ Config.null ∧
    s1Default.getType ≠ (Config.str "x").getType ∧
    diff fresh s1Default .null = some (true, .null, s1Default) ∧
    diff fresh .null s1Default = some (true, s1Default, .null) ∧
    diff fresh s1Default (.str "x") = some (true, .str "x", s1Default) :=
  ⟨by simp [s1Default], by simp, by simp [s1Default, getType],
    (diff_null_and_type_change fresh).2.1 s1Default (by simp [s1Default]),
    (diff_null_and_type_change fresh).2.2.1 s1Default (by simp [s1Default]),
    (diff_null_and_type_change fresh).2.2.2 s1Default (.str "x") (by simp [s1Default]) (by simp)
      (by simp [s1Default, getType])⟩

/-- C12: for Map configs `a` and `b` (the keys of `b` distinct), `diff` into a
default-constructed target completes, and the target then has exactly the keys
`k` of `b` that `a` lacks or at which `diff(a[k], b[k])` reports a difference,
holding `b[k]` for the former and the sub-diff for the latter; a key that only
`a` has is no key of the target; and `diff` returns true iff the target has a
key. -/
theorem diff_map_keys (cm ms : List (String × Config)) (hkeys : (ms.map Prod.fst).Nodup) :
    ∃ r d a1, diff fresh (.map cm) (.map ms) = some (r, d, a1) ∧
      (∀ k, hasMember k d = true ↔
        ∃ v, find k ms = some v ∧
          (find k cm = none ∨
            ∃ c d1 c1, find k cm = some c ∧ diff fresh c v = some (true, d1, c1))) ∧
      (∀ k v, find k ms = some v → find k cm = none → getPath d [.key k] = some v) ∧
      (∀ k v c d1 c1, find k ms = some v → find k cm = some c →
        diff fresh c v = some (true, d1, c1) → getPath d [.key k] = some d1) ∧
      (∀ k, find k ms = none → hasMember k d = false) ∧
      (r = true ↔ ∃ k, hasMember k d = true) := by
  obtain ⟨res, hres⟩ := diff_total (.map ms) fresh (.map cm) (by simp [fresh])
  obtain ⟨r, d, a1⟩ := res
  refine ⟨r, d, a1, hres, ?_⟩
  simp only [diff, isNull, getType, ne_eq, not_true_eq_false, decide_False, Bool.or_self,
    Bool.false_eq_true, if_false] at hres
  obtain ⟨eD, cm1, hD, hC, hndD, hDm, _, hout, hin⟩ :=
    diffMembers_spec ms fresh [] cm false r d a1 rfl (fun h => by cases h) hkeys (by simp) hres
  have hflag := diffMembers_flag ms fresh [] cm false r d a1 eD rfl (fun h => by cases h) hkeys
    (by simp) hres hD
  -- the target is a map exactly when a difference was found
  have hmem : ∀ k, hasMember k d = (find k eD).isSome := by
    intro k
    cases r with
    | true => rw [hDm rfl]; rfl
    | false =>
      have hnone : ∀ k, find k eD = none := by
        intro k
        by_cases hk : k ∈ ms.map Prod.fst
        · obtain ⟨⟨k1, v⟩, hkv, hk1⟩ := List.mem_map.1 hk
          simp only at hk1
          subst hk1
          rcases hin k1 v hkv with ⟨_, h2, _, _⟩ | ⟨c, r1, d1, c1, _, _, _, h5, h6⟩
          · cases h2
          · cases r1 with
            | true => exact absurd (h5 rfl).1 (by simp)
            | false => rw [h6 rfl]; rfl
        · rw [(hout k hk).1]; rfl
      have heD := find_all_none hnone
      subst heD
      cases d <;> simp [setTypeMap] at hD <;> simp [hasMember, find]
      subst hD
      simp [find]
  have hfound : ∀ k, (find k eD).isSome = true → r = true := by
    intro k hk
    by_cases hkm : k ∈ ms.map Prod.fst
    · obtain ⟨⟨k1, v⟩, hkv, hk1⟩ := List.mem_map.1 hkm
      simp only at hk1
      subst hk1
      rcases hin k1 v hkv with ⟨_, h2, _, _⟩ | ⟨c, r1, d1, c1, _, _, _, h5, h6⟩
      · exact h2
      · cases r1 with
        | true => exact (h5 rfl).1
        | false => rw [h6 rfl] at hk; cases hk
    · rw [(hout k hkm).1] at hk; cases hk
  have hpath : ∀ k x, find k eD = some x → getPath d [.key k] = some x := by
    intro k x hx
    rw [hDm (hfound k (by rw [hx]; rfl))]
    simp [getPath, hx]
  refine ⟨?_, ?_, ?_, ?_, ?_⟩
  · intro k
    rw [hmem k]
    constructor
    · intro hk
      by_cases hkm : k ∈ ms.map Prod.fst
      · obtain ⟨⟨k1, v⟩, hkv, hk1⟩ := List.mem_map.1 hkm
        simp only at hk1
        subst hk1
        refine ⟨v, find_of_mem hkeys hkv, ?_⟩
        rcases hin k1 v hkv with ⟨h1, _, _, _⟩ | ⟨c, r1, d1, c1, h2, h3, _, _, h6⟩
        · exact Or.inl h1
        · cases r1 with
          | true => exact Or.inr ⟨c, d1, c1, h2, h3⟩
          | false => rw [h6 rfl] at hk; cases hk
      · rw [(hout k hkm).1] at hk; cases hk
    · rintro ⟨v, hv, hc⟩
      rcases hin k v (mem_of_find hv) with ⟨_, _, h3, _⟩ | ⟨c, r1, d1, c1, h2, h3, _, h5, _⟩
      · rw [h3]; rfl
      · rcases hc with hc | ⟨c2, d2, c3, hc2, hd2⟩
        · rw [hc] at h2; cases h2
        · rw [h2] at hc2
          cases hc2
          rw [h3] at hd2
          cases hd2
          rw [(h5 rfl).2]; rfl
  · intro k v hv hc
    rcases hin k v (mem_of_find hv) with ⟨_, _, h3, _⟩ | ⟨c, r1, d1, c1, h2, _, _, _, _⟩
    · exact hpath k v h3
    · rw [hc] at h2; cases h2
  · intro k v c d1 c1 hv hc hd
    rcases hin k v (mem_of_find hv) with ⟨h1, _, _, _⟩ | ⟨c2, r1, d2, c3, h2, h3, _, h5, _⟩
    · rw [hc] at h1; cases h1
    · rw [hc] at h2
      cases h2
      rw [hd] at h3
      cases h3
      exact hpath k d1 (h5 rfl).2
  · intro k hk
    rw [hmem k, (hout k ((find_eq_none_iff k ms).1 hk)).1]
    rfl
  · constructor
    · intro hr
      rcases hflag hr with h1 | ⟨k, _, hk⟩
      · cases h1
      · exact ⟨k, by rw [hmem k]; exact hk⟩
    · rintro ⟨k, hk⟩
      rw [hmem k] at hk
      exact hfound k hk

end Monarch
namespace Monarch

open Config ConfigManager

/-- Witness of C12 on the diff from `{"a":1,"b":2}` to `{"b":20,"c":30}`. -/
theorem diff_map_keys_witness :
    (([("b", Config.int32 20), ("c", Config.int32 30)] : List (String × Config)).map
      Prod.fst).Nodup ∧
    diff fresh s1Default s1User = some (true, s1User, s1Default) ∧
    ∃ r d a1,
      diff fresh (.map [("a", .int32 1), ("b", .int32 2)])
        (.map [("b", .int32 20), ("c", .int32 30)]) = some (r, d, a1) ∧
      (∀ k, hasMember k d = true ↔
        ∃ v, find k [("b", Config.int32 20), ("c", Config.int32 30)] = some v ∧
          (find k [("a", Config.int32 1), ("b", Config.int32 2)] = none ∨
            ∃ c d1 c1, find k [("a", Config.int32 1), ("b", Config.int32 2)] = some c ∧
              diff fresh c v = some (true, d1, c1))) ∧
      (∀ k v, find k [("b", Config.int32 20), ("c", Config.int32 30)] = some v →
        find k [("a", Config.int32 1), ("b", Config.int32 2)] = none →
        getPath d [.key k] = some v) ∧
      (∀ k v c d1 c1, find k [("b", Config.int32 20), ("c", Config.int32 30)] = some v →
        find k [("a", Config.int32 1), ("b", Config.int32 2)] = some c →
        diff fresh c v = some (true, d1, c1) → getPath d [.key k] = some d1) ∧
      (∀ k, find k [("b", Config.int32 20), ("c", Config.int32 30)] = none →
        hasMember k d = false) ∧
      (r = true ↔ ∃ k, hasMember k d = true) :=
  ⟨by decide, by rfl,
    diff_map_keys [("a", .int32 1), ("b", .int32 2)] [("b", .int32 20), ("c", .int32 30)]
      (by decide)⟩

/-- C13: for Array configs `a` and `b`, `diff` into a default-constructed
target completes and what it writes has exactly the length of `b` (the target
is that array as soon as `b` has an element): position `i` holds the sub-diff
when `diff(a[i], b[i])` reports a difference and the string `"__default__"`
when it reports none; and `diff` returns true iff `diff(a[i], b[i])` reports a
difference at some index `i` of `b`. -/
theorem diff_array_positions (ca es : List Config) :
    ∃ r d a1 eD, diff fresh (.array ca) (.array es) = some (r, d, a1) ∧
      setTypeArray d = some eD ∧ eD.length = es.length ∧ (es ≠ [] → d = .array eD) ∧
      (∀ i (hi : i < es.length), ∃ r1 d1 c1,
        diff fresh (ca.getD i fresh) (es.get ⟨i, hi⟩) = some (r1, d1, c1) ∧
        eD[i]? = some (if r1 = true then d1 else .str DEFAULT_VALUE)) ∧
      (r = true ↔ ∃ i, ∃ hi : i < es.length, ∃ d1 c1,
        diff fresh (ca.getD i fresh) (es.get ⟨i, hi⟩) = some (true, d1, c1)) := by
  obtain ⟨res, hres⟩ := diff_total (.array es) fresh (.array ca) (by simp [fresh])
  obtain ⟨r, d, a1⟩ := res
  have hres2 := hres
  simp only [diff, isNull, getType, ne_eq, not_true_eq_false, decide_False, Bool.or_self,
    Bool.false_eq_true, if_false] at hres2
  obtain ⟨eD, ca1, hD, _, hl, hDa, _, hin, _⟩ :=
    diffElems_spec es fresh [] ca false r 0 d a1 rfl rfl (Nat.zero_le _) hres2
  have hflag := diffElems_flag es fresh ca false r 0 d a1 (Nat.zero_le _) hres2
  simp only [Nat.zero_add] at hin hl hflag
  refine ⟨r, d, a1, eD, hres, hD, hl, fun h => hDa (Or.inr h), ?_, ?_⟩
  · intro i hi
    obtain ⟨r1, d1, c1, h1, _, h3, _⟩ := hin i hi
    exact ⟨r1, d1, c1, h1, h3⟩
  · constructor
    · intro hr
      rcases hflag hr with h1 | h1
      · cases h1
      · exact h1
    · rintro ⟨i, hi, d1, c1, hd⟩
      obtain ⟨r1, d2, c2, h1, _, _, h4⟩ := hin i hi
      rw [hd] at h1
      cases h1
      exact h4 rfl

/-- Witness of C13 on the diff from `[1,2,3]` to `[1,22,3]`, which is
`["__default__",22,"__default__"]`. -/
theorem diff_array_positions_witness :
    diff fresh (.array [.int32 1, .int32 2, .int32 3]) (.array [.int32 1, .int32 22, .int32 3])
      = some (true, .array [.str DEFAULT_VALUE, .int32 22, .str DEFAULT_VALUE],
          .array [.int32 1, .int32 2, .int32 3]) ∧
    ∃ r d a1 eD,
      diff fresh (.array [.int32 1, .int32 2, .int32 3])
        (.array [.int32 1, .int32 22, .int32 3]) = some (r, d, a1) ∧
      setTypeArray d = some eD ∧
      eD.length = [Config.int32 1, Config.int32 22, Config.int32 3].length ∧
      ([Config.int32 1, Config.int32 22, Config.int32 3] ≠ [] → d = .array eD) ∧
      (∀ i (hi : i < [Config.int32 1, Config.int32 22, Config.int32 3].length), ∃ r1 d1 c1,
        diff fresh ([Config.int32 1, Config.int32 2, Config.int32 3].getD i fresh)
          ([Config.int32 1, Config.int32 22, Config.int32 3].get ⟨i, hi⟩) = some (r1, d1, c1) ∧
        eD[i]? = some (if r1 = true then d1 else .str DEFAULT_VALUE)) ∧
      (r = true ↔ ∃ i, ∃ hi : i < [Config.int32 1, Config.int32 22, Config.int32 3].length,
        ∃ d1 c1,
          diff fresh ([Config.int32 1, Config.int32 2, Config.int32 3].getD i fresh)
            ([Config.int32 1, Config.int32 22, Config.int32 3].get ⟨i, hi⟩)
            = some (true, d1, c1)) :=
  ⟨by rfl,
    diff_array_positions [.int32 1, .int32 2, .int32 3] [.int32 1, .int32 22, .int32 3]⟩

end Monarch
namespace Monarch
namespace Config

/-! ## Validation against a schema -/

theorem isValidMembers_iff (cm : List (String × Config)) (sm : List (String × Config)) :
    isValidMembers (.map cm) sm = true ↔
      ∀ k s, (k, s) ∈ sm → ∃ v, find k cm = some v ∧ isValidConfig v s = true := by
  induction sm with
  | nil => simp [isValidMembers]
  | cons hd tl ih =>
    obtain ⟨k0, s0⟩ := hd
    simp only [isValidMembers, hasMember, setTypeMap, List.mem_cons, Prod.mk.injEq]
    cases hf : find k0 cm with
    | none =>
      simp only [Option.isSome_none, Bool.not_false, if_true, Bool.false_eq_true, false_iff]
      intro h
      obtain ⟨v, hv, _⟩ := h k0 s0 (Or.inl ⟨rfl, rfl⟩)
      rw [hf] at hv
      cases hv
    | some v0 =>
      have hm : memberOr k0 cm = v0 := by simp [memberOr, hf]
      simp only [Option.isSome_some, Bool.not_true, Bool.false_eq_true, if_false, hm,
        Bool.and_eq_true, ih]
      constructor
      · rintro ⟨h0, h1⟩ k s (⟨rfl, rfl⟩ | h)
        · exact ⟨v0, hf, h0⟩
        · exact h1 k s h
      · intro h
        refine ⟨?_, fun k s hks => h k s (Or.inr hks)⟩
        obtain ⟨v, hv, hvalid⟩ := h k0 s0 (Or.inl ⟨rfl, rfl⟩)
        rw [hf] at hv
        cases hv
        exact hvalid

theorem isValidConfig_map_iff (c : Config) (sm : List (String × Config)) :
    isValidConfig c (.map sm) = true ↔
      ∃ cm, c = .map cm ∧
        ∀ k s, (k, s) ∈ sm → ∃ v, find k cm = some v ∧ isValidConfig v s = true := by
  cases c with
  | map cm =>
    simp only [isValidConfig, isValidMembers_iff]
    constructor
    · intro h; exact ⟨cm, rfl, h⟩
    · rintro ⟨cm2, h1, h2⟩
      cases h1
      exact h2
  | _ => simp [isValidConfig]

end Config

open Config ConfigManager

/-- C14: for a Map schema and any config `c`, `isValidConfig(c, schema)` is
true iff `c` is a Map that has every key of the schema, with a value valid
against the schema's value under that key; two Map configs that hold the same
under every key of the schema get the same result, whatever other keys they
have. -/
theorem isValidConfig_map_schema :
    (∀ (c : Config) (sm : List (String × Config)),
      isValidConfig c (.map sm) = true ↔
        ∃ cm, c = .map cm ∧
          ∀ k s, (k, s) ∈ sm → ∃ v, find k cm = some v ∧ isValidConfig v s = true) ∧
    (∀ (cm cm2 sm : List (String × Config)),
      (∀ k s, (k, s) ∈ sm → find k cm = find k cm2) →
      isValidConfig (.map cm) (.map sm) = isValidConfig (.map cm2) (.map sm)) := by
  refine ⟨isValidConfig_map_iff, ?_⟩
  intro cm cm2 sm h
  have h1 := isValidMembers_iff cm sm
  have h2 := isValidMembers_iff cm2 sm
  have hiff : isValidMembers (.map cm) sm = true ↔ isValidMembers (.map cm2) sm = true := by
    rw [h1, h2]
    constructor
    · intro hv k s hks
      rw [← h k s hks]
      exact hv k s hks
    · intro hv k s hks
      rw [h k s hks]
      exact hv k s hks
  simp only [isValidConfig]
  cases ha : isValidMembers (.map cm) sm <;> cases hb : isValidMembers (.map cm2) sm <;>
    simp_all

/-- Witness of C14: `{"a":1,"b":2}` and `{"a":1}` against the schema
`{"a":0}`. -/
theorem isValidConfig_map_schema_witness :
    (∀ k s, (k, s) ∈ [("a", Config.int32 0)] →
      find k [("a", Config.int32 1), ("b", Config.int32 2)] = find k [("a", Config.int32 1)]) ∧
    isValidConfig s1Default (.map [("a", .int32 0)]) = true ∧
    isValidConfig (.map [("a", .int32 1), ("b", .int32 2)]) (.map [("a", .int32 0)])
      = isValidConfig (.map [("a", .int32 1)]) (.map [("a", .int32 0)]) :=
  ⟨by simp [find], by rfl,
    isValidConfig_map_schema.2 [("a", .int32 1), ("b", .int32 2)] [("a", .int32 1)]
      [("a", .int32 0)] (by simp [find])⟩

/-- C15: for an Array schema: of length 0, every Array config is valid; of
length 1, an Array config is valid iff each of its elements is valid against
`schema[0]`; of length greater than 1, `isValidConfig` is false for every
config. -/
theorem isValidConfig_array_schema :
    (∀ ce : List Config, isValidConfig (.array ce) (.array []) = true) ∧
    (∀ (ce : List Config) (s0 : Config),
      isValidConfig (.array ce) (.array [s0]) = true ↔
        ∀ e, e ∈ ce → isValidConfig e s0 = true) ∧
    (∀ (c s0 s1 : Config) (tl : List Config),
      isValidConfig c (.array (s0 :: s1 :: tl)) = false) := by
  refine ⟨?_, ?_, ?_⟩
  · intro ce; simp [isValidConfig, isValidElements]
  · intro ce s0; simp [isValidConfig, isValidElements]
  · intro c s0 s1 tl
    cases c <;> simp [isValidConfig, isValidElements]

/-- Witness of C15: `[1,2]` against the template schema `[0]`. -/
theorem isValidConfig_array_schema_witness :
    (∀ e, e ∈ [Config.int32 1, Config.int32 2] → isValidConfig e (.int32 0) = true) ∧
    isValidConfig (.array [.int32 1, .int32 2]) (.array [.int32 0]) = true :=
  ⟨(isValidConfig_array_schema.2.1 [.int32 1, .int32 2] (.int32 0)).1 (by rfl),
    by rfl⟩

end Monarch
namespace Monarch
namespace ConfigManager
open Config

/-! ## Config ids -/

theorem update_mConfigs {cm cm1 : ConfigManager} (h : update cm = some cm1) :
    cm1.mConfigs = cm.mConfigs := by
  unfold update at h
  cases hc : Config.clear cm.mConfig with
  | none => rw [hc] at h; cases h
  | some c =>
    rw [hc] at h
    simp only at h
    cases hm : makeMergedConfig c .All cm.mConfigs with
    | none => rw [hm] at h; cases h
    | some m =>
      rw [hm] at h
      simp only [Option.some.injEq] at h
      subst h
      rfl

theorem addConfig_spec {cm cm1 : ConfigManager} {c : Config} {ty : ConfigType} {rv : Bool}
    {id : Nat} (h : addConfig cm c ty = some (cm1, rv, id)) :
    cm1.mConfigs = cm.mConfigs ++ [(c, ty)] ∧ rv = true ∧ id = cm.mConfigs.length := by
  unfold addConfig at h
  split at h
  · cases h
  · rename_i cm2 hu
    simp only [Option.some.injEq, Prod.mk.injEq] at h
    obtain ⟨rfl, rfl, rfl⟩ := h
    have := update_mConfigs hu
    simp only at this
    refine ⟨this, rfl, ?_⟩
    rw [this]
    simp

theorem removeConfig_spec {cm cm1 : ConfigManager} {id : Nat}
    (h : removeConfig cm id = some (cm1, true)) :
    id < cm.mConfigs.length ∧ cm1.mConfigs = cm.mConfigs.set id (.null, .None) := by
  unfold removeConfig at h
  split at h
  · rename_i hlt
    split at h
    · cases h
    · rename_i cm2 hu
      simp only [Option.some.injEq, Prod.mk.injEq, and_true] at h
      subst h
      exact ⟨hlt, update_mConfigs hu⟩
  · simp at h

theorem stepOp_length {cm cm1 : ConfigManager} {op : Op} {id : Option Nat}
    (hnc : op.isClear = false) (h : stepOp cm op = some (cm1, id)) :
    cm.mConfigs.length ≤ cm1.mConfigs.length ∧
      ∀ i, id = some i → cm.mConfigs.length ≤ i ∧ i < cm1.mConfigs.length := by
  cases op with
  | add c ty =>
    simp only [stepOp, Option.map_eq_some', Prod.mk.injEq] at h
    obtain ⟨⟨cm2, rv, i0⟩, hr, rfl, rfl⟩ := h
    obtain ⟨h1, _, h3⟩ := addConfig_spec hr
    simp only [h1, List.length_append, List.length_singleton]
    refine ⟨by omega, ?_⟩
    intro i hi
    simp only [Option.some.injEq] at hi
    omega
  | set id0 c =>
    simp only [stepOp, Option.map_eq_some', Prod.mk.injEq] at h
    obtain ⟨⟨cm2, rv⟩, hr, rfl, rfl⟩ := h
    refine ⟨?_, fun i hi => by cases hi⟩
    unfold setConfig at hr
    split at hr
    · split at hr
      · cases hr
      · rename_i cm3 hu
        simp only [Option.some.injEq, Prod.mk.injEq] at hr
        obtain ⟨rfl, _⟩ := hr
        rw [update_mConfigs hu]
        simp
    · simp only [Option.some.injEq, Prod.mk.injEq] at hr
      obtain ⟨rfl, _⟩ := hr
      exact Nat.le_refl _
  | remove id0 =>
    simp only [stepOp, Option.map_eq_some', Prod.mk.injEq] at h
    obtain ⟨⟨cm2, rv⟩, hr, rfl, rfl⟩ := h
    refine ⟨?_, fun i hi => by cases hi⟩
    unfold removeConfig at hr
    split at hr
    · split at hr
      · cases hr
      · rename_i cm3 hu
        simp only [Option.some.injEq, Prod.mk.injEq] at hr
        obtain ⟨rfl, _⟩ := hr
        rw [update_mConfigs hu]
        simp
    · simp only [Option.some.injEq, Prod.mk.injEq] at hr
      obtain ⟨rfl, _⟩ := hr
      exact Nat.le_refl _
  | clear => simp [Op.isClear] at hnc

theorem runOps_ids (ops : List Op) :
    ∀ (cm0 cm : ConfigManager) (ids : List Nat), (∀ op, op ∈ ops → op.isClear = false) →
      runOps cm0 ops = some (cm, ids) →
      cm0.mConfigs.length ≤ cm.mConfigs.length ∧
      (∀ i, i ∈ ids → cm0.mConfigs.length ≤ i ∧ i < cm.mConfigs.length) ∧
      ids.Pairwise (fun earlier later => earlier < later) := by
  induction ops with
  | nil =>
    intro cm0 cm ids _ h
    simp only [runOps, Option.some.injEq, Prod.mk.injEq] at h
    obtain ⟨rfl, rfl⟩ := h
    exact ⟨Nat.le_refl _, fun i hi => (by cases hi), List.Pairwise.nil⟩
  | cons op tl ih =>
    intro cm0 cm ids hnc h
    simp only [runOps] at h
    cases hs : stepOp cm0 op with
    | none => rw [hs] at h; cases h
    | some res =>
      obtain ⟨cm1, id⟩ := res
      rw [hs] at h
      simp only at h
      cases hr : runOps cm1 tl with
      | none => rw [hr] at h; cases h
      | some res2 =>
        obtain ⟨cm2, ids2⟩ := res2
        rw [hr] at h
        simp only [Option.some.injEq, Prod.mk.injEq] at h
        obtain ⟨rfl, rfl⟩ := h
        obtain ⟨hl1, hid⟩ := stepOp_length (hnc op (List.mem_cons_self _ _)) hs
        obtain ⟨hl2, hin, hpw⟩ := ih cm1 cm2 ids2
          (fun o ho => hnc o (List.mem_cons_of_mem _ ho)) hr
        refine ⟨by omega, ?_, ?_⟩
        · intro i hi
          rcases List.mem_append.1 hi with h1 | h1
          · have := hid i (by simpa using h1)
            omega
          · have := hin i h1
            omega
        · rw [List.pairwise_append]
          refine ⟨?_, hpw, ?_⟩
          · cases id <;> simp
          · intro a ha b hb
            have h1 := hid a (by simpa using ha)
            have h2 := hin b hb
            omega

end ConfigManager

open Config ConfigManager

/-- C16, as the code has it: in every sequence of `addConfig`, `setConfig` and
`removeConfig` calls that completes, from any manager, the number of slots
never shrinks and each id that `addConfig` returns is greater than every id
returned before it (and is no slot of the manager the sequence started from);
and a `removeConfig(id)` that returns true leaves the number of slots and
every other slot as they were and makes slot `id` the null config. -/
theorem ids_never_reused_without_clear :
    (∀ (ops : List Op) (cm0 cm : ConfigManager) (ids : List Nat),
      (∀ op, op ∈ ops → op.isClear = false) → runOps cm0 ops = some (cm, ids) →
      cm0.mConfigs.length ≤ cm.mConfigs.length ∧
      (∀ i, i ∈ ids → cm0.mConfigs.length ≤ i ∧ i < cm.mConfigs.length) ∧
      ids.Pairwise (fun earlier later => earlier < later) ∧ ids.Nodup) ∧
    (∀ (cm cm1 : ConfigManager) (id : Nat), removeConfig cm id = some (cm1, true) →
      cm1.mConfigs.length = cm.mConfigs.length ∧
      cm1.mConfigs[id]? = some (.null, .None) ∧
      ∀ j, j ≠ id → cm1.mConfigs[j]? = cm.mConfigs[j]?) := by
  constructor
  · intro ops cm0 cm ids hnc h
    obtain ⟨h1, h2, h3⟩ := runOps_ids ops cm0 cm ids hnc h
    exact ⟨h1, h2, h3, h3.imp (fun hlt => Nat.ne_of_lt hlt)⟩
  · intro cm cm1 id h
    obtain ⟨hlt, hset⟩ := removeConfig_spec h
    rw [hset]
    refine ⟨by simp, by simp [hlt], ?_⟩
    intro j hj
    rw [List.getElem?_set_ne (Ne.symm hj)]

/-- Witness of the amended C16: two adds, the removal of the first config, and
a third add return the ids 0, 1 and 2. -/
theorem ids_never_reused_without_clear_witness :
    (∀ op, op ∈ [Op.add s1Default .Default, Op.add s1User .User, Op.remove 0,
      Op.add s1Default .User] → op.isClear = false) ∧
    (runOps new [Op.add s1Default .Default, Op.add s1User .User, Op.remove 0,
      Op.add s1Default .User]).map Prod.snd = some [0, 1, 2] ∧
    ([0, 1, 2] : List Nat).Nodup :=
  ⟨by simp [Op.isClear], by rfl,
    (ids_never_reused_without_clear.1
      [Op.add s1Default .Default, Op.add s1User .User, Op.remove 0, Op.add s1Default .User]
      new
      ⟨[(.null, .None), (s1User, .User), (s1Default, .User)],
        .map [("a", .int32 1), ("b", .int32 2), ("c", .int32 30)]⟩
      [0, 1, 2] (by simp [Op.isClear]) (by rfl)).2.2.2⟩

/-- C16 fails as stated: `addConfig`, `clear`, `addConfig` returns the id 0
twice, the second time for another config. -/
theorem ids_reused_after_clear :
    runOps new [Op.add s1Default .Default, Op.clear, Op.add s1User .User]
      = some (⟨[(s1User, .User)], s1User⟩, [0, 0]) ∧
    ¬ ([0, 0] : List Nat).Nodup :=
  ⟨by rfl, by decide⟩

/-- C17: for an id that is no slot (`id >= mConfigs.size()`), `removeConfig`,
`getConfig(id, config)` and `setConfig` each return false, set the exception
"Invalid ConfigId", and leave the manager (the raw configs and the merged
view) as it was; `getConfig` also leaves its out-parameter as it was. -/
theorem invalid_id_is_rejected (cm : ConfigManager) (id : Nat) (c out : Config)
    (h : cm.mConfigs.length ≤ id) :
    removeConfig cm id = some (cm, false) ∧ removeConfigException cm id = some INVALID_ID ∧
    getConfigInto cm id out = (false, out) ∧ getConfigById cm id = none ∧
    getConfigException cm id = some INVALID_ID ∧
    setConfig cm id c = some (cm, false) ∧ setConfigException cm id = some INVALID_ID := by
  have hlt : ¬ id < cm.mConfigs.length := by omega
  simp [removeConfig, removeConfigException, getConfigInto, getConfigById, getConfigException,
    setConfig, setConfigException, hlt]

/-- Witness of C17 on the empty manager and the id 0. -/
theorem invalid_id_is_rejected_witness :
    new.mConfigs.length ≤ 0 ∧
    removeConfig new 0 = some (new, false) ∧ removeConfigException new 0 = some INVALID_ID ∧
    getConfigInto new 0 fresh = (false, fresh) ∧ getConfigById new 0 = none ∧
    getConfigException new 0 = some INVALID_ID ∧
    setConfig new 0 s1User = some (new, false) ∧ setConfigException new 0 = some INVALID_ID :=
  ⟨by simp [new], invalid_id_is_rejected new 0 s1User fresh (by simp [new])⟩

end Monarch
namespace Monarch
namespace ConfigManager
open Config

/-! ## Loading configs through includes and directories -/

theorem pushConfig_spec {cm cm1 : ConfigManager} {c : Config} {ty : ConfigType} {rv : Bool}
    {id : Option Nat} (h : pushConfig cm c ty = .done (cm1, rv, id)) :
    cm1.mConfigs = cm.mConfigs ++ [(c, ty)] ∧ rv = true ∧ id = some cm.mConfigs.length := by
  unfold pushConfig at h
  cases ha : addConfig cm c ty with
  | none => rw [ha] at h; cases h
  | some res =>
    obtain ⟨cm2, rv2, id2⟩ := res
    rw [ha] at h
    simp only [Outcome.done.injEq, Prod.mk.injEq] at h
    obtain ⟨rfl, rfl, rfl⟩ := h
    obtain ⟨h1, h2, h3⟩ := addConfig_spec ha
    exact ⟨h1, h2, by rw [h3]⟩

theorem pushConfig_ne_outOfFuel (cm : ConfigManager) (c : Config) (ty : ConfigType) :
    pushConfig cm c ty ≠ .outOfFuel := by
  unfold pushConfig
  cases addConfig cm c ty with
  | none => simp
  | some res => obtain ⟨cm2, rv2, id2⟩ := res; simp

theorem includeLoop_appends (env : Env)
    (load : ConfigManager → String → ConfigType → Bool → Outcome (ConfigManager × Bool × Option Nat))
    (hload : ∀ cm p cm1 rv id, load cm p .Default true = .done (cm1, rv, id) →
      ∃ added, cm1.mConfigs = cm.mConfigs ++ added ∧ ∀ e, e ∈ added → e.2 = ConfigType.Default)
    (es : List Config) :
    ∀ (cm cm1 : ConfigManager) (rv : Bool), includeLoop env load cm es = .done (cm1, rv) →
      ∃ added, cm1.mConfigs = cm.mConfigs ++ added ∧
        ∀ e, e ∈ added → e.2 = ConfigType.Default := by
  induction es with
  | nil =>
    intro cm cm1 rv h
    simp only [includeLoop, Outcome.done.injEq, Prod.mk.injEq] at h
    obtain ⟨rfl, _⟩ := h
    exact ⟨[], by simp, fun e he => by cases he⟩
  | cons next tl ih =>
    intro cm cm1 rv h
    simp only [includeLoop] at h
    cases hs : entryString env next with
    | none => rw [hs] at h; cases h
    | some path =>
      rw [hs] at h
      simp only at h
      cases hl : load cm path .Default true with
      | fault => rw [hl] at h; cases h
      | outOfFuel => rw [hl] at h; cases h
      | done res =>
        obtain ⟨cm2, rv2, id2⟩ := res
        rw [hl] at h
        obtain ⟨a1, h1, h2⟩ := hload cm path cm2 rv2 id2 hl
        cases rv2 with
        | false =>
          simp only [Outcome.done.injEq, Prod.mk.injEq] at h
          obtain ⟨rfl, _⟩ := h
          exact ⟨a1, h1, h2⟩
        | true =>
          simp only at h
          obtain ⟨a2, h3, h4⟩ := ih cm2 cm1 rv h
          refine ⟨a1 ++ a2, by rw [h3, h1, List.append_assoc], ?_⟩
          intro e he
          rcases List.mem_append.1 he with he | he
          · exact h2 e he
          · exact h4 e he

theorem directoryLoop_appends
    (load : ConfigManager → String → ConfigType → Bool → Outcome (ConfigManager × Bool × Option Nat))
    (incl : Bool)
    (hload : ∀ cm p cm1 rv id, load cm p .Default incl = .done (cm1, rv, id) →
      ∃ added, cm1.mConfigs = cm.mConfigs ++ added ∧ ∀ e, e ∈ added → e.2 = ConfigType.Default)
    (names : List String) :
    ∀ (cm cm1 : ConfigManager) (rv : Bool), directoryLoop load incl cm names = .done (cm1, rv) →
      ∃ added, cm1.mConfigs = cm.mConfigs ++ added ∧
        ∀ e, e ∈ added → e.2 = ConfigType.Default := by
  induction names with
  | nil =>
    intro cm cm1 rv h
    simp only [directoryLoop, Outcome.done.injEq, Prod.mk.injEq] at h
    obtain ⟨rfl, _⟩ := h
    exact ⟨[], by simp, fun e he => by cases he⟩
  | cons name tl ih =>
    intro cm cm1 rv h
    simp only [directoryLoop] at h
    cases hl : load cm name .Default incl with
    | fault => rw [hl] at h; cases h
    | outOfFuel => rw [hl] at h; cases h
    | done res =>
      obtain ⟨cm2, rv2, id2⟩ := res
      rw [hl] at h
      obtain ⟨a1, h1, h2⟩ := hload cm name cm2 rv2 id2 hl
      cases rv2 with
      | false =>
        simp only [Outcome.done.injEq, Prod.mk.injEq] at h
        obtain ⟨rfl, _⟩ := h
        exact ⟨a1, h1, h2⟩
      | true =>
        simp only at h
        obtain ⟨a2, h3, h4⟩ := ih cm2 cm1 rv h
        refine ⟨a1 ++ a2, by rw [h3, h1, List.append_assoc], ?_⟩
        intro e he
        rcases List.mem_append.1 he with he | he
        · exact h2 e he
        · exact h4 e he

/-- What a completed `addConfig(config, type, id, include)` has done: it has
appended configs of tier `Default` and, when it returns true, the config itself
last, with its index as the id. -/
theorem addConfigInclude_appends (env : Env)
    (load : ConfigManager → String → ConfigType → Bool → Outcome (ConfigManager × Bool × Option Nat))
    (hload : ∀ cm p cm1 rv id, load cm p .Default true = .done (cm1, rv, id) →
      ∃ added, cm1.mConfigs = cm.mConfigs ++ added ∧ ∀ e, e ∈ added → e.2 = ConfigType.Default)
    {cm cm1 : ConfigManager} {c : Config} {ty : ConfigType} {incl rv : Bool} {id : Option Nat}
    (h : addConfigInclude env load cm c ty incl = .done (cm1, rv, id)) :
    ∃ added, (∀ e, e ∈ added → e.2 = ConfigType.Default) ∧
      ((rv = true ∧ cm1.mConfigs = cm.mConfigs ++ added ++ [(c, ty)] ∧
          id = some (cm1.mConfigs.length - 1)) ∨
        (rv = false ∧ cm1.mConfigs = cm.mConfigs ++ added)) := by
  have hpush : ∀ cm0 : ConfigManager, ∀ a0 : List (Config × ConfigType),
      cm0.mConfigs = cm.mConfigs ++ a0 → (∀ e, e ∈ a0 → e.2 = ConfigType.Default) →
      pushConfig cm0 c ty = .done (cm1, rv, id) →
      ∃ added, (∀ e, e ∈ added → e.2 = ConfigType.Default) ∧
        ((rv = true ∧ cm1.mConfigs = cm.mConfigs ++ added ++ [(c, ty)] ∧
            id = some (cm1.mConfigs.length - 1)) ∨
          (rv = false ∧ cm1.mConfigs = cm.mConfigs ++ added)) := by
    intro cm0 a0 h0 hd hp
    obtain ⟨h1, h2, h3⟩ := pushConfig_spec hp
    refine ⟨a0, hd, Or.inl ⟨h2, by rw [h1, h0], ?_⟩⟩
    rw [h3, h1]
    simp
  unfold addConfigInclude at h
  split at h
  · split at h
    · cases h
    · split at h
      · exact hpush cm [] (by simp) (fun e he => by cases he) h
      · cases h
      · rename_i v _ _
        cases hl : includeLoop env load cm (iterated v) with
        | fault => rw [hl] at h; cases h
        | outOfFuel => rw [hl] at h; cases h
        | done res =>
          obtain ⟨cm2, rv2⟩ := res
          rw [hl] at h
          obtain ⟨a1, h1, h2⟩ := includeLoop_appends env load hload _ cm cm2 rv2 hl
          cases rv2 with
          | true => exact hpush cm2 a1 h1 h2 h
          | false =>
            simp only [Outcome.done.injEq, Prod.mk.injEq] at h
            obtain ⟨rfl, rfl, _⟩ := h
            exact ⟨a1, h2, Or.inr ⟨rfl, h1⟩⟩
    · exact hpush cm [] (by simp) (fun e he => by cases he) h
  · exact hpush cm [] (by simp) (fun e he => by cases he) h

/-- Every config that a completed `addConfig(path, Default, ...)` stores is
appended to the list, with tier `Default`. -/
theorem addConfigPath_appends (env : Env) (fuel : Nat) :
    ∀ (cm : ConfigManager) (p : String) (incl : Bool) (cm1 : ConfigManager) (rv : Bool)
      (id : Option Nat),
      addConfigPath env fuel cm p .Default incl = .done (cm1, rv, id) →
      ∃ added, cm1.mConfigs = cm.mConfigs ++ added ∧
        ∀ e, e ∈ added → e.2 = ConfigType.Default := by
  induction fuel with
  | zero => intro cm p incl cm1 rv id h; simp [addConfigPath] at h
  | succ n ih =>
    intro cm p incl cm1 rv id h
    simp only [addConfigPath] at h
    have hnone : ∀ cm2 : ConfigManager, ∀ rv2 : Bool, ∀ id2 : Option Nat,
        (Outcome.done (cm, false, (none : Option Nat)) = .done (cm2, rv2, id2)) →
        ∃ added, cm2.mConfigs = cm.mConfigs ++ added ∧
          ∀ e, e ∈ added → e.2 = ConfigType.Default := by
      intro cm2 rv2 id2 h2
      simp only [Outcome.done.injEq, Prod.mk.injEq] at h2
      obtain ⟨rfl, _, _⟩ := h2
      exact ⟨[], by simp, fun e he => by cases he⟩
    cases hx : env.expandUser p with
    | none => rw [hx] at h; exact hnone _ _ _ h
    | some full =>
      rw [hx] at h
      simp only at h
      cases hn : env.node full with
      | missing => rw [hn] at h; exact hnone _ _ _ h
      | other => rw [hn] at h; exact hnone _ _ _ h
      | file content =>
        rw [hn] at h
        cases content with
        | none => exact hnone _ _ _ h
        | some cfg =>
          simp only at h
          obtain ⟨added, hd, hc⟩ := addConfigInclude_appends env (addConfigPath env n)
            (fun cm0 p0 cm2 rv2 id2 h2 => ih cm0 p0 true cm2 rv2 id2 h2) h
          rcases hc with ⟨_, h1, _⟩ | ⟨_, h1⟩
          · refine ⟨added ++ [(cfg, .Default)], h1.trans (by simp), ?_⟩
            intro e he
            rcases List.mem_append.1 he with he | he
            · exact hd e he
            · simp only [List.mem_singleton] at he; rw [he]
          · exact ⟨added, h1, hd⟩
      | directory names =>
        rw [hn] at h
        simp only at h
        cases hl : directoryLoop (addConfigPath env n) incl cm
            (env.sort strcmpFlag (names.filter isConfigFileName)) with
        | fault => rw [hl] at h; cases h
        | outOfFuel => rw [hl] at h; cases h
        | done res =>
          obtain ⟨cm2, rv2⟩ := res
          rw [hl] at h
          simp only [Outcome.done.injEq, Prod.mk.injEq] at h
          obtain ⟨rfl, _, _⟩ := h
          exact directoryLoop_appends (addConfigPath env n) incl
            (fun cm0 p0 cm3 rv3 id3 h3 => ih cm0 p0 incl cm3 rv3 id3 h3) _ cm cm2 rv2 hl

end ConfigManager
end Monarch
namespace Monarch
namespace ConfigManager
open Config

theorem addConfigInclude_without_member (env : Env)
    (load : ConfigManager → String → ConfigType → Bool → Outcome (ConfigManager × Bool × Option Nat))
    (cm : ConfigManager) {cfg : Config} (ty : ConfigType)
    (h : hasMember INCLUDE cfg = false) (hn : cfg ≠ .null) :
    addConfigInclude env load cm cfg ty true = pushConfig cm cfg ty := by
  unfold addConfigInclude
  cases cfg with
  | null => exact absurd rfl hn
  | map ms =>
    have hf : find INCLUDE ms = none := by
      cases hfind : find INCLUDE ms with
      | none => rfl
      | some v => simp [hasMember, hfind] at h
    simp [hf]
  | _ => simp

theorem addConfigInclude_null (env : Env)
    (load : ConfigManager → String → ConfigType → Bool → Outcome (ConfigManager × Bool × Option Nat))
    (cm : ConfigManager) (ty : ConfigType) :
    addConfigInclude env load cm .null ty true = .fault := by
  simp [addConfigInclude]

/-- The include loop over paths of regular files that include nothing
themselves: when it completes it returns true and has appended the content of
each file, in the order of the paths, with tier `Default`. -/
theorem includeLoop_plain_files (env : Env) (fuel : Nat) (content : String → Config)
    (ps : List String) :
    ∀ (cm cm1 : ConfigManager) (rv : Bool),
      (∀ p, p ∈ ps → ∃ full, env.expandUser p = some full ∧
        env.node full = .file (some (content p)) ∧ hasMember INCLUDE (content p) = false) →
      includeLoop env (addConfigPath env (fuel + 1)) cm (ps.map Config.str) = .done (cm1, rv) →
      rv = true ∧ cm1.mConfigs = cm.mConfigs ++ ps.map (fun p => (content p, ConfigType.Default)) := by
  induction ps with
  | nil =>
    intro cm cm1 rv _ h
    simp only [List.map_nil, includeLoop, Outcome.done.injEq, Prod.mk.injEq] at h
    obtain ⟨rfl, rfl⟩ := h
    simp
  | cons p tl ih =>
    intro cm cm1 rv hfiles h
    obtain ⟨full, hx, hnode, hmem⟩ := hfiles p (List.mem_cons_self _ _)
    simp only [List.map_cons, includeLoop, entryString, addConfigPath, hx, hnode] at h
    by_cases hnull : content p = .null
    · rw [hnull, addConfigInclude_null] at h
      cases h
    · rw [addConfigInclude_without_member env _ cm .Default hmem hnull] at h
      cases hp : pushConfig cm (content p) .Default with
      | fault => rw [hp] at h; cases h
      | outOfFuel => exact absurd hp (pushConfig_ne_outOfFuel _ _ _)
      | done res =>
        obtain ⟨cm2, rv2, id2⟩ := res
        rw [hp] at h
        obtain ⟨h1, h2, _⟩ := pushConfig_spec hp
        subst h2
        simp only at h
        obtain ⟨h3, h4⟩ := ih cm2 cm1 rv
          (fun q hq => hfiles q (List.mem_cons_of_mem _ hq)) h
        refine ⟨h3, ?_⟩
        rw [h4, h1]
        simp

/-! ## Termination of the loader on an acyclic include graph -/

theorem includeLoop_ne_outOfFuel (env : Env)
    (load : ConfigManager → String → ConfigType → Bool → Outcome (ConfigManager × Bool × Option Nat))
    (es : List Config) :
    ∀ cm : ConfigManager,
      (∀ q, q ∈ es.filterMap (entryString env) →
        ∀ cm0 ty incl, load cm0 q ty incl ≠ .outOfFuel) →
      includeLoop env load cm es ≠ .outOfFuel := by
  induction es with
  | nil => intro cm _; simp [includeLoop]
  | cons next tl ih =>
    intro cm hq
    simp only [includeLoop]
    cases hs : entryString env next with
    | none => simp
    | some path =>
      have hq1 : ∀ q, q ∈ tl.filterMap (entryString env) →
          ∀ cm0 ty incl, load cm0 q ty incl ≠ .outOfFuel := by
        intro q hmem
        exact hq q (by simp only [List.filterMap_cons, hs]; exact List.mem_cons_of_mem _ hmem)
      have hq0 := hq path (by simp [List.filterMap_cons, hs]) cm .Default true
      simp only
      cases hl : load cm path .Default true with
      | fault => simp
      | outOfFuel => exact absurd hl hq0
      | done res =>
        obtain ⟨cm2, rv2, id2⟩ := res
        cases rv2 with
        | true => exact ih cm2 hq1
        | false => simp

theorem directoryLoop_ne_outOfFuel
    (load : ConfigManager → String → ConfigType → Bool → Outcome (ConfigManager × Bool × Option Nat))
    (incl : Bool) (names : List String) :
    ∀ cm : ConfigManager,
      (∀ q, q ∈ names → ∀ cm0 ty incl0, load cm0 q ty incl0 ≠ .outOfFuel) →
      directoryLoop load incl cm names ≠ .outOfFuel := by
  induction names with
  | nil => intro cm _; simp [directoryLoop]
  | cons name tl ih =>
    intro cm hq
    simp only [directoryLoop]
    have hq0 := hq name (List.mem_cons_self _ _) cm .Default incl
    cases hl : load cm name .Default incl with
    | fault => simp
    | outOfFuel => exact absurd hl hq0
    | done res =>
      obtain ⟨cm2, rv2, id2⟩ := res
      cases rv2 with
      | true => exact ih cm2 (fun q hmem => hq q (List.mem_cons_of_mem _ hmem))
      | false => simp

theorem addConfigInclude_ne_outOfFuel (env : Env)
    (load : ConfigManager → String → ConfigType → Bool → Outcome (ConfigManager × Bool × Option Nat))
    (cm : ConfigManager) (c : Config) (ty : ConfigType) (incl : Bool)
    (hq : ∀ q, q ∈ includeTargets env c → ∀ cm0 ty0 incl0, load cm0 q ty0 incl0 ≠ .outOfFuel) :
    addConfigInclude env load cm c ty incl ≠ .outOfFuel := by
  unfold addConfigInclude
  split
  · split
    · simp
    · rename_i ms
      split
      · exact pushConfig_ne_outOfFuel _ _ _
      · simp
      · rename_i v hv _
        have hl := includeLoop_ne_outOfFuel env load (iterated v) cm
          (fun q hmem => hq q (by
            have hv2 : find INCLUDE ms = some v := by assumption
            simp only [includeTargets, hv2]; exact hmem))
        cases hres : includeLoop env load cm (iterated v) with
        | fault => simp
        | outOfFuel => exact absurd hres hl
        | done res =>
          obtain ⟨cm2, rv2⟩ := res
          cases rv2 with
          | true => exact pushConfig_ne_outOfFuel _ _ _
          | false => simp
    · exact pushConfig_ne_outOfFuel _ _ _
  · exact pushConfig_ne_outOfFuel _ _ _

theorem addConfigPath_terminates (env : Env) (rank : String → Nat)
    (hrank : ∀ p q, q ∈ children env p → rank q < rank p) (n : Nat) :
    ∀ p, rank p < n → ∀ (cm : ConfigManager) (ty : ConfigType) (incl : Bool),
      addConfigPath env n cm p ty incl ≠ .outOfFuel := by
  induction n with
  | zero => intro p hp; omega
  | succ n ih =>
    intro p hp cm ty incl
    simp only [addConfigPath]
    have hch := hrank p
    unfold children at hch
    cases hx : env.expandUser p with
    | none => simp
    | some full =>
      rw [hx] at hch
      simp only at hch ⊢
      cases hn : env.node full with
      | missing => simp
      | other => simp
      | file content =>
        rw [hn] at hch
        cases content with
        | none => simp
        | some cfg =>
          simp only at hch ⊢
          exact addConfigInclude_ne_outOfFuel env _ cm cfg ty incl
            (fun q hq => ih q (by have := hch q hq; omega))
      | directory names =>
        rw [hn] at hch
        simp only at hch ⊢
        have hl := directoryLoop_ne_outOfFuel (addConfigPath env n) incl
          (env.sort strcmpFlag (names.filter isConfigFileName)) cm
          (fun q hq => ih q (by have := hch q hq; omega))
        cases hres : directoryLoop (addConfigPath env n) incl cm
            (env.sort strcmpFlag (names.filter isConfigFileName)) with
        | fault => simp
        | outOfFuel => exact absurd hres hl
        | done res => obtain ⟨cm2, rv2⟩ := res; simp

/-- One level of `addConfig(path)`: it terminates at depth `n + 1` when all the
paths it recurses into terminate at depth `n`. -/
theorem addConfigPath_level (env : Env) (n : Nat) (p : String)
    (hch : ∀ q, q ∈ children env p → ∀ (cm : ConfigManager) (ty : ConfigType) (incl : Bool),
      addConfigPath env n cm q ty incl ≠ .outOfFuel) :
    ∀ (cm : ConfigManager) (ty : ConfigType) (incl : Bool),
      addConfigPath env (n + 1) cm p ty incl ≠ .outOfFuel := by
  intro cm ty incl
  simp only [addConfigPath]
  unfold children at hch
  cases hx : env.expandUser p with
  | none => simp
  | some full =>
    rw [hx] at hch
    simp only at hch ⊢
    cases hn : env.node full with
    | missing => simp
    | other => simp
    | file content =>
      rw [hn] at hch
      cases content with
      | none => simp
      | some cfg =>
        simp only at hch ⊢
        exact addConfigInclude_ne_outOfFuel env _ cm cfg ty incl hch
    | directory names =>
      rw [hn] at hch
      simp only at hch ⊢
      have hl := directoryLoop_ne_outOfFuel (addConfigPath env n) incl
        (env.sort strcmpFlag (names.filter isConfigFileName)) cm hch
      cases hres : directoryLoop (addConfigPath env n) incl cm
          (env.sort strcmpFlag (names.filter isConfigFileName)) with
      | fault => simp
      | outOfFuel => exact absurd hres hl
      | done res => obtain ⟨cm2, rv2⟩ := res; simp

/-- One depth serves a whole list of paths that terminate. -/
theorem terminates_bound (env : Env) (l : List String) (h : ∀ q ∈ l, Terminates env q) :
    ∃ depth : Nat, ∀ q ∈ l, ∀ fuel : Nat, depth ≤ fuel →
      ∀ (cm : ConfigManager) (ty : ConfigType) (incl : Bool),
        addConfigPath env fuel cm q ty incl ≠ .outOfFuel := by
  induction l with
  | nil => exact ⟨0, fun q hq => absurd hq (List.not_mem_nil q)⟩
  | cons a l ih =>
    obtain ⟨d1, h1⟩ := ih (fun q hq => h q (List.mem_cons_of_mem _ hq))
    obtain ⟨d2, h2⟩ := h a (List.mem_cons_self _ _)
    refine ⟨max d1 d2, fun q hq fuel hfuel => ?_⟩
    rcases List.mem_cons.mp hq with rfl | hq'
    · exact h2 fuel (le_trans (le_max_right _ _) hfuel)
    · exact h1 q hq' fuel (le_trans (le_max_left _ _) hfuel)

/-- On a finite include graph without a cycle, `addConfig(path)` terminates on
every path it reaches. -/
theorem terminates_of_acyclic (env : Env) (start : String) (paths : List String)
    (hfinite : ∀ p, Reaches env start p → p ∈ paths) (hacyclic : AcyclicFrom env start) :
    Terminates env start := by
  let S := { p : String // p ∈ paths }
  let r : S → S → Prop := fun a b =>
    Reaches env start b.1 ∧ Relation.TransGen (fun x y => x ∈ children env y) a.1 b.1
  haveI : Finite S := List.finite_toSet paths
  haveI : IsTrans S r := ⟨fun a b c hab hbc => ⟨hbc.1, hab.2.trans hbc.2⟩⟩
  haveI : IsIrrefl S r := ⟨fun a ha => hacyclic a.1 ha.1 ha.2⟩
  have hwf : WellFounded r := Finite.wellFounded_of_trans_of_irrefl r
  have key : ∀ x : S, Reaches env start x.1 → Terminates env x.1 := by
    intro x
    induction x using hwf.induction with
    | _ x ih =>
      intro hx
      have hch : ∀ q ∈ children env x.1, Terminates env q := by
        intro q hq
        have hrq : Reaches env start q := Reaches.step hx hq
        exact ih ⟨q, hfinite q hrq⟩ ⟨hx, Relation.TransGen.single hq⟩ hrq
      obtain ⟨d, hd⟩ := terminates_bound env (children env x.1) hch
      refine ⟨d + 1, fun fuel hfuel => ?_⟩
      obtain ⟨n, rfl⟩ : ∃ n, fuel = n + 1 := ⟨fuel - 1, by omega⟩
      exact addConfigPath_level env n x.1
        (fun q hq cm ty incl => hd q hq n (by omega) cm ty incl)
  exact key ⟨start, hfinite start Reaches.refl⟩ Reaches.refl

theorem selfInclude_outOfFuel (fuel : Nat) :
    ∀ cm : ConfigManager,
      addConfigPath (plainEnv selfIncludeFs) fuel cm "self.config" .Default true = .outOfFuel := by
  induction fuel with
  | zero => intro cm; rfl
  | succ n ih =>
    intro cm
    simp [addConfigPath, plainEnv, selfIncludeFs, addConfigInclude, find, INCLUDE, iterated,
      includeLoop, entryString]
    have := ih cm
    simp only [plainEnv, selfIncludeFs] at this
    rw [this]

end ConfigManager

open Config ConfigManager

/-- C18: when `addConfig(c, tier, &id, include = true)` completes and returns
true, the list of raw configs is the previous list, then the configs loaded
through the `__include__` member of `c`, each with tier `Default`, then `c` last
with the given tier, and `id` is the index of `c`, the last index.  When the
member lists the paths `p1..pn` of regular files that include nothing
themselves, the configs loaded are exactly the contents of `p1..pn`, in that
order. -/
theorem addConfig_appends_includes_then_config :
    (∀ (env : Env) (fuel : Nat) (cm cm1 : ConfigManager) (c : Config) (tier : ConfigType)
        (id : Option Nat),
      addConfigInclude env (addConfigPath env fuel) cm c tier true = .done (cm1, true, id) →
      ∃ added, cm1.mConfigs = cm.mConfigs ++ added ++ [(c, tier)] ∧
        (∀ e, e ∈ added → e.2 = ConfigType.Default) ∧
        id = some (cm1.mConfigs.length - 1)) ∧
    (∀ (env : Env) (fuel : Nat) (cm cm1 : ConfigManager) (ms : List (String × Config))
        (ps : List String) (content : String → Config) (tier : ConfigType) (rv : Bool)
        (id : Option Nat),
      find INCLUDE ms = some (.array (ps.map Config.str)) →
      (∀ p, p ∈ ps → ∃ full, env.expandUser p = some full ∧
        env.node full = .file (some (content p)) ∧ hasMember INCLUDE (content p) = false) →
      addConfigInclude env (addConfigPath env (fuel + 1)) cm (.map ms) tier true
        = .done (cm1, rv, id) →
      rv = true ∧
      cm1.mConfigs = cm.mConfigs ++ ps.map (fun p => (content p, ConfigType.Default))
        ++ [(.map ms, tier)] ∧
      id = some (cm.mConfigs.length + ps.length)) := by
  constructor
  · intro env fuel cm cm1 c tier id h
    obtain ⟨added, hd, hc⟩ := addConfigInclude_appends env (addConfigPath env fuel)
      (fun cm0 p0 cm2 rv2 id2 h2 => addConfigPath_appends env fuel cm0 p0 true cm2 rv2 id2 h2) h
    rcases hc with ⟨_, h1, h2⟩ | ⟨h1, _⟩
    · exact ⟨added, h1, hd, h2⟩
    · cases h1
  · intro env fuel cm cm1 ms ps content tier rv id hinc hfiles h
    simp only [addConfigInclude, if_true, hinc, iterated] at h
    cases hl : includeLoop env (addConfigPath env (fuel + 1)) cm (ps.map Config.str) with
    | fault => rw [hl] at h; cases h
    | outOfFuel => rw [hl] at h; cases h
    | done res =>
      obtain ⟨cm2, rv2⟩ := res
      rw [hl] at h
      obtain ⟨h1, h2⟩ := includeLoop_plain_files env fuel content ps cm cm2 rv2 hfiles hl
      subst h1
      simp only at h
      obtain ⟨h3, h4, h5⟩ := pushConfig_spec h
      refine ⟨h4, by rw [h3, h2], ?_⟩
      rw [h5, h2]
      simp

/-- Witness of C18: `includingConfig`, which includes `base.config` and
`extra.config`, added as `User` to the empty manager. -/
theorem addConfig_appends_includes_then_config_witness :
    addConfigInclude (plainEnv twoFilesFs) (addConfigPath (plainEnv twoFilesFs) 1) new
        includingConfig .User true
      = .done (⟨[(.map [("a", .int32 1)], .Default), (.map [("b", .int32 2)], .Default),
            (includingConfig, .User)],
          .map [("__include__", .array [.str "base.config", .str "extra.config"]),
            ("a", .int32 1), ("b", .int32 2), ("c", .int32 3)]⟩, true, some 2) ∧
    ∃ added,
      [(Config.map [("a", .int32 1)], ConfigType.Default), (.map [("b", .int32 2)], .Default),
          (includingConfig, .User)]
        = new.mConfigs ++ added ++ [(includingConfig, .User)] ∧
      (∀ e, e ∈ added → e.2 = ConfigType.Default) ∧
      some 2 = some ([(Config.map [("a", .int32 1)], ConfigType.Default),
        (.map [("b", .int32 2)], .Default), (includingConfig, .User)].length - 1) :=
  ⟨by rfl,
    addConfig_appends_includes_then_config.1 (plainEnv twoFilesFs) 1 new
      ⟨[(.map [("a", .int32 1)], .Default), (.map [("b", .int32 2)], .Default),
          (includingConfig, .User)],
        .map [("__include__", .array [.str "base.config", .str "extra.config"]),
          ("a", .int32 1), ("b", .int32 2), ("c", .int32 3)]⟩
      includingConfig .User (some 2) (by rfl)⟩

/-- C19, at the failing input: the name `readme`, which does not end with
`.config`, passes the test of the directory branch (`rfind` gives `npos`, and
so does `6 - 7` in `size_t`), and `addConfig("conf.d")` on a directory that
lists `readme` and `10-a.config` loads both files. -/
theorem directory_loads_six_letter_name :
    isConfigFileName "readme" = true ∧
    ["readme", "10-a.config"].filter isConfigFileName = ["readme", "10-a.config"] ∧
    addConfigPath (plainEnv shortNameFs) 2 new "conf.d" .Default false
      = .done (⟨[(.map [("r", .int32 1)], .Default), (.map [("a", .int32 2)], .Default)],
          .map [("a", .int32 2), ("r", .int32 1)]⟩, true, none) :=
  ⟨by rfl, by rfl, by rfl⟩

/-- C20, as the code has it: `addConfig` has no cycle detection, it only
follows the includes.  When the include graph reachable from the paths
`starts` is finite (all its paths are in the list `paths`) and has no cycle,
there is a depth from which on `addConfig(path)` terminates on each of these
paths, and `addConfig(config)` terminates on every config whose include
targets are among them. -/
theorem addConfig_terminates_on_acyclic_includes (env : Env) (starts paths : List String)
    (hfinite : ∀ s ∈ starts, ∀ p, Reaches env s p → p ∈ paths)
    (hacyclic : ∀ s ∈ starts, AcyclicFrom env s) :
    ∃ depth : Nat, ∀ fuel : Nat, depth ≤ fuel →
      (∀ s ∈ starts, ∀ (cm : ConfigManager) (ty : ConfigType) (incl : Bool),
        addConfigPath env fuel cm s ty incl ≠ .outOfFuel)
      ∧ (∀ c : Config, (∀ q ∈ includeTargets env c, q ∈ starts) →
        ∀ (cm : ConfigManager) (ty : ConfigType) (incl : Bool),
          addConfigInclude env (addConfigPath env fuel) cm c ty incl ≠ .outOfFuel) := by
  have hall : ∀ s ∈ starts, Terminates env s :=
    fun s hs => terminates_of_acyclic env s paths (hfinite s hs) (hacyclic s hs)
  obtain ⟨depth, hdepth⟩ := terminates_bound env starts hall
  refine ⟨depth, fun fuel hfuel => ⟨?_, ?_⟩⟩
  · intro s hs cm ty incl
    exact hdepth s hs fuel hfuel cm ty incl
  · intro c hc cm ty incl
    exact addConfigInclude_ne_outOfFuel env _ cm c ty incl
      (fun q hq cm0 ty0 incl0 => hdepth q (hc q hq) fuel hfuel cm0 ty0 incl0)

end Monarch
namespace Monarch
namespace ConfigManager
open Config

theorem chain_children (p q : String) (hq : q ∈ children (plainEnv chainFs) p) :
    p = "main.config" ∧ q = "base.config" := by
  unfold children plainEnv chainFs at hq
  simp only at hq
  split_ifs at hq with h1 h2
  · simp [includeTargets, find, INCLUDE, iterated, entryString] at hq
    exact ⟨h1, hq⟩
  · simp [includeTargets, find, INCLUDE] at hq
  · simp at hq

theorem chain_reaches (p : String) (h : Reaches (plainEnv chainFs) "main.config" p) :
    p ∈ ["main.config", "base.config"] := by
  induction h with
  | refl => simp
  | step _ hq _ => simp [(chain_children _ _ hq).2]

theorem chain_acyclic : AcyclicFrom (plainEnv chainFs) "main.config" := by
  intro p _ hcycle
  obtain ⟨b, hpb, _⟩ := Relation.TransGen.head'_iff.mp hcycle
  obtain ⟨c, _, hcp⟩ := Relation.TransGen.tail'_iff.mp hcycle
  have h1 := (chain_children _ _ hpb).2
  have h2 := (chain_children _ _ hcp).1
  rw [h1] at h2
  exact absurd h2 (by decide)

end ConfigManager

open Config ConfigManager

/-- Witness of the amended C20 on the file system in which `main.config`
includes `base.config`: the reachable graph is the edge from `main.config` to
`base.config`, it has no cycle, `addConfig("main.config")` terminates from
some depth on, and at depth 2 it has loaded `base.config`, then
`main.config`. -/
theorem addConfig_terminates_on_acyclic_includes_witness :
    ("base.config" ∈ children (plainEnv chainFs) "main.config")
      ∧ (∃ depth : Nat, ∀ fuel : Nat, depth ≤ fuel →
          ∀ (cm : ConfigManager) (ty : ConfigType) (incl : Bool),
            addConfigPath (plainEnv chainFs) fuel cm "main.config" ty incl ≠ .outOfFuel)
      ∧ addConfigPath (plainEnv chainFs) 2 new "main.config" .User true
        = .done (⟨[(.map [("a", .int32 1)], .Default),
              (.map [("__include__", .array [.str "base.config"]), ("m", .int32 1)], .User)],
            .map [("__include__", .array [.str "base.config"]), ("a", .int32 1),
              ("m", .int32 1)]⟩, true, some 1) := by
  refine ⟨by decide, ?_, by rfl⟩
  obtain ⟨depth, h⟩ := addConfig_terminates_on_acyclic_includes (plainEnv chainFs)
    ["main.config"] ["main.config", "base.config"]
    (fun s hs p hp => by
      rw [List.mem_singleton.mp hs] at hp
      exact chain_reaches p hp)
    (fun s hs => by
      rw [List.mem_singleton.mp hs]
      exact chain_acyclic)
  exact ⟨depth, fun fuel hfuel => (h fuel hfuel).1 "main.config" (List.mem_singleton.mpr rfl)⟩

/-- C20 fails as stated: for the file `self.config`, whose `__include__` lists
its own path, in a file system where every read of the file succeeds,
`addConfig("self.config")` returns at no depth of recursion: no level of the
recursion returns false or anything else on account of the cycle. -/
theorem include_cycle_is_not_detected :
    ¬ ∃ (fuel : Nat) (r : ConfigManager × Bool × Option Nat),
      addConfigPath (plainEnv selfIncludeFs) fuel new "self.config" .Default true = .done r := by
  rintro ⟨fuel, r, h⟩
  rw [selfInclude_outOfFuel fuel new] at h
  cases h

end Monarch
namespace Monarch
namespace ConfigManager
open Config

/-! ## Which names the directory branch takes for config files -/

theorem rfindBelow_bound (s pat : List Char) (n : Nat) :
    rfindBelow s pat n = npos ∨ rfindBelow s pat n < n := by
  induction n with
  | zero => exact Or.inl rfl
  | succ i ih =>
    simp only [rfindBelow]
    split
    · exact Or.inr (Nat.lt_succ_self i)
    · rcases ih with h | h
      · exact Or.inl h
      · exact Or.inr (Nat.lt_succ_of_lt h)

theorem matchesAt_suffix (s pat : List Char) (h : pat.length ≤ s.length) :
    matchesAt s pat (s.length - pat.length) = true ↔ pat <:+ s := by
  unfold matchesAt
  have hl : (s.drop (s.length - pat.length)).length = pat.length := by
    rw [List.length_drop]; omega
  have ht : (s.drop (s.length - pat.length)).take pat.length = s.drop (s.length - pat.length) :=
    List.take_of_length_le (Nat.le_of_eq hl)
  rw [ht, beq_iff_eq, List.suffix_iff_eq_drop]
  exact eq_comm

/-- The test of the directory branch accepts exactly the names that end with
`.config` and, through the wrap-around of `size_t`, the names of length 6. -/
theorem isConfigFileName_iff (name : String) (hlen : name.length < 2 ^ 64) :
    isConfigFileName name = true ↔ (INCLUDE_EXT.data <:+ name.data ∨ name.length = 6) := by
  obtain ⟨s⟩ := name
  have hext : INCLUDE_EXT.length = 7 := rfl
  have hextd : INCLUDE_EXT.data.length = 7 := rfl
  simp only [String.length] at hlen ⊢
  unfold isConfigFileName rfind
  simp only [String.length, hextd, beq_iff_eq]
  norm_num at hlen ⊢
  by_cases h7 : 7 ≤ s.length
  · have hmod : (s.length + 18446744073709551616 - 7) % 18446744073709551616 = s.length - 7 := by
      omega
    have hm := matchesAt_suffix s INCLUDE_EXT.data (by rw [hextd]; exact h7)
    rw [hextd] at hm
    simp only [h7, if_true, hmod, rfindBelow]
    constructor
    · intro h
      left
      by_cases hmatch : matchesAt s INCLUDE_EXT.data (s.length - 7) = true
      · exact hm.1 hmatch
      · rw [if_neg hmatch] at h
        rcases rfindBelow_bound s INCLUDE_EXT.data (s.length - 7) with hb | hb
        · rw [hb] at h
          simp only [npos] at h
          omega
        · omega
    · rintro (h | h)
      · rw [if_pos (hm.2 h)]
      · omega
  · have hmod : (s.length + 18446744073709551616 - 7) % 18446744073709551616
        = s.length + 18446744073709551616 - 7 := by
      omega
    simp only [h7, if_false, hmod, npos]
    constructor
    · intro h
      right
      omega
    · rintro (h | h)
      · have := h.length_le
        rw [hextd] at this
        omega
      · omega

end ConfigManager
end Monarch
namespace Monarch

namespace Thread

theorem interrupt_sets_flag (t : Thread) : t.interrupt.mInterrupted = true := by
  unfold interrupt isInterrupted
  cases h : t.mInterrupted <;> simp [h]

theorem waitToEnter_rval (t : Thread) (m : Nat) (wake : Wake) :
    (t.waitToEnter m wake).rval = !(t.waitToEnter m wake).thread.mInterrupted := by
  obtain ⟨f, w, e⟩ := t
  cases f <;> cases wake <;> rfl

theorem waitToEnter_interrupted (t : Thread) (h : t.mInterrupted = true) (m : Nat)
    (wake : Wake) :
    (t.waitToEnter m wake).rval = false ∧ (t.waitToEnter m wake).waited = false
      ∧ (t.waitToEnter m wake).thread.mInterrupted = true := by
  obtain ⟨f, w, e⟩ := t
  simp only at h
  subst h
  cases wake <;> exact ⟨rfl, rfl, rfl⟩

theorem waitToEnter_flag (t : Thread) (m : Nat) (wake : Wake) (h : wake ≠ .interrupt) :
    (t.waitToEnter m wake).thread.mInterrupted = t.mInterrupted := by
  obtain ⟨f, w, e⟩ := t
  cases f <;> cases wake <;> first | rfl | exact absurd rfl h

end Thread

namespace Operation

theorem waitLoop_quiet (interruptible : Bool) (events : List WaitEvent)
    (hq : ∀ e ∈ events, e.wake ≠ .interrupt) :
    ∀ (op : Operation) (t : Thread), t.mInterrupted = false →
      ∀ rval op' t', waitLoop interruptible events op t false = some (rval, op', t') →
        rval = false ∧ t'.mInterrupted = false := by
  induction events with
  | nil =>
    intro op t ht rval op' t' h
    unfold waitLoop at h
    split at h
    · cases h
    · cases h
      exact ⟨rfl, ht⟩
  | cons e events ih =>
    intro op t ht rval op' t' h
    have he : e.wake ≠ .interrupt := hq e (List.mem_cons_self _ _)
    have hrest : ∀ x ∈ events, x.wake ≠ .interrupt :=
      fun x hx => hq x (List.mem_cons_of_mem _ hx)
    have hflag := Thread.waitToEnter_flag t 0 e.wake he
    have hrv := Thread.waitToEnter_rval t 0 e.wake
    rw [hflag, ht] at hrv
    rw [ht] at hflag
    unfold waitLoop at h
    split at h
    · simp only [wait, hrv, Bool.not_true, Bool.false_eq_true, if_false] at h
      exact ih hrest _ _ hflag rval op' t' h
    · cases h
      exact ⟨rfl, ht⟩

end Operation

open Thread Operation

/-- C21.  (1) When `Thread::waitToEnter` returns false (interrupted), the
interrupt flag of the thread is set on return, and the next `waitToEnter` of
the thread, on any monitor and however a wait would end, returns false
without calling `wait` on the monitor.  (2) The same holds when
`Operation::waitFor` returns true (interrupted), interruptible or not.  (3) A
`waitToEnter` whose wait ends without an interrupt (a notification or a
timeout) leaves the flag as it was.  (4) A `waitFor` of a thread that is not
interrupted, none of whose waits ends with an interrupt, returns false and
leaves the flag unset. -/
theorem interrupt_propagates_across_waits :
    (∀ (t : Thread) (m : Nat) (wake : Wake), (t.waitToEnter m wake).rval = false →
        (t.waitToEnter m wake).thread.mInterrupted = true
          ∧ ∀ (m' : Nat) (wake' : Wake),
            ((t.waitToEnter m wake).thread.waitToEnter m' wake').rval = false
              ∧ ((t.waitToEnter m wake).thread.waitToEnter m' wake').waited = false)
      ∧ (∀ (op : Operation) (interruptible : Bool) (events : List WaitEvent) (t : Thread)
          (op' : Operation) (t' : Thread),
          op.waitFor interruptible events t = some (true, op', t') →
            t'.mInterrupted = true
              ∧ ∀ (m' : Nat) (wake' : Wake),
                (t'.waitToEnter m' wake').rval = false
                  ∧ (t'.waitToEnter m' wake').waited = false)
      ∧ (∀ (t : Thread) (m : Nat) (wake : Wake), wake ≠ .interrupt →
          (t.waitToEnter m wake).thread.mInterrupted = t.mInterrupted)
      ∧ (∀ (op : Operation) (interruptible : Bool) (events : List WaitEvent) (t : Thread)
          (rval : Bool) (op' : Operation) (t' : Thread),
          t.mInterrupted = false → (∀ e ∈ events, e.wake ≠ .interrupt) →
          op.waitFor interruptible events t = some (rval, op', t') →
            rval = false ∧ t'.mInterrupted = false) := by
  refine ⟨?_, ?_, ?_, ?_⟩
  · intro t m wake h
    have hf : (t.waitToEnter m wake).thread.mInterrupted = true := by
      have := waitToEnter_rval t m wake
      rw [h] at this
      cases hx : (t.waitToEnter m wake).thread.mInterrupted with
      | true => rfl
      | false => rw [hx] at this; cases this
    exact ⟨hf, fun m' wake' =>
      ⟨(waitToEnter_interrupted _ hf m' wake').1, (waitToEnter_interrupted _ hf m' wake').2.1⟩⟩
  · intro op interruptible events t op' t' h
    have hf : t'.mInterrupted = true := by
      unfold waitFor at h
      cases hl : waitLoop interruptible events op t false with
      | none => rw [hl] at h; cases h
      | some r =>
        obtain ⟨rval, op2, t2⟩ := r
        rw [hl] at h
        simp only [Option.some.injEq, Prod.mk.injEq] at h
        obtain ⟨hr, -, ht⟩ := h
        subst hr
        simp only [if_true] at ht
        rw [← ht]
        exact interrupt_sets_flag t2
    exact ⟨hf, fun m' wake' =>
      ⟨(waitToEnter_interrupted _ hf m' wake').1, (waitToEnter_interrupted _ hf m' wake').2.1⟩⟩
  · exact waitToEnter_flag
  · intro op interruptible events t rval op' t' ht hq h
    unfold waitFor at h
    cases hl : waitLoop interruptible events op t false with
    | none => rw [hl] at h; cases h
    | some r =>
      obtain ⟨rval2, op2, t2⟩ := r
      rw [hl] at h
      obtain ⟨hr2, ht2⟩ := waitLoop_quiet interruptible events hq op t ht rval2 op2 t2 hl
      subst hr2
      simp only [Bool.false_eq_true, if_false, Option.some.injEq, Prod.mk.injEq] at h
      obtain ⟨hr, -, ht'⟩ := h
      exact ⟨hr.symm, by rw [← ht']; exact ht2⟩

/-- C21, witness: a `waitFor(false)` whose first wait is interrupted and whose
second wait ends with the operation stopped returns true with the flag set,
and the next `waitToEnter` returns false without waiting. -/
theorem interrupt_propagates_across_waits_witness :
    Operation.waitFor (Operation.new none none none) false
        [⟨.interrupt, false⟩, ⟨.notified, true⟩] Thread.new
        = some (true, { Operation.new none none none with mStopped := true },
            ⟨true, none, some "Interrupted"⟩)
      ∧ (Thread.waitToEnter ⟨true, none, some "Interrupted"⟩ 5 Wake.timeout).rval = false
      ∧ (Thread.waitToEnter ⟨true, none, some "Interrupted"⟩ 5 Wake.timeout).waited = false :=
  ⟨by rfl,
    (interrupt_propagates_across_waits.2.1 (Operation.new none none none) false
      [⟨.interrupt, false⟩, ⟨.notified, true⟩] Thread.new _ _ (by rfl)).2 5 Wake.timeout⟩

end Monarch
namespace Monarch
namespace Operation

/-- While no wait ends with the operation stopped by another thread, `waitFor`
leaves the operation as it is. -/
theorem waitLoop_unstopped (interruptible : Bool) (wakes : List Wake) :
    ∀ (op : Operation) (t : Thread) (rval : Bool) (r : Bool) (op' : Operation) (t' : Thread),
      waitLoop interruptible (wakes.map fun w => ⟨w, false⟩) op t rval = some (r, op', t') →
        op' = op := by
  induction wakes with
  | nil =>
    intro op t rval r op' t' h
    simp only [List.map_nil] at h
    unfold waitLoop at h
    split at h
    · cases h
    · cases h
      rfl
  | cons w wakes ih =>
    intro op t rval r op' t' h
    simp only [List.map_cons] at h
    unfold waitLoop at h
    split at h
    · simp only [Bool.false_eq_true, if_false] at h
      split at h
      · split at h
        · cases h
          rfl
        · exact ih _ _ _ _ _ _ h
      · exact ih _ _ _ _ _ _ h
    · cases h
      rfl

theorem waitFor_unstopped (op : Operation) (interruptible : Bool) (wakes : List Wake)
    (t : Thread) (r : Bool) (op' : Operation) (t' : Thread)
    (h : op.waitFor interruptible (wakes.map fun w => ⟨w, false⟩) t = some (r, op', t')) :
    op' = op := by
  unfold waitFor at h
  cases hl : waitLoop interruptible (wakes.map fun w => ⟨w, false⟩) op t false with
  | none => rw [hl] at h; cases h
  | some x =>
    obtain ⟨rval, op2, t2⟩ := x
    rw [hl] at h
    simp only [Option.some.injEq, Prod.mk.injEq] at h
    rw [← h.2.1]
    exact waitLoop_unstopped interruptible wakes op t false rval op2 t2 hl

theorem consistent_of_flags (s s' : Lifecycle) (hp : s'.phase = s.phase)
    (h1 : s'.op.mStarted = s.op.mStarted) (h2 : s'.op.mStopped = s.op.mStopped)
    (h3 : s'.op.mFinished = s.op.mFinished) (h4 : s'.op.mCanceled = s.op.mCanceled)
    (hs : Consistent s) : Consistent s' := by
  unfold Consistent at hs ⊢
  rw [hp, h1, h2, h3, h4]
  exact hs

theorem apply_consistent (s s' : Lifecycle) (e : Event) (hs : Consistent s)
    (h : apply s e = some s') : Consistent s' := by
  cases e with
  | interrupt =>
    cases h
    refine consistent_of_flags s _ rfl ?_ ?_ ?_ ?_ hs <;>
      (simp only [interrupt]; split <;> rfl)
  | isInterrupted =>
    cases h
    refine consistent_of_flags s _ rfl ?_ ?_ ?_ ?_ hs <;>
      (simp only [isInterrupted]; split <;> [split <;> rfl; rfl])
  | setMemoryManaged managed =>
    cases h
    exact consistent_of_flags s _ rfl rfl rfl rfl rfl hs
  | waitFor interruptible wakes =>
    cases hw : s.op.waitFor interruptible (wakes.map fun w => ⟨w, false⟩) s.caller with
    | none => simp [apply, hw] at h
    | some x =>
      obtain ⟨r, op2, t2⟩ := x
      simp only [apply, hw, Option.some.injEq] at h
      subst h
      have := waitFor_unstopped s.op interruptible wakes s.caller r op2 t2 hw
      subst this
      exact consistent_of_flags s _ rfl rfl rfl rfl rfl hs
  | queue =>
    obtain ⟨op, phase, caller⟩ := s
    cases phase <;> simp only [apply, Option.some.injEq] at h <;> subst h <;> exact hs
  | dispatch canExecute mustCancelAfterWait worker =>
    obtain ⟨op, phase, caller⟩ := s
    cases phase <;> simp only [apply, Option.some.injEq] at h
    · subst h; exact hs
    · cases canExecute
      · cases mustCancelAfterWait
        · simp only [Bool.false_eq_true, if_false, Option.some.injEq] at h
          subst h; exact hs
        · simp only [Bool.false_eq_true, if_false, if_true, Option.some.injEq] at h
          subst h
          unfold Consistent at hs ⊢
          simp only at hs ⊢
          exact ⟨rfl, Or.inr ⟨rfl, hs.2.2.1, hs.1⟩⟩
      · simp only [if_true, Option.some.injEq] at h
        subst h
        unfold Consistent at hs ⊢
        simp only at hs ⊢
        exact ⟨rfl, hs.2.1, hs.2.2.1, hs.2.2.2⟩
    · subst h; exact hs
    · subst h; exact hs
  | complete =>
    obtain ⟨op, phase, caller⟩ := s
    cases phase <;> simp only [apply, Option.some.injEq] at h
    · subst h; exact hs
    · subst h; exact hs
    · subst h
      unfold Consistent at hs ⊢
      simp only at hs ⊢
      exact ⟨rfl, Or.inl ⟨rfl, hs.2.2.2, hs.1⟩⟩
    · subst h; exact hs

theorem applyAll_consistent (events : List Event) :
    ∀ (s s' : Lifecycle), Consistent s → applyAll s events = some s' → Consistent s' := by
  induction events with
  | nil =>
    intro s s' hs h
    cases h
    exact hs
  | cons e es ih =>
    intro s s' hs h
    unfold applyAll at h
    cases he : apply s e with
    | none => rw [he] at h; cases h
    | some s1 =>
      rw [he] at h
      exact ih s1 s' (apply_consistent s s1 e hs he) h

theorem invariant_of_consistent (s : Lifecycle) (hs : Consistent s) :
    Invariant s.op ∧ ¬ (s.op.finished = true ∧ s.op.canceled = true) := by
  obtain ⟨op, phase, caller⟩ := s
  unfold Consistent at hs
  unfold Invariant finished canceled stopped started
  cases phase <;> simp only at hs ⊢
  · obtain ⟨h1, h2, h3, h4⟩ := hs
    simp [h1, h2, h3, h4]
  · obtain ⟨h1, h2, h3, h4⟩ := hs
    simp [h1, h2, h3, h4]
  · obtain ⟨h1, h2, h3, h4⟩ := hs
    simp [h1, h2, h3, h4]
  · obtain ⟨h2, ⟨h3, h4, h1⟩ | ⟨h4, h3, h1⟩⟩ := hs <;> simp [h1, h2, h3, h4]

end Operation

open Operation

/-- C22.  A newly constructed `Operation` has `started`, `interrupted`,
`stopped`, `finished` and `canceled` all false.  In every state reached from
construction by calls of `interrupt`, `isInterrupted`, `setMemoryManaged` and
`waitFor` and by the transitions of the engine (queue; admit, which starts the
operation; cancel a queued operation; finish a running one), finished implies
stopped, canceled implies stopped and not started, and finished and canceled
are never both true.  The four calls write none of the four flags; a finished
state and a canceled state are both reached. -/
theorem operation_flag_invariants (r g m : Option Nat) :
    ((Operation.new r g m).started = false ∧ (Operation.new r g m).mInterrupted = false
        ∧ (Operation.new r g m).stopped = false ∧ (Operation.new r g m).finished = false
        ∧ (Operation.new r g m).canceled = false)
      ∧ (∀ (caller : Thread) (events : List Event) (s : Lifecycle),
          applyAll ⟨Operation.new r g m, .created, caller⟩ events = some s →
            Invariant s.op ∧ ¬ (s.op.finished = true ∧ s.op.canceled = true))
      ∧ (∃ (events : List Event) (s : Lifecycle),
          applyAll ⟨Operation.new r g m, .created, Thread.new⟩ events = some s
            ∧ s.op.finished = true ∧ s.op.stopped = true ∧ s.op.started = true)
      ∧ (∃ (events : List Event) (s : Lifecycle),
          applyAll ⟨Operation.new r g m, .created, Thread.new⟩ events = some s
            ∧ s.op.canceled = true ∧ s.op.stopped = true ∧ s.op.started = false) := by
  refine ⟨⟨rfl, rfl, rfl, rfl, rfl⟩, ?_, ?_, ?_⟩
  · intro caller events s h
    have h0 : Consistent ⟨Operation.new r g m, .created, caller⟩ := by
      unfold Consistent
      exact ⟨rfl, rfl, rfl, rfl⟩
    exact invariant_of_consistent s (applyAll_consistent events _ s h0 h)
  · exact ⟨[.queue, .dispatch true false Thread.new, .interrupt, .complete,
      .waitFor false []], _, rfl, rfl, rfl, rfl⟩
  · exact ⟨[.queue, .dispatch false true Thread.new, .setMemoryManaged true,
      .waitFor true []], _, rfl, rfl, rfl, rfl⟩

/-- C22, witness: an operation that is queued, admitted, interrupted while it
runs and then finished, and waited for, is finished and stopped: the
invariants hold with a true antecedent. -/
theorem operation_flag_invariants_witness :
    Invariant { Operation.new (some 1) none none with
        mThread := some ⟨true, none, none⟩, mStarted := true, mInterrupted := true,
        mStopped := true, mFinished := true }
      ∧ (Operation.finished { Operation.new (some 1) none none with
        mThread := some ⟨true, none, none⟩, mStarted := true, mInterrupted := true,
        mStopped := true, mFinished := true }) = true :=
  ⟨((operation_flag_invariants (some 1) none none).2.1 Thread.new
    [.queue, .dispatch true false Thread.new, .interrupt, .complete, .waitFor false []]
    ⟨_, .dropped, Thread.new⟩ (by rfl)).1, rfl⟩

end Monarch
namespace Monarch
namespace FiberScheduler

theorem waitForLastFiberExit_mono (n : Nat) :
    ∀ (s r : FiberScheduler), waitForLastFiberExit n s = some r →
      ∀ k, waitForLastFiberExit (n + k) s = some r := by
  induction n with
  | zero =>
    intro s r h k
    unfold waitForLastFiberExit at h
    split at h
    · rename_i he
      cases h
      cases k with
      | zero => simp [waitForLastFiberExit, he]
      | succ k =>
        rw [Nat.zero_add]
        unfold waitForLastFiberExit
        rw [if_pos he]
    · cases h
  | succ n ih =>
    intro s r h k
    unfold waitForLastFiberExit at h
    rw [show n + 1 + k = (n + k) + 1 by omega]
    unfold waitForLastFiberExit
    split at h
    · rename_i he
      rw [if_pos he]
      exact h
    · rename_i he
      rw [if_neg he]
      exact ih _ _ h k

end FiberScheduler

open FiberScheduler

set_option maxRecDepth 100000 in
/-- C23.  On the scheduler of the test (ten fibers `TestFiber(10)`, one
scheduler thread), with fuel for at least 110 quanta,
`waitForLastFiberExit(true)` returns; by then 100 yields have happened, the
ready queue is empty, the ten fibers (ids 1 to 10) are all dead, each left its
loop with `i = 10`, 110 quanta were run, and no fiber had a quantum after the
one in which it exited. -/
theorem ten_fibers_yield_and_exit (fuel : Nat) (hfuel : 110 ≤ fuel) :
    (waitForLastFiberExit fuel tenFibers).map
        (fun s => (s.yields, s.ready, s.dead, s.fibers.map (fun p => (p.1, p.2.i)),
          s.trace.length, noRunAfterExit s.trace))
      = some (100, [], [1, 2, 3, 4, 5, 6, 7, 8, 9, 10],
          [(1, 10), (2, 10), (3, 10), (4, 10), (5, 10), (6, 10), (7, 10), (8, 10), (9, 10),
            (10, 10)],
          110, true) := by
  obtain ⟨k, rfl⟩ : ∃ k, fuel = 110 + k := ⟨fuel - 110, by omega⟩
  have heval : (waitForLastFiberExit 110 tenFibers).map
        (fun s => (s.yields, s.ready, s.dead, s.fibers.map (fun p => (p.1, p.2.i)),
          s.trace.length, noRunAfterExit s.trace))
      = some (100, [], [1, 2, 3, 4, 5, 6, 7, 8, 9, 10],
          [(1, 10), (2, 10), (3, 10), (4, 10), (5, 10), (6, 10), (7, 10), (8, 10), (9, 10),
            (10, 10)],
          110, true) := by rfl
  cases h : waitForLastFiberExit 110 tenFibers with
  | none => rw [h] at heval; cases heval
  | some r =>
    rw [waitForLastFiberExit_mono 110 _ r h k]
    rw [h] at heval
    exact heval

/-- C23, witness: 110 quanta are enough. -/
theorem ten_fibers_yield_and_exit_witness :
    (waitForLastFiberExit 110 tenFibers).map
        (fun s => (s.yields, s.ready, s.dead, s.fibers.map (fun p => (p.1, p.2.i)),
          s.trace.length, noRunAfterExit s.trace))
      = some (100, [], [1, 2, 3, 4, 5, 6, 7, 8, 9, 10],
          [(1, 10), (2, 10), (3, 10), (4, 10), (5, 10), (6, 10), (7, 10), (8, 10), (9, 10),
            (10, 10)],
          110, true) :=
  ten_fibers_yield_and_exit 110 (by decide)

end Monarch
namespace Monarch

open HttpConnectionServicer

/-- C24, what the code does.  When receiving the request header fails and the
failure is not answered with 400 Bad Request, `serviceConnection` sends the 500
Internal Server Error response exactly when the last exception exists, is not
an interruption and is a socket error; in every other case, an exception that
is neither an interruption nor a socket error included, it sends nothing. -/
theorem serviceConnection_sends_500_only_for_socket_error {σ ε : Type} (rt : Runtime ε)
    (mSecureServicers mNonSecureServicers : String → Option σ) (fuel : Nat)
    (e : ε) (last : Option ε) (version : String) (path : List Char) (secure : Bool)
    (hbad : rt.strcmp (rt.getCode e) "db.net.http.BadRequest" ≠ 1) :
    (∀ x, last = some x → rt.isInterruptedException x = false → rt.isSocketException x = true →
        serviceConnection rt mSecureServicers mNonSecureServicers fuel (some e) last version
          path secure = .done (.status 500 38))
      ∧ (∀ x, last = some x → rt.isSocketException x = false →
        serviceConnection rt mSecureServicers mNonSecureServicers fuel (some e) last version
          path secure = .done .nothing)
      ∧ (∀ x, last = some x → rt.isInterruptedException x = true →
        serviceConnection rt mSecureServicers mNonSecureServicers fuel (some e) last version
          path secure = .done .nothing)
      ∧ (last = none →
        serviceConnection rt mSecureServicers mNonSecureServicers fuel (some e) last version
          path secure = .done .nothing) := by
  refine ⟨?_, ?_, ?_, ?_⟩
  · intro x hx hi hs
    subst hx
    simp [serviceConnection, hbad, errorResponse, hi, hs]
  · intro x hx hs
    subst hx
    simp [serviceConnection, hbad, errorResponse, hs]
  · intro x hx hi
    subst hx
    simp [serviceConnection, hbad, errorResponse, hi]
  · intro hx
    subst hx
    simp [serviceConnection, hbad, errorResponse]

/-- C24, witness: a failure whose last exception is a socket error is answered
with the 500 response. -/
theorem serviceConnection_sends_500_only_for_socket_error_witness :
    serviceConnection kindRuntime onlyA onlyA 0 (some ExceptionKind.socket)
        (some ExceptionKind.socket) "HTTP/1.1" [] false = .done (.status 500 38) :=
  (serviceConnection_sends_500_only_for_socket_error kindRuntime onlyA onlyA 0
    ExceptionKind.socket (some ExceptionKind.socket) "HTTP/1.1" [] false (by decide)).1
    ExceptionKind.socket rfl rfl rfl

/-- C24, failing inputs: a last exception that is neither an interruption nor a
socket error gets no response, and a socket error gets the 500 response. -/
theorem serviceConnection_error_branch_inverted :
    serviceConnection kindRuntime onlyA onlyA 0 (some ExceptionKind.other)
        (some ExceptionKind.other) "HTTP/1.1" [] false = .done .nothing
      ∧ serviceConnection kindRuntime onlyA onlyA 0 (some ExceptionKind.socket)
        (some ExceptionKind.socket) "HTTP/1.1" [] false = .done (.status 500 38) :=
  ⟨by rfl, by rfl⟩

end Monarch
namespace Monarch
namespace HttpConnection

theorem unspecifiedLoop_numBytes (length : Nat) (is : List (Nat → Int))
    (h : ∀ r ∈ is, ∀ n, r n ≠ -1) :
    ∀ (os : List Bool) (rval : Bool) (numBytes : Int), numBytes ≠ -1 →
      (unspecifiedLoop length is os rval numBytes).2 ≠ -1 := by
  induction is with
  | nil =>
    intro os rval numBytes hn
    unfold unspecifiedLoop
    split <;> simp [hn]
  | cons r is ih =>
    intro os rval numBytes hn
    have hr : ∀ n, r n ≠ -1 := h r (List.mem_cons_self _ _)
    have his : ∀ x ∈ is, ∀ n, x n ≠ -1 := fun x hx => h x (List.mem_cons_of_mem _ hx)
    unfold unspecifiedLoop
    split
    · split
      · exact ih his _ _ _ (hr _)
      · exact hr _
    · exact hn

theorem specifiedLoop_numBytes (length : Nat) (is : List (Nat → Int))
    (h : ∀ r ∈ is, ∀ n, r n ≠ -1) :
    ∀ (os : List Bool) (rval : Bool) (contentRemaining readSize : Nat) (numBytes : Int),
      numBytes ≠ -1 →
      (specifiedLoop length is os rval contentRemaining readSize numBytes).2.2 ≠ -1 := by
  induction is with
  | nil =>
    intro os rval contentRemaining readSize numBytes hn
    unfold specifiedLoop
    split <;> simp [hn]
  | cons r is ih =>
    intro os rval contentRemaining readSize numBytes hn
    have hr : ∀ n, r n ≠ -1 := h r (List.mem_cons_self _ _)
    have his : ∀ x ∈ is, ∀ n, x n ≠ -1 := fun x hx => h x (List.mem_cons_of_mem _ hx)
    unfold specifiedLoop
    split
    · split
      · split
        · exact ih his _ _ _ _ _ (hr _)
        · exact ih his _ _ _ _ _ (hr _)
      · exact hr _
    · exact hn

end HttpConnection

open HttpConnection

/-- C25, what the code does.  The last statement of `sendBody` overwrites the
return value with `numBytes != -1`: whenever no read of the input stream fails
with `-1`, `sendBody` returns true, whatever the `Content-Length`, however
early the stream ends and whether or not a write failed. -/
theorem sendBody_true_without_read_error (contentLength : Option Int) (interrupted : Bool)
    (is : List (Nat → Int)) (os : List Bool) (h : ∀ r ∈ is, ∀ n, r n ≠ -1) :
    (sendBody contentLength interrupted is os).1 = true := by
  unfold sendBody
  simp only
  split
  · simpa using unspecifiedLoop_numBytes 2048 is h os true 0 (by decide)
  · simpa using specifiedLoop_numBytes 2048 is h os true _ _ 0 (by decide)

/-- C25, witness and first failing input: with `Content-Length: 10` and an
input stream that is at its end, `sendBody` sets the exception "Could not read
HTTP content bytes to send." and returns true. -/
theorem sendBody_true_without_read_error_witness :
    (sendBody (some 10) false [] []).1 = true
      ∧ (sendBody (some 10) false [] []).2
        = some "Could not read HTTP content bytes to send." :=
  ⟨sendBody_true_without_read_error (some 10) false [] [] (by simp), by rfl⟩

/-- C25, second failing input: with `Content-Length: 10`, ten bytes read and
the write of them failing, `sendBody` returns true; the sibling `receiveBody`
returns false on the same failure. -/
theorem sendBody_true_after_failed_write :
    (sendBody (some 10) false [fun _ => 10] [false]).1 = true
      ∧ receiveBody 2048 [fun _ => 10] [false] true = false :=
  ⟨by rfl, by rfl⟩

end Monarch
namespace Monarch

open BlockCipherInputStream

/-- C26, what the code does.  `read` calls the underlying stream once and
returns what the cipher made of it: when the read buffer is empty, the cipher
not finished, the underlying stream delivers a non-empty chunk and the cipher's
update emits no output for the bytes read, `read` returns 0 although the
cipher has not been finished, and the stream goes on with what the underlying
stream has left. -/
theorem read_returns_zero_before_end {κ : Type} (c : BlockCipher κ) (k k' : κ)
    (chunk : List Nat) (rest : List (Option (List Nat))) (length : Nat)
    (hchunk : chunk ≠ []) (hlength : 0 < length)
    (hupdate : c.updateRaw k (chunk.take length) = some ([], k')) :
    (read c ⟨some chunk :: rest, [], some k, false⟩ length).1 = 0
      ∧ (read c ⟨some chunk :: rest, [], some k, false⟩ length).2.2.mCipherFinished = false
      ∧ (read c ⟨some chunk :: rest, [], some k, false⟩ length).2.2.mInputStream
          = if chunk.length ≤ length then rest else some (chunk.drop length) :: rest := by
  have hpos : 0 < chunk.length := List.length_pos.mpr hchunk
  by_cases hle : chunk.length ≤ length
  · have htake : chunk.take length = chunk := List.take_of_length_le hle
    rw [htake] at hupdate
    have hc : (0 : Int) < (chunk.length : Int) := by exact_mod_cast hpos
    have hc' : (0 : Int) ≤ (chunk.length : Int) := le_of_lt hc
    simp [BlockCipherInputStream.read, readUnderlying, bufferGet, hle, BlockCipher.update, hupdate,
      hc, hc']
  · have hl : (0 : Int) < (length : Int) := by exact_mod_cast hlength
    have hl' : (0 : Int) ≤ (length : Int) := le_of_lt hl
    simp [BlockCipherInputStream.read, readUnderlying, bufferGet, hle, BlockCipher.update, hupdate,
      hl, hl']

/-- C26, witness: over a cipher with blocks of four bytes, a first read that
finds two bytes in the underlying stream returns 0. -/
theorem read_returns_zero_before_end_witness :
    (read blockBuffer shortReadStream 16).1 = 0
      ∧ (read blockBuffer shortReadStream 16).2.2.mCipherFinished = false
      ∧ (read blockBuffer shortReadStream 16).2.2.mInputStream
          = if [1, 2].length ≤ 16 then [some [3, 4, 5, 6, 7, 8]]
            else some (List.drop 16 [1, 2]) :: [some [3, 4, 5, 6, 7, 8]] :=
  read_returns_zero_before_end blockBuffer [] [1, 2] [1, 2] [some [3, 4, 5, 6, 7, 8]] 16
    (by decide) (by decide) (by rfl)

/-- C26, failing input: the stream of `shortReadStream` returns 0 on its first
read, with six bytes left in the underlying stream and the cipher not
finished; its second read returns eight bytes. -/
theorem read_zero_then_eight_bytes :
    (read blockBuffer shortReadStream 16).1 = 0
      ∧ hasBytes (read blockBuffer shortReadStream 16).2.2.mInputStream = true
      ∧ (read blockBuffer shortReadStream 16).2.2.mCipherFinished = false
      ∧ (read blockBuffer (read blockBuffer shortReadStream 16).2.2 16).1 = 8
      ∧ (read blockBuffer (read blockBuffer shortReadStream 16).2.2 16).2.1
          = [1, 2, 3, 4, 5, 6, 7, 8] :=
  ⟨by rfl, by rfl, by rfl, by rfl, by rfl⟩

end Monarch
namespace Monarch
namespace HttpConnectionServicer

open ConfigManager (rfind rfindBelow matchesAt npos)

theorem matchesAt_slash_here (a t : List Char) :
    matchesAt (a ++ '/' :: t) ['/'] a.length = true := by
  simp [matchesAt]

theorem matchesAt_slash_after (a t : List Char) (ht : '/' ∉ t) (i : Nat)
    (hi : a.length < i) : matchesAt (a ++ '/' :: t) ['/'] i = false := by
  obtain ⟨j, rfl⟩ : ∃ j, i = a.length + (j + 1) := ⟨i - a.length - 1, by omega⟩
  have hd : List.drop (a.length + (j + 1)) (a ++ '/' :: t) = List.drop j t := by
    rw [List.drop_append]
    simp
  unfold matchesAt
  rw [hd]
  cases hj : List.drop j t with
  | nil => rfl
  | cons c r =>
    have hc : c ∈ t := List.mem_of_mem_drop (by rw [hj]; exact List.mem_cons_self _ _)
    have hne : c ≠ '/' := fun h => ht (h ▸ hc)
    simp [hne]

theorem rfindBelow_slash (a t : List Char) (ht : '/' ∉ t) :
    ∀ n, a.length < n → rfindBelow (a ++ '/' :: t) ['/'] n = a.length := by
  intro n
  induction n with
  | zero => intro h; omega
  | succ i ih =>
    intro h
    unfold rfindBelow
    by_cases hi : i = a.length
    · subst hi
      rw [matchesAt_slash_here]
      rfl
    · rw [matchesAt_slash_after a t ht i (by omega)]
      simpa using ih (by omega)

theorem rfind_slash (a t : List Char) (ht : '/' ∉ t) :
    rfind ⟨a ++ '/' :: t⟩ "/" = a.length := by
  unfold rfind
  have h1 : ("/" : String).length = 1 := rfl
  have h2 : (String.mk (a ++ '/' :: t)).length = a.length + t.length + 1 := by
    simp [String.length]
    omega
  have h3 : ("/" : String).data = ['/'] := rfl
  rw [h1, h2, h3]
  rw [if_pos (by omega)]
  exact rfindBelow_slash a t ht _ (by omega)

end HttpConnectionServicer
end Monarch
namespace Monarch
namespace HttpConnectionServicer

open ConfigManager (rfind)

theorem rev_induct {α : Type} {P : List α → Prop} (h0 : P [])
    (h1 : ∀ l a, P l → P (l ++ [a])) : ∀ l, P l :=
  fun l => List.reverseRecOn l h0 h1

theorem joined_append (pre : List (List Char)) (s : List Char) :
    joined (pre ++ [s]) = joined pre ++ '/' :: s := by
  induction pre with
  | nil => simp [joined]
  | cons x xs ih => simp [joined, ih]

theorem ancestorsBelow_append (pre : List (List Char)) (s : List Char) :
    ∀ k, k ≤ pre.length + 1 → ancestorsBelow (pre ++ [s]) k = ancestorsBelow pre k := by
  intro k
  induction k with
  | zero => intro _; rfl
  | succ k ih =>
    intro hk
    unfold ancestorsBelow
    rw [ih (by omega), List.take_append_of_le_length (by omega)]

theorem eraseLast_append (a : List Char) (c : Char) : eraseLast (a ++ [c]) = some a := by
  have hl : (a ++ [c]).length = a.length + 1 := by simp
  unfold eraseLast erase
  rw [hl, if_neg (show ¬ a.length + 1 = 0 by omega),
    if_neg (show ¬ a.length + 1 - 1 > a.length + 1 by omega)]
  simp

theorem eraseLast_of_ne_nil (p : List Char) (hne : p ≠ []) :
    eraseLast p = some p.dropLast := by
  have h := List.dropLast_append_getLast hne
  have := eraseLast_append p.dropLast (p.getLast hne)
  rw [h] at this
  exact this

theorem parentLoop_nil {σ : Type} (servicerMap : String → Option σ) (fuel : Nat) :
    parentLoop servicerMap fuel [] = .done none := by
  cases fuel with
  | zero => rfl
  | succ f => rfl

/-- One iteration of the loop of `findRequestServicer`. -/
theorem parentLoop_succ {σ : Type} (servicerMap : String → Option σ) (fuel : Nat)
    (path : List Char) :
    parentLoop servicerMap (fuel + 1) path =
      if path.length > 0 then
        match servicerMap ⟨parentPath path⟩ with
        | some s => .done (some s)
        | none =>
          match eraseLast (parentPath path) with
          | none => .fault
          | some path => parentLoop servicerMap fuel path
      else .done none := by
  rw [parentLoop]

/-- The parent of a path is what stands before its last slash, `/` if that is
nothing. -/
theorem parentPath_slash (a t : List Char) (ht : '/' ∉ t) :
    parentPath (a ++ '/' :: t) = if a.length = 0 then ['/'] else a := by
  unfold parentPath
  simp only [rfind_slash a t ht, List.take_left]
  split
  · rename_i h
    rw [List.eq_nil_of_length_eq_zero h]
    rfl
  · rfl

/-- The loop, entered at the path `/s1/.../sk/t` with a slash-free rest `t`,
looks up `/s1/.../sk`, then its ancestors up to the root. -/
theorem parentLoop_spec {σ : Type} (servicerMap : String → Option σ) (pre : List (List Char)) :
    (∀ s ∈ pre, IsSegment s) → ∀ (t : List Char), '/' ∉ t → ∀ fuel : Nat,
      (joined pre ++ '/' :: t).length ≤ fuel →
      parentLoop servicerMap fuel (joined pre ++ '/' :: t)
        = .done (firstRegistered servicerMap (ancestorsBelow pre (pre.length + 1))) := by
  induction pre using rev_induct with
  | h0 =>
    intro _ t ht fuel hfuel
    obtain ⟨f, rfl⟩ : ∃ f, fuel = f + 1 := ⟨fuel - 1, by simp at hfuel; omega⟩
    have hp := parentPath_slash [] t ht
    simp only [List.nil_append, List.length_nil, if_true] at hp
    simp only [joined, List.nil_append]
    rw [parentLoop_succ, if_pos (by simp), hp]
    simp only [ancestorsBelow, List.take_nil, ancestorKey, List.isEmpty_nil, if_true,
      firstRegistered, List.length_nil, List.take_zero]
    cases hm : servicerMap ⟨['/']⟩ with
    | some s => rfl
    | none =>
      have he : eraseLast ['/'] = some [] := eraseLast_append [] '/'
      simp only [he]
      exact parentLoop_nil servicerMap f
  | h1 pre s ih =>
    intro hsegs t ht fuel hfuel
    have hs : IsSegment s := hsegs s (by simp)
    have hpre : ∀ x ∈ pre, IsSegment x := fun x hx => hsegs x (by simp [hx])
    rw [joined_append] at hfuel ⊢
    generalize ha : joined pre ++ '/' :: s = a at hfuel ⊢
    have hal : a.length = (joined pre).length + s.length + 1 := by
      rw [← ha]; simp; omega
    obtain ⟨f, rfl⟩ : ∃ f, fuel = f + 1 := ⟨fuel - 1, by simp at hfuel; omega⟩
    have hp := parentPath_slash a t ht
    rw [if_neg (show ¬ a.length = 0 by omega)] at hp
    rw [parentLoop_succ, if_pos (by simp), hp]
    have hanc : ancestorsBelow (pre ++ [s]) ((pre ++ [s]).length + 1)
        = a :: ancestorsBelow pre (pre.length + 1) := by
      have h1 : (pre ++ [s]).length = pre.length + 1 := by simp
      rw [h1]
      conv => lhs; unfold ancestorsBelow
      rw [ancestorsBelow_append pre s _ (Nat.le_refl _)]
      have h2 : List.take (pre.length + 1) (pre ++ [s]) = pre ++ [s] :=
        List.take_of_length_le (by simp)
      rw [h2]
      have h3 : ancestorKey (pre ++ [s]) = a := by
        unfold ancestorKey
        rw [if_neg (by simp), joined_append, ha]
      rw [h3]
    rw [hanc]
    simp only [firstRegistered]
    cases hm : servicerMap ⟨a⟩ with
    | some x => rfl
    | none =>
      obtain ⟨s0, c, hsc⟩ : ∃ s0 c, s = s0 ++ [c] :=
        ⟨s.dropLast, s.getLast hs.1, (List.dropLast_append_getLast hs.1).symm⟩
      have hadrop : a = (joined pre ++ '/' :: s0) ++ [c] := by
        rw [← ha, hsc]; simp
      have he : eraseLast a = some (joined pre ++ '/' :: s0) := by
        rw [hadrop]; exact eraseLast_append _ c
      simp only [he]
      have hs0 : '/' ∉ s0 := fun h => hs.2 (by rw [hsc]; simp [h])
      have hl0 : (joined pre ++ '/' :: s0).length + 1 = a.length := by
        rw [hadrop]; simp only [List.length_append, List.length_cons, List.length_nil]
      refine ih hpre s0 hs0 f ?_
      simp at hfuel; omega

/-- The loop of `findRequestServicer` returns, without an `std::out_of_range`,
once the fuel is the length of the path. -/
theorem parentLoop_returns {σ : Type} (servicerMap : String → Option σ) :
    ∀ (fuel : Nat) (path : List Char), path.length ≤ fuel →
      ∃ r, parentLoop servicerMap fuel path = .done r := by
  intro fuel
  induction fuel with
  | zero =>
    intro path hfuel
    have : path = [] := List.eq_nil_of_length_eq_zero (by omega)
    subst this
    exact ⟨none, rfl⟩
  | succ fuel ih =>
    intro path hfuel
    rw [parentLoop_succ]
    by_cases hp : path.length > 0
    · rw [if_pos hp]
      have hqne : parentPath path ≠ [] := by
        unfold parentPath
        simp only
        split
        · simp
        · rename_i h
          exact fun h0 => h (by rw [h0]; rfl)
      have hqlen : (parentPath path).length ≤ path.length := by
        unfold parentPath
        simp only
        split
        · rename_i h
          rw [List.eq_nil_of_length_eq_zero h]
          simp
          omega
        · rw [List.length_take]
          exact Nat.min_le_right _ _
      generalize parentPath path = q at hqne hqlen
      cases hm : servicerMap ⟨q⟩ with
      | some s => exact ⟨some s, rfl⟩
      | none =>
        simp only
        rw [eraseLast_of_ne_nil q hqne]
        simp only
        have hd : q.dropLast.length + 1 = q.length := by
          rw [List.length_dropLast]
          have := List.length_pos.mpr hqne
          omega
        exact ih q.dropLast (by omega)
    · rw [if_neg hp]
      exact ⟨none, rfl⟩

/-- On every non-empty path, so on every normalized path, `findRequestServicer`
returns without an `std::out_of_range` once the fuel is the length of the
path. -/
theorem findRequestServicer_returns {σ : Type} (servicerMap : String → Option σ)
    (path : List Char) (hne : path ≠ []) (fuel : Nat) (hfuel : path.length ≤ fuel) :
    ∃ r, findRequestServicer fuel path servicerMap = .done r := by
  unfold findRequestServicer
  cases hm : servicerMap ⟨path⟩ with
  | some s => exact ⟨some s, rfl⟩
  | none =>
    simp only
    rw [eraseLast_of_ne_nil path hne]
    simp only
    have hd : path.dropLast.length ≤ path.length := by
      rw [List.length_dropLast]
      omega
    exact parentLoop_returns servicerMap fuel path.dropLast (by omega)

end HttpConnectionServicer
end Monarch
namespace Monarch

open HttpConnectionServicer

/-- C27, for paths without an empty segment.  For every list of non-empty,
slash-free segments, every servicer map and every fuel that is at least the
length of the path `/s1/.../sn/`, `findRequestServicer` returns (no `std::out_of_range`, no exhausted fuel) the
servicer registered under the path if there is one, else the servicer of the
nearest registered ancestor, the ancestors being looked up without a trailing
slash and the root as `/`; it returns `NULL` exactly when neither the path nor
any ancestor is registered. -/
theorem findRequestServicer_nearest_ancestor {σ : Type} (servicerMap : String → Option σ)
    (segs : List (List Char)) (hsegs : ∀ s ∈ segs, IsSegment s) (fuel : Nat)
    (hfuel : (render segs).length ≤ fuel) :
    findRequestServicer fuel (render segs) servicerMap
        = .done (nearestRegistered servicerMap segs)
      ∧ (nearestRegistered servicerMap segs = none ↔
          servicerMap ⟨render segs⟩ = none ∧ ∀ k ∈ ancestors segs, servicerMap ⟨k⟩ = none) := by
  have hfirst : ∀ ks : List (List Char),
      firstRegistered servicerMap ks = none ↔ ∀ k ∈ ks, servicerMap ⟨k⟩ = none := by
    intro ks
    induction ks with
    | nil => simp [firstRegistered]
    | cons k ks ih =>
      unfold firstRegistered
      cases hk : servicerMap ⟨k⟩ with
      | some s => simp [hk]
      | none => simp [hk, ih]
  refine ⟨?_, ?_⟩
  · unfold findRequestServicer nearestRegistered
    simp only [firstRegistered]
    cases hm : servicerMap ⟨render segs⟩ with
    | some s => rfl
    | none =>
      have he : eraseLast (render segs) = some (joined segs) := eraseLast_append _ _
      simp only [he]
      rcases List.eq_nil_or_concat segs with hnil | ⟨pre, s, hps⟩
      · subst hnil
        exact parentLoop_nil servicerMap fuel
      · rw [List.concat_eq_append] at hps
        subst hps
        have hs : IsSegment s := hsegs s (by simp)
        have hpre : ∀ x ∈ pre, IsSegment x := fun x hx => hsegs x (by simp [hx])
        have hl : (render (pre ++ [s])).length = (joined pre ++ '/' :: s).length + 1 := by
          unfold render
          rw [joined_append]
          simp only [List.length_append, List.length_cons, List.length_nil]
        rw [joined_append]
        rw [parentLoop_spec servicerMap pre hpre s hs.2 fuel (by omega)]
        unfold ancestors
        have h1 : (pre ++ [s]).length = pre.length + 1 := by simp
        rw [h1, ancestorsBelow_append pre s _ (Nat.le_refl _)]
  · unfold nearestRegistered
    rw [hfirst]
    simp

/-- C27, witness: `/docs/api/` with `/` and `/docs` registered is served by the
servicer of `/docs`. -/
theorem findRequestServicer_nearest_ancestor_witness :
    findRequestServicer 10 "/docs/api/".data rootAndDocs = .done (some 2) :=
  (findRequestServicer_nearest_ancestor rootAndDocs ["docs".data, "api".data]
    (by
      intro s hs
      simp only [List.mem_cons, List.mem_singleton, List.not_mem_nil, or_false] at hs
      rcases hs with rfl | rfl <;> exact ⟨by decide, by decide⟩)
    10 (by decide)).1

/-- C27, failing input: on the normalized path `/a//b/` with a servicer
registered under `/a` only, `findRequestServicer` looks up `/a//b/`, `/a/` and
`/` and returns `NULL`, although the ancestor `/a` is registered. -/
theorem findRequestServicer_skips_registered_ancestor :
    normalizePath "/a//b/".data = "/a//b/".data
      ∧ render ["a".data, [], "b".data] = "/a//b/".data
      ∧ "/a".data ∈ ancestors ["a".data, [], "b".data]
      ∧ onlyA "/a" = some 7
      ∧ nearestRegistered onlyA ["a".data, [], "b".data] = some 7
      ∧ findRequestServicer 6 "/a//b/".data onlyA = .done none := by
  refine ⟨by rfl, by rfl, by decide, by rfl, by rfl, by rfl⟩

end Monarch
namespace Monarch
namespace FrameHeader

theorem or_shift_eq_add (a b k : Nat) (h : b < 2 ^ k) : (a <<< k) ||| b = a * 2 ^ k + b := by
  rw [Nat.shiftLeft_eq, Nat.mul_comm a, Nat.mul_add_lt_is_or h]

theorem and_255 (x : Nat) : x &&& 0xFF = x % 256 := by
  have h := Nat.and_pow_two_sub_one_eq_mod x 8
  simpa using h

theorem bytes_to_bits (b0 b1 b2 b3 : Nat) (rest : List Nat) :
    (List.range 4).foldl
        (fun rval i => rval ||| ((((b0 :: b1 :: b2 :: b3 :: rest).getD i 0) &&& 0xFF)
          <<< ((3 - i) * 8))) 0
      = b0 % 256 * 2 ^ 24 + b1 % 256 * 2 ^ 16 + b2 % 256 * 2 ^ 8 + b3 % 256 := by
  have hr : List.range 4 = [0, 1, 2, 3] := by decide
  rw [hr]
  simp only [List.foldl_cons, List.foldl_nil, List.getD_cons_zero, List.getD_cons_succ, and_255]
  have h3 : b3 % 256 < 2 ^ 8 := Nat.mod_lt _ (by norm_num)
  have h2 : b2 % 256 < 2 ^ 8 := Nat.mod_lt _ (by norm_num)
  have h1 : b1 % 256 < 2 ^ 8 := Nat.mod_lt _ (by norm_num)
  have e3 : (b3 % 256) <<< ((3 - 3) * 8) = b3 % 256 := by simp
  have e2 : (b2 % 256) <<< ((3 - 2) * 8) ||| b3 % 256 = b2 % 256 * 2 ^ 8 + b3 % 256 :=
    or_shift_eq_add _ _ 8 h3
  have e1 : (b1 % 256) <<< ((3 - 1) * 8) ||| (b2 % 256 * 2 ^ 8 + b3 % 256)
      = b1 % 256 * 2 ^ 16 + (b2 % 256 * 2 ^ 8 + b3 % 256) :=
    or_shift_eq_add _ _ 16 (by omega)
  have e0 : (b0 % 256) <<< ((3 - 0) * 8)
        ||| (b1 % 256 * 2 ^ 16 + (b2 % 256 * 2 ^ 8 + b3 % 256))
      = b0 % 256 * 2 ^ 24 + (b1 % 256 * 2 ^ 16 + (b2 % 256 * 2 ^ 8 + b3 % 256)) :=
    or_shift_eq_add _ _ 24 (by omega)
  rw [Nat.zero_or, Nat.or_assoc, Nat.or_assoc, e3, e2, e1, e0]
  omega

theorem int_bytes (integer : Int) :
    convertIntToBytes integer
      = [toBits integer / 2 ^ 24 % 256, toBits integer / 2 ^ 16 % 256,
          toBits integer / 2 ^ 8 % 256, toBits integer % 256] := by
  have hr : List.range 4 = [0, 1, 2, 3] := by decide
  unfold convertIntToBytes toBits
  rw [hr]
  simp only [List.map, Int.shiftRight_eq_div_pow]
  norm_num
  refine ⟨?_, ?_, ?_, ?_⟩ <;> omega

theorem int_round_trip (integer : Int) (hlo : -2 ^ 31 ≤ integer) (hhi : integer < 2 ^ 31)
    (rest : List Nat) : convertBytesToInt (convertIntToBytes integer ++ rest) = integer := by
  rw [int_bytes]
  unfold convertBytesToInt
  simp only [List.cons_append, List.nil_append]
  rw [bytes_to_bits]
  unfold ofBits toBits
  norm_num at hlo hhi ⊢
  split <;> omega

theorem flags1_round_trip (g h : FrameHeader) :
    (g.setFlags1 h.getFlagByte1).mTagAlteredDiscardFrame = h.mTagAlteredDiscardFrame
      ∧ (g.setFlags1 h.getFlagByte1).mFileAlteredDiscardFrame = h.mFileAlteredDiscardFrame
      ∧ (g.setFlags1 h.getFlagByte1).mReadOnly = h.mReadOnly := by
  obtain ⟨mId, size, f1, f2, f3, f4, f5, f6⟩ := h
  cases f1 <;> cases f2 <;> cases f3 <;>
    simp [setFlags1, getFlagByte1, TAG_ALTERED_DISCARD_FRAME_BIT,
      FILE_ALTERED_DISCARD_FRAME_BIT, READ_ONLY_BIT] <;> decide

theorem flags2_round_trip (g h : FrameHeader) :
    (g.setFlags2 h.getFlagByte2).mCompressed = h.mCompressed
      ∧ (g.setFlags2 h.getFlagByte2).mEncrypted = h.mEncrypted
      ∧ (g.setFlags2 h.getFlagByte2).mGrouped = h.mGrouped := by
  obtain ⟨mId, size, f1, f2, f3, f4, f5, f6⟩ := h
  cases f4 <;> cases f5 <;> cases f6 <;>
    simp [setFlags2, getFlagByte2, COMPRESSION_BIT, ENCRYPTION_BIT, GROUPING_BIT] <;> decide

theorem strncpy_four (id rest : List Nat) (hid : id.length = 4) (hnul : ∀ c ∈ id, c ≠ 0) :
    strncpy (id ++ rest) 4 = id := by
  have htw : (List.takeWhile (fun c => c != 0) (id ++ rest)).take 4 = id := by
    match id, hid, hnul with
    | [a, b, c, d], _, hnul =>
      have ha : (a != 0) = true := bne_iff_ne.mpr (hnul a (by simp))
      have hb : (b != 0) = true := bne_iff_ne.mpr (hnul b (by simp))
      have hc : (c != 0) = true := bne_iff_ne.mpr (hnul c (by simp))
      have hd : (d != 0) = true := bne_iff_ne.mpr (hnul d (by simp))
      simp only [List.cons_append, List.takeWhile, ha, hb, hc, hd]
      rfl
  unfold strncpy
  rw [htw, hid]
  simp

end FrameHeader

open FrameHeader

/-- C28.  For every `FrameHeader` whose id has four characters (none of them
NUL) and whose frame size is an `int` of 32 bits, whatever its six flags:
`convertToBytes` writes ten bytes, the bytes 4 to 7 being the frame size with
its most significant byte first, and `convertFromBytes` of these bytes on any
other `FrameHeader` gives a header with the same id, frame size and six
flags. -/
theorem frame_header_round_trip (h g : FrameHeader) (hid : h.mId.length = 4)
    (hnul : ∀ c ∈ h.mId, c ≠ 0) (hlo : -2 ^ 31 ≤ h.mFrameSize) (hhi : h.mFrameSize < 2 ^ 31) :
    g.convertFromBytes h.convertToBytes = h
      ∧ h.convertToBytes.length = 10
      ∧ (h.convertToBytes.drop 4).take 4
        = [toBits h.mFrameSize / 2 ^ 24 % 256, toBits h.mFrameSize / 2 ^ 16 % 256,
            toBits h.mFrameSize / 2 ^ 8 % 256, toBits h.mFrameSize % 256] := by
  obtain ⟨mId, size, f1, f2, f3, f4, f5, f6⟩ := h
  simp only at hid hnul hlo hhi
  have htake : mId.take 4 = mId := List.take_of_length_le (by omega)
  have hbytes : convertToBytes ⟨mId, size, f1, f2, f3, f4, f5, f6⟩
      = mId ++ (convertIntToBytes size
          ++ [getFlagByte1 ⟨mId, size, f1, f2, f3, f4, f5, f6⟩,
              getFlagByte2 ⟨mId, size, f1, f2, f3, f4, f5, f6⟩]) := by
    simp [convertToBytes, getId, getFrameSize, htake]
  have hdrop : (mId ++ (convertIntToBytes size
          ++ [getFlagByte1 ⟨mId, size, f1, f2, f3, f4, f5, f6⟩,
              getFlagByte2 ⟨mId, size, f1, f2, f3, f4, f5, f6⟩])).drop 4
      = convertIntToBytes size
          ++ [getFlagByte1 ⟨mId, size, f1, f2, f3, f4, f5, f6⟩,
              getFlagByte2 ⟨mId, size, f1, f2, f3, f4, f5, f6⟩] := by
    rw [← hid]; exact List.drop_left _ _
  refine ⟨?_, ?_, ?_⟩
  · rw [hbytes]
    unfold convertFromBytes
    simp only [setId, setFrameSize, hdrop]
    rw [strncpy_four mId _ hid hnul, int_round_trip size hlo hhi]
    have hid2 : strncpy mId 4 = mId := by
      have := strncpy_four mId [] hid hnul
      simpa using this
    rw [hid2]
    have h8 : (mId ++ (convertIntToBytes size
          ++ [getFlagByte1 ⟨mId, size, f1, f2, f3, f4, f5, f6⟩,
              getFlagByte2 ⟨mId, size, f1, f2, f3, f4, f5, f6⟩])).getD 8 0
        = getFlagByte1 ⟨mId, size, f1, f2, f3, f4, f5, f6⟩ := by
      rw [int_bytes]
      match mId, hid with
      | [a, b, c, d], _ => rfl
    have h9 : (mId ++ (convertIntToBytes size
          ++ [getFlagByte1 ⟨mId, size, f1, f2, f3, f4, f5, f6⟩,
              getFlagByte2 ⟨mId, size, f1, f2, f3, f4, f5, f6⟩])).getD 9 0
        = getFlagByte2 ⟨mId, size, f1, f2, f3, f4, f5, f6⟩ := by
      rw [int_bytes]
      match mId, hid with
      | [a, b, c, d], _ => rfl
    rw [h8, h9]
    generalize hh : (⟨mId, size, f1, f2, f3, f4, f5, f6⟩ : FrameHeader) = h
    generalize hg1 : (⟨mId, size, g.mTagAlteredDiscardFrame, g.mFileAlteredDiscardFrame,
      g.mReadOnly, g.mCompressed, g.mEncrypted, g.mGrouped⟩ : FrameHeader) = g1
    have e1 := flags1_round_trip g1 h
    have e2 := flags2_round_trip (g1.setFlags1 h.getFlagByte1) h
    have hm : ((g1.setFlags1 h.getFlagByte1).setFlags2 h.getFlagByte2).mId = mId := by
      rw [← hg1]; rfl
    have hs : ((g1.setFlags1 h.getFlagByte1).setFlags2 h.getFlagByte2).mFrameSize = size := by
      rw [← hg1]; rfl
    have k1 : ((g1.setFlags1 h.getFlagByte1).setFlags2 h.getFlagByte2).mTagAlteredDiscardFrame
        = (g1.setFlags1 h.getFlagByte1).mTagAlteredDiscardFrame := rfl
    have k2 : ((g1.setFlags1 h.getFlagByte1).setFlags2 h.getFlagByte2).mFileAlteredDiscardFrame
        = (g1.setFlags1 h.getFlagByte1).mFileAlteredDiscardFrame := rfl
    have k3 : ((g1.setFlags1 h.getFlagByte1).setFlags2 h.getFlagByte2).mReadOnly
        = (g1.setFlags1 h.getFlagByte1).mReadOnly := rfl
    generalize hr : (g1.setFlags1 h.getFlagByte1).setFlags2 h.getFlagByte2 = r at *
    obtain ⟨r0, r1, r2, r3, r4, r5, r6, r7⟩ := r
    subst hh
    simp only at hm hs k1 k2 k3 e1 e2
    simp only [FrameHeader.mk.injEq]
    refine ⟨hm, hs, ?_, ?_, ?_, e2.1, e2.2.1, e2.2.2⟩
    · rw [k1]; exact e1.1
    · rw [k2]; exact e1.2.1
    · rw [k3]; exact e1.2.2
  · rw [hbytes, int_bytes]
    simp [hid]
  · rw [hbytes, hdrop, int_bytes]
    simp

/-- C28, witness: the header of a read-only, compressed `TIT2` frame of size
1000000 is written as `T I T 2 00 0F 42 40 20 80` and read back unchanged. -/
theorem frame_header_round_trip_witness :
    (FrameHeader.new []).convertFromBytes titleHeader.convertToBytes = titleHeader
      ∧ titleHeader.convertToBytes.length = 10
      ∧ (titleHeader.convertToBytes.drop 4).take 4
        = [toBits 1000000 / 2 ^ 24 % 256, toBits 1000000 / 2 ^ 16 % 256,
            toBits 1000000 / 2 ^ 8 % 256, toBits 1000000 % 256] :=
  frame_header_round_trip titleHeader (FrameHeader.new []) (by decide) (by decide)
    (by decide) (by decide)

end Monarch
namespace Monarch
namespace Config

theorem blt_of_lt {a b : Nat} (h : a < b) : Nat.blt a b = true := by
  simp [Nat.blt_eq, h]

theorem blt_of_not_lt {a b : Nat} (h : ¬ a < b) : Nat.blt a b = false := by
  cases hb : Nat.blt a b with
  | false => rfl
  | true => exact absurd (Nat.blt_eq.mp hb) h

theorem char_eq_of_toNat_eq {x y : Char} (h : x.toNat = y.toNat) : x = y := by
  have hx := Char.ofNat_toNat x
  rw [h, Char.ofNat_toNat] at hx
  exact hx.symm

theorem ltChars_irrefl : ∀ a : List Char, ltChars a a = false
  | [] => rfl
  | c :: cs => by
    unfold ltChars
    have h : Nat.blt c.toNat c.toNat = false := blt_of_not_lt (by omega)
    simp only [h, Bool.false_eq_true, if_false]
    exact ltChars_irrefl cs

theorem ltChars_trans : ∀ a b c : List Char,
    ltChars a b = true → ltChars b c = true → ltChars a c = true
  | [], [], _, h, _ => by simp [ltChars] at h
  | [], _ :: _, [], _, h => by simp [ltChars] at h
  | [], _ :: _, _ :: _, _, _ => by simp [ltChars]
  | _ :: _, [], _, h, _ => by simp [ltChars] at h
  | _ :: _, _ :: _, [], _, h => by simp [ltChars] at h
  | x :: xs, y :: ys, z :: zs, h1, h2 => by
    unfold ltChars at h1 h2 ⊢
    by_cases hxy : x.toNat < y.toNat
    · by_cases hyz : y.toNat < z.toNat
      · have : Nat.blt x.toNat z.toNat = true := blt_of_lt (by omega)
        simp [this]
      · have hyz' : Nat.blt y.toNat z.toNat = false := blt_of_not_lt (by omega)
        simp only [hyz', Bool.false_eq_true, if_false] at h2
        by_cases hzy : z.toNat < y.toNat
        · have : Nat.blt z.toNat y.toNat = true := blt_of_lt (by omega)
          simp [this] at h2
        · have : Nat.blt x.toNat z.toNat = true := blt_of_lt (by omega)
          simp [this]
    · have hxy' : Nat.blt x.toNat y.toNat = false := blt_of_not_lt (by omega)
      simp only [hxy', Bool.false_eq_true, if_false] at h1
      by_cases hyx : y.toNat < x.toNat
      · have : Nat.blt y.toNat x.toNat = true := blt_of_lt (by omega)
        simp [this] at h1
      · have hyx' : Nat.blt y.toNat x.toNat = false := blt_of_not_lt (by omega)
        simp only [hyx', Bool.false_eq_true, if_false] at h1
        have hxeq : x.toNat = y.toNat := by omega
        rw [hxeq]
        by_cases hyz : y.toNat < z.toNat
        · have : Nat.blt y.toNat z.toNat = true := blt_of_lt (by omega)
          simp [this]
        · have hyz' : Nat.blt y.toNat z.toNat = false := blt_of_not_lt (by omega)
          simp only [hyz', Bool.false_eq_true, if_false] at h2 ⊢
          by_cases hzy : z.toNat < y.toNat
          · have : Nat.blt z.toNat y.toNat = true := blt_of_lt (by omega)
            simp [this] at h2
          · have hzy' : Nat.blt z.toNat y.toNat = false := blt_of_not_lt (by omega)
            simp only [hzy', Bool.false_eq_true, if_false] at h2 ⊢
            exact ltChars_trans xs ys zs h1 h2

theorem ltChars_connected : ∀ a b : List Char,
    ltChars a b = false → ltChars b a = false → a = b
  | [], [], _, _ => rfl
  | [], _ :: _, h, _ => by simp [ltChars] at h
  | _ :: _, [], _, h => by simp [ltChars] at h
  | x :: xs, y :: ys, h1, h2 => by
    unfold ltChars at h1 h2
    by_cases hxy : x.toNat < y.toNat
    · have : Nat.blt x.toNat y.toNat = true := blt_of_lt (by omega)
      simp [this] at h1
    · have hxy' : Nat.blt x.toNat y.toNat = false := blt_of_not_lt (by omega)
      by_cases hyx : y.toNat < x.toNat
      · have : Nat.blt y.toNat x.toNat = true := blt_of_lt (by omega)
        simp [this] at h2
      · have hyx' : Nat.blt y.toNat x.toNat = false := blt_of_not_lt (by omega)
        simp only [hxy', hyx', Bool.false_eq_true, if_false] at h1 h2
        have hxeq : x = y := char_eq_of_toNat_eq (by omega)
        rw [hxeq, ltChars_connected xs ys h1 h2]

theorem ltChars_asymm (a b : List Char) (h : ltChars a b = true) : ltChars b a = false := by
  cases hba : ltChars b a with
  | false => rfl
  | true =>
    have := ltChars_trans a b a h hba
    rw [ltChars_irrefl] at this
    cases this

end Config

namespace DataBinding

open Config

theorem strcmp_neg (a b : String) : strcmp a b < 0 ↔ ltChars a.data b.data = true := by
  unfold strcmp
  split
  · simp [*]
  · split <;> simp [*]

theorem strcmp_pos (a b : String) : strcmp a b > 0 ↔ ltChars b.data a.data = true := by
  unfold strcmp
  split
  · rename_i h
    simp [ltChars_asymm _ _ h]
  · split <;> simp [*]

theorem strcmp_zero (a b : String) : strcmp a b = 0 ↔ a = b := by
  unfold strcmp
  constructor
  · intro h
    split at h
    · simp at h
    · split at h
      · simp at h
      · rename_i h1 h2
        exact String.ext
          (ltChars_connected _ _ (by simpa using h1) (by simpa using h2))
  · rintro rfl
    simp [ltChars_irrefl]

/-- The comparator, read as an order: `NULL` namespaces first, then the
namespaces in descending `strcmp` order, the names ascending within one
namespace. -/
theorem comparator_iff (a b : DataName) :
    DataNameComparator a b = true ↔
      match a.ns, b.ns with
      | none, some _ => True
      | some x, some y => ltChars y.data x.data = true
          ∨ (x = y ∧ ltChars a.name.data b.name.data = true)
      | none, none => ltChars a.name.data b.name.data = true
      | some _, none => False := by
  unfold DataNameComparator
  cases ha : a.ns with
  | none =>
    cases hb : b.ns with
    | none => simp [strcmp_neg]
    | some y => simp
  | some x =>
    cases hb : b.ns with
    | none => simp
    | some y =>
      simp only
      by_cases hpos : strcmp x y > 0
      · simp [hpos, (strcmp_pos x y).mp hpos]
      · have hn : ¬ ltChars y.data x.data = true := fun h => hpos ((strcmp_pos x y).mpr h)
        by_cases hz : strcmp x y = 0
        · have hxy := (strcmp_zero x y).mp hz
          subst hxy
          simp [hz, strcmp_neg, ltChars_irrefl]
        · have hxy : ¬ x = y := fun h => hz ((strcmp_zero x y).mpr h)
          simp [hpos, hz, hxy, hn]

end DataBinding
end Monarch
namespace Monarch
namespace DataBinding

open Config

theorem comparator_irrefl (a : DataName) : DataNameComparator a a = false := by
  cases h : DataNameComparator a a with
  | false => rfl
  | true =>
    have h' := (comparator_iff a a).mp h
    obtain ⟨_ | x, na⟩ := a
    · simp [ltChars_irrefl] at h'
    · simp [ltChars_irrefl] at h'

theorem comparator_trans (a b c : DataName) (h1 : DataNameComparator a b = true)
    (h2 : DataNameComparator b c = true) : DataNameComparator a c = true := by
  have k1 := (comparator_iff a b).mp h1
  have k2 := (comparator_iff b c).mp h2
  apply (comparator_iff a c).mpr
  obtain ⟨_ | x, na⟩ := a <;> obtain ⟨_ | y, nb⟩ := b <;> obtain ⟨_ | z, nc⟩ := c <;>
    simp only at k1 k2 ⊢
  · exact ltChars_trans _ _ _ k1 k2
  · rcases k1 with k1 | ⟨rfl, k1⟩
    · rcases k2 with k2 | ⟨rfl, k2⟩
      · exact Or.inl (ltChars_trans _ _ _ k2 k1)
      · exact Or.inl k1
    · rcases k2 with k2 | ⟨rfl, k2⟩
      · exact Or.inl k2
      · exact Or.inr ⟨rfl, ltChars_trans _ _ _ k1 k2⟩

theorem equivalent_iff (a b : DataName) :
    Equivalent a b ↔ a.ns = b.ns ∧ a.name = b.name := by
  constructor
  · rintro ⟨h1, h2⟩
    have k1 : ¬ _ := fun h => by
      have := (comparator_iff a b).mpr h
      rw [h1] at this
      cases this
    have k2 : ¬ _ := fun h => by
      have := (comparator_iff b a).mpr h
      rw [h2] at this
      cases this
    obtain ⟨_ | x, na⟩ := a <;> obtain ⟨_ | y, nb⟩ := b <;> simp only at k1 k2
    · refine ⟨rfl, String.ext (ltChars_connected _ _ ?_ ?_)⟩
      · simpa using k1
      · simpa using k2
    · exact absurd trivial k1
    · exact absurd trivial k2
    · have hxy : x = y := by
        apply String.ext
        apply ltChars_connected
        · cases h : ltChars x.data y.data with
          | false => rfl
          | true => exact absurd (Or.inl h) k2
        · cases h : ltChars y.data x.data with
          | false => rfl
          | true => exact absurd (Or.inl h) k1
      subst hxy
      refine ⟨rfl, String.ext (ltChars_connected _ _ ?_ ?_)⟩
      · cases h : ltChars na.data nb.data with
        | false => rfl
        | true => exact absurd (Or.inr ⟨rfl, h⟩) k1
      · cases h : ltChars nb.data na.data with
        | false => rfl
        | true => exact absurd (Or.inr ⟨rfl, h⟩) k2
  · rintro ⟨h1, h2⟩
    obtain ⟨nsa, na⟩ := a
    obtain ⟨nsb, nb⟩ := b
    simp only at h1 h2
    subst h1 h2
    exact ⟨comparator_irrefl _, comparator_irrefl _⟩

end DataBinding

open DataBinding

/-- C29.  `DataNameComparator` is a strict weak ordering of `DataName`s: it is
irreflexive and transitive, and being equivalent under it (neither name before
the other) is transitive; two names are equivalent exactly when their
namespaces are both `NULL` or equal strings and their names are equal
strings. -/
theorem dataNameComparator_strict_weak_ordering :
    (∀ a, DataNameComparator a a = false)
      ∧ (∀ a b c, DataNameComparator a b = true → DataNameComparator b c = true →
          DataNameComparator a c = true)
      ∧ (∀ a b c, Equivalent a b → Equivalent b c → Equivalent a c)
      ∧ (∀ a b, Equivalent a b ↔
          ((a.ns = none ∧ b.ns = none) ∨ (∃ x, a.ns = some x ∧ b.ns = some x))
            ∧ a.name = b.name) := by
  refine ⟨comparator_irrefl, comparator_trans, ?_, ?_⟩
  · intro a b c hab hbc
    rw [equivalent_iff] at hab hbc ⊢
    exact ⟨hab.1.trans hbc.1, hab.2.trans hbc.2⟩
  · intro a b
    rw [equivalent_iff]
    constructor
    · rintro ⟨h1, h2⟩
      refine ⟨?_, h2⟩
      cases ha : a.ns with
      | none => exact Or.inl ⟨rfl, by rw [← h1, ha]⟩
      | some x => exact Or.inr ⟨x, rfl, by rw [← h1, ha]⟩
    · rintro ⟨h1 | ⟨x, h1, h2⟩, h3⟩
      · exact ⟨by rw [h1.1, h1.2], h3⟩
      · exact ⟨by rw [h1, h2], h3⟩

/-- C29, witness: with namespaces `b`, `a` and `NULL` the comparator puts
`NULL` first and `b` before `a`, and the ordering is transitive on them. -/
theorem dataNameComparator_strict_weak_ordering_witness :
    DataNameComparator ⟨none, "z"⟩ ⟨some "a", "x"⟩ = true :=
  dataNameComparator_strict_weak_ordering.2.1 ⟨none, "z"⟩ ⟨some "b", "y"⟩ ⟨some "a", "x"⟩
    (by rfl) (by rfl)

end Monarch
namespace Monarch

open CharacterSetMutator

/-- C30, what the code does.  `reset` returns false in every case, also when
character sets have been set and the reset of the conversion state succeeds;
it always leaves the count of non-reversible conversions at 0, and it sets an
exception exactly in the two failure cases. -/
theorem reset_never_returns_true (iconvReset : Nat → Nat) (m : CharacterSetMutator) :
    (reset iconvReset m).2.1 = false
      ∧ (reset iconvReset m).1.mNonReversibles = 0
      ∧ ((reset iconvReset m).2.2 = none ↔
          ∃ cd, m.mConvertDescriptor = some cd ∧ iconvReset cd ≠ 2 ^ 64 - 1) := by
  unfold reset
  cases hd : m.mConvertDescriptor with
  | none => simp
  | some cd =>
    by_cases hr : iconvReset cd = 2 ^ 64 - 1
    · simp [hr]
    · have hr' : ¬ iconvReset cd = 18446744073709551615 := hr
      simp [hr']

/-- C30, failing input: a mutator whose character sets were set, with an
`iconv` whose reset succeeds (returns 0): `reset` sets no exception, zeroes the
count and returns false. -/
theorem reset_false_on_success :
    (setCharacterSets (fun _ => 0) (fun _ _ => some 1) new "UTF-8" "ISO-8859-1").1
        = ⟨some 1, false, 0⟩
      ∧ reset (fun _ => 0) readyMutator = (⟨some 1, false, 0⟩, false, none) :=
  ⟨by rfl, by rfl⟩

end Monarch
